import Mathlib

/-!
# Parallel union and intersection of Roaring bitmaps (`parallel.go`)

A shallow embedding of `parallel.go`: the key merge heap
(`bitmapContainerHeap`, driven through Go's `container/heap`), the repair and
upgrade steps (`repairAfterLazy`, `toBitmapContainer`), the sequential
`horizontalOr`, the result assembler `appenderRoutine`, and the two pipelines
`ParOr` and `ParAnd`.

Go slices are lists, Go `int` is `Int` where a negative value can occur and `Nat`
for slice positions, `uint16` keys and values are naturals below `65536`.
Goroutines and channels are made explicit: the coordinating loop produces the
list of messages it dispatches, the workers map each queued batch to a result,
and a scheduler decides the order in which the assembler receives the messages.
The container methods, which live outside `parallel.go`, are a parameter
(`containerMethods`) together with the set contract they are assumed to meet.
-/

namespace Roaring

/-! ## Data model -/

/-- Modelled from the spec: the sparse container, an array of sorted 16-bit
values (`arrayContainer`, declared outside `parallel.go`). -/
structure arrayContainer where
  content : List Nat
  deriving DecidableEq, Inhabited

/-- Modelled from the spec: the dense container, a fixed-size bitset of 65536
bits with a cached cardinality that may hold the "unknown" sentinel
(`bitmapContainer`, declared outside `parallel.go`). The bitset is held as the
natural number whose bit `v` is set exactly when `v` is present. -/
structure bitmapContainer where
  cardinality : Int
  bitmap : Nat
  deriving DecidableEq, Inhabited

/-- Modelled from the spec: the run-length container, a list of runs given by
their first and last value (`runContainer16`, declared outside `parallel.go`). -/
structure runContainer16 where
  iv : List (Nat × Nat)
  deriving DecidableEq, Inhabited

/-- Modelled from the spec: the `container` interface, whose dynamic type is one
of the three representations; `parallel.go` switches on it. -/
inductive container where
  | array (t : arrayContainer)
  | bitmap (t : bitmapContainer)
  | run (t : runContainer16)
  deriving DecidableEq, Inhabited

/-- Modelled from the spec: the ordered container registry `roaringArray`; the
field order is that of the struct literal in `appenderRoutine`. -/
structure roaringArray where
  keys : List Nat
  containers : List container
  needCopyOnWrite : List Bool
  copyOnWrite : Bool
  conserz : List Nat
  deriving DecidableEq, Inhabited

/-- Modelled from the spec: a `Bitmap` is its registry `highlowcontainer`. -/
structure Bitmap where
  highlowcontainer : roaringArray
  deriving DecidableEq, Inhabited

/-- Modelled from the spec: `roaringArray.size`, the number of keys. -/
def roaringArray.size (ra : roaringArray) : Nat := ra.keys.length

/-- Modelled from the spec: `roaringArray.getWritableContainerAtIndex`. The
container at position `i`; the clone made first when the entry is shared is an
equal value, so the value returned is `containers[i]`. -/
def roaringArray.getWritableContainerAtIndex (ra : roaringArray) (i : Nat) : container :=
  ra.containers.getD i default

/-- Modelled from the spec: `roaringArray.appendContainer(key, value,
mustCopyOnWrite)` appends one entry to the three parallel slices. -/
def roaringArray.appendContainer (ra : roaringArray) (key : Nat) (value : container)
    (mustCopyOnWrite : Bool) : roaringArray :=
  { ra with
    keys := ra.keys ++ [key]
    containers := ra.containers ++ [value]
    needCopyOnWrite := ra.needCopyOnWrite ++ [mustCopyOnWrite] }

/-- Modelled from the spec: `roaringArray.getContainer(key)`, the container
registered under `key`, if any. -/
def roaringArray.getContainer (ra : roaringArray) (key : Nat) : Option container :=
  ((ra.keys.zip ra.containers).find? (fun kc => kc.1 == key)).map (fun kc => kc.2)

/-- Modelled from the spec: `Bitmap.IsEmpty`, no container in the registry. -/
def Bitmap.IsEmpty (rb : Bitmap) : Bool := rb.highlowcontainer.size == 0

/-- Modelled from the spec: `New()`, the empty bitmap. -/
def New : Bitmap := ⟨⟨[], [], [], false, []⟩⟩

/-- Modelled from the spec: `MaxUint16`, the largest 16-bit value. -/
def MaxUint16 : Nat := 65535

/-- Modelled from the spec: the Container Capability, the methods of `container`
and the two constants that `parallel.go` consumes; all of them are declared
outside `parallel.go`. -/
structure containerMethods where
  arrayDefaultMaxSize : Int
  invalidCardinality : Int
  contains : container → Nat → Bool
  and : container → container → container
  iand : container → container → container
  lazyOR : container → container → container
  lazyIOR : container → container → container
  computeCardinality : bitmapContainer → bitmapContainer
  getCardinality : bitmapContainer → Int
  bitmapIsFull : bitmapContainer → Bool
  toArrayContainer : bitmapContainer → arrayContainer
  arrayToBitmapContainer : arrayContainer → bitmapContainer
  runIsFull : runContainer16 → Bool
  runToBitmapContainer : runContainer16 → bitmapContainer
  newRunContainer16Range : Nat → Nat → runContainer16

/-- Modelled from the spec: `Bitmap.Contains(x)`, membership of the 32-bit
integer `x`: the container under the high 16 bits holds the low 16 bits. -/
def Bitmap.Contains (M : containerMethods) (rb : Bitmap) (x : Nat) : Bool :=
  match rb.highlowcontainer.getContainer (x / 65536) with
  | some c => M.contains c (x % 65536)
  | none => false

/-- An entry of the merge heap (`bitmapContainerKey`). -/
structure bitmapContainerKey where
  bitmap : Bitmap
  container : container
  key : Nat
  idx : Nat
  deriving DecidableEq, Inhabited

/-- A grouped-key batch (`multipleContainers`). -/
structure multipleContainers where
  key : Nat
  containers : List container
  idx : Int
  deriving DecidableEq, Inhabited

/-- An indexed result (`keyedContainer`). -/
structure keyedContainer where
  key : Nat
  container : container
  idx : Int
  deriving DecidableEq, Inhabited

/-- The merge heap is a slice of entries. -/
abbrev bitmapContainerHeap := List bitmapContainerKey

/-! ## The heap interface of `bitmapContainerHeap` -/

/-- The method `Len`. -/
def bitmapContainerHeap.Len (h : bitmapContainerHeap) : Nat := h.length

/-- The method `Less`: `h[i].key < h[j].key`. -/
def bitmapContainerHeap.Less (h : bitmapContainerHeap) (i j : Nat) : Bool :=
  decide ((h.getD i default).key < (h.getD j default).key)

/-- The method `Swap`: `h[i], h[j] = h[j], h[i]`. -/
def bitmapContainerHeap.Swap (h : bitmapContainerHeap) (i j : Nat) : bitmapContainerHeap :=
  (h.set i (h.getD j default)).set j (h.getD i default)

/-- The method `Push`: append to the slice. -/
def bitmapContainerHeap.Push (h : bitmapContainerHeap) (x : bitmapContainerKey) :
    bitmapContainerHeap :=
  h ++ [x]

/-- The method `Pop`: the last element and the slice without it. -/
def bitmapContainerHeap.Pop (h : bitmapContainerHeap) : bitmapContainerKey × bitmapContainerHeap :=
  (h.getD (h.length - 1) default, h.take (h.length - 1))

/-- The method `Peek`: `h[0]`. -/
def bitmapContainerHeap.Peek (h : bitmapContainerHeap) : bitmapContainerKey :=
  h.getD 0 default

/-! ## Go's `container/heap`, as called on `bitmapContainerHeap`

The functions `Init`, `Fix`, `Pop` and their helpers `up` and `down` of the
standard library package `container/heap`, which `parallel.go` imports, written
over the `Len`, `Less`, `Swap` and `Pop` methods above. Indices are naturals; the
overflow test `j1 < 0` of `down` has no counterpart. -/

/-- The loop of `heap.down(h, i0, n)`: sift the element at `i` down within the
first `n` positions. Every round moves `i` to a child, so `n` rounds of fuel are
never used up. Returns the slice and the final `i`. -/
def heap.downLoop : Nat → bitmapContainerHeap → Nat → Nat → bitmapContainerHeap × Nat
  | 0, h, i, _ => (h, i)
  | fuel + 1, h, i, n =>
    let j1 := 2 * i + 1
    if n ≤ j1 then (h, i)
    else
      let j := if j1 + 1 < n && h.Less (j1 + 1) j1 then j1 + 1 else j1
      if !h.Less j i then (h, i)
      else heap.downLoop fuel (h.Swap i j) j n

/-- The function `heap.down(h, i0, n)`; the flag is `i > i0`. -/
def heap.down (h : bitmapContainerHeap) (i0 n : Nat) : bitmapContainerHeap × Bool :=
  let r := heap.downLoop n h i0 n
  (r.1, decide (i0 < r.2))

/-- The loop of `heap.up(h, j)`: sift the element at `j` up; the parent of `j` is
`(j - 1) / 2`, which is `0` for `j = 0` in Go as well. -/
def heap.upLoop : Nat → bitmapContainerHeap → Nat → bitmapContainerHeap
  | 0, h, _ => h
  | fuel + 1, h, j =>
    let i := (j - 1) / 2
    if i == j || !h.Less j i then h
    else heap.upLoop fuel (h.Swap i j) i

/-- The function `heap.up(h, j)`. -/
def heap.up (h : bitmapContainerHeap) (j : Nat) : bitmapContainerHeap :=
  heap.upLoop (j + 1) h j

/-- The function `heap.Init(h)`: sift down from `n/2 - 1` to `0`. -/
def heap.Init (h : bitmapContainerHeap) : bitmapContainerHeap :=
  let n := h.Len
  (List.range (n / 2)).reverse.foldl (fun h i => (heap.down h i n).1) h

/-- The function `heap.Fix(h, i)`. -/
def heap.Fix (h : bitmapContainerHeap) (i : Nat) : bitmapContainerHeap :=
  let r := heap.down h i h.Len
  if !r.2 then heap.up r.1 i else r.1

/-- The function `heap.Pop(h)`: move the root to the end, restore the heap on the
rest and remove the last element. -/
def heap.Pop (h : bitmapContainerHeap) : bitmapContainerKey × bitmapContainerHeap :=
  let n := h.Len - 1
  let h := h.Swap 0 n
  let h := (heap.down h 0 n).1
  h.Pop

/-! ## The key merge heap -/

/-- The method `PopIncrementing`: return the root entry and advance its cursor,
replacing the root when the owning bitmap has a next container and removing it
otherwise. -/
def bitmapContainerHeap.PopIncrementing (h : bitmapContainerHeap) :
    bitmapContainerKey × bitmapContainerHeap :=
  let k := h.Peek
  let newIdx := k.idx + 1
  if newIdx < k.bitmap.highlowcontainer.size then
    let newKey : bitmapContainerKey :=
      { bitmap := k.bitmap
        container := k.bitmap.highlowcontainer.getWritableContainerAtIndex newIdx
        key := k.bitmap.highlowcontainer.keys.getD newIdx 0
        idx := newIdx }
    (k, heap.Fix (h.set 0 newKey) 0)
  else
    (k, (heap.Pop h).2)

/-- The number of containers not yet returned, plus the number of live entries:
every `PopIncrementing` makes it smaller, so it bounds the loops over the heap. -/
def bitmapContainerHeap.fuel (h : bitmapContainerHeap) : Nat :=
  (h.map (fun e => e.bitmap.highlowcontainer.size - e.idx)).sum + h.length

/-- The loop of `PopNextContainers`: while the root has the batch key, pop it. -/
def bitmapContainerHeap.popSameKey :
    Nat → Nat → bitmapContainerHeap → List container → List container × bitmapContainerHeap
  | 0, _, h, containers => (containers, h)
  | fuel + 1, key, h, containers =>
    if 0 < h.Len && key == h.Peek.key then
      let r := h.PopIncrementing
      bitmapContainerHeap.popSameKey fuel key r.2 (containers ++ [r.1.container])
    else (containers, h)

/-- The method `PopNextContainers`: the batch for the smallest key. -/
def bitmapContainerHeap.PopNextContainers (h : bitmapContainerHeap) :
    multipleContainers × bitmapContainerHeap :=
  if h.Len == 0 then (⟨0, [], 0⟩, h)
  else
    let r := h.PopIncrementing
    let containers := [r.1.container]
    let key := r.1.key
    let l := bitmapContainerHeap.popSameKey r.2.fuel key r.2 containers
    (⟨key, l.1, -1⟩, l.2)

/-- The function `newBitmapContainerHeap`: one entry per non-empty bitmap, at its
first key, then `heap.Init`. -/
def newBitmapContainerHeap (bitmaps : List Bitmap) : bitmapContainerHeap :=
  let h := bitmaps.foldl (fun (h : bitmapContainerHeap) bitmap =>
    if !bitmap.IsEmpty then
      h ++ [{ bitmap := bitmap
              container := bitmap.highlowcontainer.getWritableContainerAtIndex 0
              key := bitmap.highlowcontainer.keys.getD 0 0
              idx := 0 }]
    else h) []
  heap.Init h

/-! ## Repair and upgrade -/

/-- The function `repairAfterLazy`. `computeCardinality` updates the container in
place, so the container returned in the last case is the updated one. -/
def repairAfterLazy (M : containerMethods) (c : container) : container :=
  match c with
  | .bitmap t =>
    let t := if t.cardinality = M.invalidCardinality then M.computeCardinality t else t
    if M.getCardinality t ≤ M.arrayDefaultMaxSize then .array (M.toArrayContainer t)
    else if M.bitmapIsFull t then .run (M.newRunContainer16Range 0 MaxUint16)
    else .bitmap t
  | _ => c

/-- The function `toBitmapContainer`. -/
def toBitmapContainer (M : containerMethods) (c : container) : container :=
  match c with
  | .array t => .bitmap (M.arrayToBitmapContainer t)
  | .run t => if !M.runIsFull t then .bitmap (M.runToBitmapContainer t) else c
  | _ => c

/-! ## Sequential horizontal union -/

/-- The body of the loop of `horizontalOr` for one batch: `none` is the
index-out-of-range failure of `item.containers[0]` on an empty slice. The two
`Printf` calls only print. -/
def horizontalOr.step (M : containerMethods) (answer : Bitmap) (item : multipleContainers) :
    Option Bitmap :=
  if item.containers.length == 0 then
    match item.containers with
    | [] => none
    | c0 :: _ => some ⟨answer.highlowcontainer.appendContainer item.key c0 true⟩
  else
    match item.containers with
    | [] => none
    | c0 :: rest =>
      let c := toBitmapContainer M c0
      let c := rest.foldl (fun c next => M.lazyIOR c next) c
      let c := repairAfterLazy M c
      some ⟨answer.highlowcontainer.appendContainer item.key c false⟩

/-- The loop `for h.Len() > 0` of `horizontalOr`. -/
def horizontalOr.loop (M : containerMethods) :
    Nat → bitmapContainerHeap → Bitmap → Option Bitmap
  | 0, _, answer => some answer
  | fuel + 1, h, answer =>
    if 0 < h.Len then
      let r := h.PopNextContainers
      match horizontalOr.step M answer r.1 with
      | none => none
      | some answer => horizontalOr.loop M fuel r.2 answer
    else some answer

/-- The function `horizontalOr`. -/
def horizontalOr (M : containerMethods) (bitmaps : List Bitmap) : Option Bitmap :=
  let h := newBitmapContainerHeap bitmaps
  horizontalOr.loop M h.fuel h New

/-! ## The result assembler -/

/-- What the assembler receives: an indexed result on `resultChan` or the
expected count on `expectedKeysChan`. -/
inductive appenderMsg where
  | result (item : keyedContainer)
  | expectedKeys (msg : Int)
  deriving DecidableEq, Inhabited

/-- How a run of `appenderRoutine` ends. -/
inductive appenderOutcome where
  /-- The loop ended and `answer` was sent on `bitmapChan`; `unread` are the
  messages it had not received. -/
  | delivered (answer : Bitmap) (unread : List appenderMsg)
  /-- Every message was received and the loop still waits for another one. -/
  | blocked
  /-- An index out of range: a result with a negative `idx`. -/
  | indexOutOfRange
  /-- The loop ended with a slot that no result had filled, a `nil` container,
  which the registry of the data model cannot hold. -/
  | nilContainer
  deriving DecidableEq, Inhabited

/-- The final loop of `appenderRoutine`, `for i := range keys`, appending
`keys[i], containers[i]` with the copy-on-write flag `false`. -/
def appenderRoutine.build : List Nat → List (Option container) → roaringArray → Option roaringArray
  | [], _, ra => some ra
  | _ :: _, [], _ => none
  | _ :: _, none :: _, _ => none
  | k :: keys, some c :: containers, ra =>
    appenderRoutine.build keys containers (ra.appendContainer k c false)

/-- The end of `appenderRoutine`: build the registry from the scratch slices and
send the bitmap on `bitmapChan`. -/
def appenderRoutine.deliver (keys : List Nat) (containers : List (Option container))
    (unread : List appenderMsg) : appenderOutcome :=
  match appenderRoutine.build keys containers ⟨[], [], [], false, []⟩ with
  | some ra => .delivered ⟨ra⟩ unread
  | none => .nilContainer

/-- The receiving loop of `appenderRoutine`, `for appendedKeys != expectedKeys`,
on the messages in the order in which they are received. `keys` and `containers`
are the two scratch slices; a slot of `containers` not yet filled is `nil`. -/
def appenderRoutine.loop (expectedKeys appendedKeys : Int) (keys : List Nat)
    (containers : List (Option container)) : List appenderMsg → appenderOutcome
  | [] =>
    if appendedKeys ≠ expectedKeys then .blocked
    else appenderRoutine.deliver keys containers []
  | .result item :: rest =>
    if appendedKeys ≠ expectedKeys then
      if item.idx < 0 then .indexOutOfRange
      else
        let i := item.idx.toNat
        let keys' := if keys.length ≤ i then keys ++ List.replicate (i - keys.length + 1) 0
          else keys
        let containers' :=
          if keys.length ≤ i then containers ++ List.replicate (i - containers.length + 1) none
          else containers
        appenderRoutine.loop expectedKeys (appendedKeys + 1) (keys'.set i item.key)
          (containers'.set i (some item.container)) rest
    else appenderRoutine.deliver keys containers (.result item :: rest)
  | .expectedKeys msg :: rest =>
    if appendedKeys ≠ expectedKeys then
      appenderRoutine.loop msg appendedKeys keys containers rest
    else appenderRoutine.deliver keys containers (.expectedKeys msg :: rest)

/-- The function `appenderRoutine`, on the messages in arrival order. -/
def appenderRoutine (msgs : List appenderMsg) : appenderOutcome :=
  appenderRoutine.loop (-1) 0 [] [] msgs

/-! ## The parallel pipelines -/

/-- What the coordinating loop sends: a result straight to the assembler
(`resultChan`) or a batch to the workers (`inputChan`). -/
inductive dispatched where
  | result (kx : keyedContainer)
  | input (ck : multipleContainers)
  deriving DecidableEq, Inhabited

/-- The worker `orFunc` on one batch of `inputChan`; `none` is the
index-out-of-range failure on a batch of fewer than two containers. -/
def ParOr.orFunc (M : containerMethods) (input : multipleContainers) : Option keyedContainer :=
  match input.containers with
  | c0 :: c1 :: rest =>
    let c := M.lazyOR (toBitmapContainer M c0) c1
    let c := rest.foldl (fun c next => M.lazyIOR c next) c
    let c := repairAfterLazy M c
    some ⟨input.key, c, input.idx⟩
  | _ => none

/-- The coordinating loop of `ParOr`, `for h.Len() > 0`: what it sends, in order,
and the final `idx`. -/
def ParOr.dispatch : Nat → bitmapContainerHeap → Int → List dispatched × Int
  | 0, _, idx => ([], idx)
  | fuel + 1, h, idx =>
    if 0 < h.Len then
      let r := h.PopNextContainers
      let ck := r.1
      let d : dispatched :=
        if ck.containers.length == 1 then
          .result ⟨ck.key, ck.containers.getD 0 default, idx⟩
        else .input { ck with idx := idx }
      let rest := ParOr.dispatch fuel r.2 (idx + 1)
      (d :: rest.1, rest.2)
    else ([], idx)

/-- The worker `andFunc` on one batch of `inputChan`; `none` is the
index-out-of-range failure on a batch of fewer than two containers. -/
def ParAnd.andFunc (M : containerMethods) (input : multipleContainers) : Option keyedContainer :=
  match input.containers with
  | c0 :: c1 :: rest =>
    let c := M.and c0 c1
    let c := rest.foldl (fun c next => M.iand c next) c
    some ⟨input.key, c, input.idx⟩
  | _ => none

/-- The coordinating loop of `ParAnd`, `for h.Len() > 0`: what it sends, in
order, and the final `idx`. -/
def ParAnd.dispatch (bitmapCount : Nat) : Nat → bitmapContainerHeap → Int → List dispatched × Int
  | 0, _, idx => ([], idx)
  | fuel + 1, h, idx =>
    if 0 < h.Len then
      let r := h.PopNextContainers
      let ck := r.1
      if ck.containers.length == bitmapCount then
        let rest := ParAnd.dispatch bitmapCount fuel r.2 (idx + 1)
        (.input { ck with idx := idx } :: rest.1, rest.2)
      else ParAnd.dispatch bitmapCount fuel r.2 idx
    else ([], idx)

/-- The results that reach `resultChan`: those sent directly, and for every
queued batch what the worker makes of it; `defaultWorkerCount` is
`runtime.NumCPU()`, so at least one worker takes batches from `inputChan`.
`none` when a worker fails, which ends the whole program. -/
def workerResults (worker : multipleContainers → Option keyedContainer) :
    List dispatched → Option (List keyedContainer)
  | [] => some []
  | .result kx :: ds => (workerResults worker ds).map (fun rs => kx :: rs)
  | .input ck :: ds =>
    match worker ck with
    | none => none
    | some kx => (workerResults worker ds).map (fun rs => kx :: rs)

/-- The order in which the assembler receives what was sent to it is decided by
the scheduler; a scheduler only reorders. -/
def IsScheduler (sched : List appenderMsg → List appenderMsg) : Prop :=
  ∀ msgs, (sched msgs).Perm msgs

/-- The common end of `ParOr` and `ParAnd`: the results and the expected count go
to the assembler in the order `sched` decides, and the bitmap received on
`bitmapChan` is returned. `none` when a worker failed or the assembler never
delivers. -/
def runPipeline (sched : List appenderMsg → List appenderMsg)
    (worker : multipleContainers → Option keyedContainer) (sent : List dispatched × Int) :
    Option Bitmap :=
  match workerResults worker sent.1 with
  | none => none
  | some results =>
    match appenderRoutine (sched (results.map .result ++ [.expectedKeys sent.2])) with
    | .delivered answer _ => some answer
    | _ => none

/-- The function `ParOr`. -/
def ParOr (M : containerMethods) (sched : List appenderMsg → List appenderMsg)
    (bitmaps : List Bitmap) : Option Bitmap :=
  let h := newBitmapContainerHeap bitmaps
  runPipeline sched (ParOr.orFunc M) (ParOr.dispatch h.fuel h 0)

/-- The function `ParAnd`. -/
def ParAnd (M : containerMethods) (sched : List appenderMsg → List appenderMsg)
    (bitmaps : List Bitmap) : Option Bitmap :=
  let bitmapCount := bitmaps.length
  let h := newBitmapContainerHeap bitmaps
  runPipeline sched (ParAnd.andFunc M) (ParAnd.dispatch bitmapCount h.fuel h 0)

/-! ## The set contract of the container methods -/

/-- The set contract assumed of the container methods, relative to a container
invariant `valid`: on valid containers, intersection and union compute the
intersection and union of the members, the conversions and the cardinality
computation keep the members, a dense container reported full holds every value,
and every result is valid again. Values are 16-bit: `v < 65536`. -/
structure SetContract (M : containerMethods) (valid : container → Bool) : Prop where
  and_valid : ∀ a b, valid a = true → valid b = true → valid (M.and a b) = true
  and_contains : ∀ a b v, valid a = true → valid b = true → v < 65536 →
    M.contains (M.and a b) v = (M.contains a v && M.contains b v)
  iand_valid : ∀ a b, valid a = true → valid b = true → valid (M.iand a b) = true
  iand_contains : ∀ a b v, valid a = true → valid b = true → v < 65536 →
    M.contains (M.iand a b) v = (M.contains a v && M.contains b v)
  lazyOR_valid : ∀ a b, valid a = true → valid b = true → valid (M.lazyOR a b) = true
  lazyOR_contains : ∀ a b v, valid a = true → valid b = true → v < 65536 →
    M.contains (M.lazyOR a b) v = (M.contains a v || M.contains b v)
  lazyIOR_valid : ∀ a b, valid a = true → valid b = true → valid (M.lazyIOR a b) = true
  lazyIOR_contains : ∀ a b v, valid a = true → valid b = true → v < 65536 →
    M.contains (M.lazyIOR a b) v = (M.contains a v || M.contains b v)
  computeCardinality_valid : ∀ t, valid (.bitmap t) = true →
    valid (.bitmap (M.computeCardinality t)) = true
  computeCardinality_known : ∀ t, valid (.bitmap t) = true →
    (M.computeCardinality t).cardinality ≠ M.invalidCardinality
  computeCardinality_contains : ∀ t v, valid (.bitmap t) = true → v < 65536 →
    M.contains (.bitmap (M.computeCardinality t)) v = M.contains (.bitmap t) v
  toArrayContainer_valid : ∀ t, valid (.bitmap t) = true →
    t.cardinality ≠ M.invalidCardinality → valid (.array (M.toArrayContainer t)) = true
  toArrayContainer_contains : ∀ t v, valid (.bitmap t) = true →
    t.cardinality ≠ M.invalidCardinality → v < 65536 →
    M.contains (.array (M.toArrayContainer t)) v = M.contains (.bitmap t) v
  bitmapIsFull_contains : ∀ t v, valid (.bitmap t) = true →
    t.cardinality ≠ M.invalidCardinality → M.bitmapIsFull t = true → v < 65536 →
    M.contains (.bitmap t) v = true
  arrayToBitmapContainer_valid : ∀ t, valid (.array t) = true →
    valid (.bitmap (M.arrayToBitmapContainer t)) = true
  arrayToBitmapContainer_contains : ∀ t v, valid (.array t) = true → v < 65536 →
    M.contains (.bitmap (M.arrayToBitmapContainer t)) v = M.contains (.array t) v
  runToBitmapContainer_valid : ∀ t, valid (.run t) = true →
    valid (.bitmap (M.runToBitmapContainer t)) = true
  runToBitmapContainer_contains : ∀ t v, valid (.run t) = true → v < 65536 →
    M.contains (.bitmap (M.runToBitmapContainer t)) v = M.contains (.run t) v
  newRunContainer16Range_valid : valid (.run (M.newRunContainer16Range 0 MaxUint16)) = true
  newRunContainer16Range_contains : ∀ v, v < 65536 →
    M.contains (.run (M.newRunContainer16Range 0 MaxUint16)) v = true

/-- A well-formed bitmap: the keys are 16-bit and strictly ascending, the three
slices of the registry have one length, and every container is valid. -/
def Bitmap.WellFormed (valid : container → Bool) (rb : Bitmap) : Prop :=
  rb.highlowcontainer.keys.Pairwise (fun a b => a < b) ∧
  (∀ k ∈ rb.highlowcontainer.keys, k < 65536) ∧
  rb.highlowcontainer.containers.length = rb.highlowcontainer.keys.length ∧
  rb.highlowcontainer.needCopyOnWrite.length = rb.highlowcontainer.keys.length ∧
  (∀ c ∈ rb.highlowcontainer.containers, valid c = true)

instance (valid : container → Bool) (rb : Bitmap) : Decidable (rb.WellFormed valid) := by
  unfold Bitmap.WellFormed; infer_instance

/-! ## A reference implementation of the container methods

The contract is satisfiable: the methods below compute on the bitset of a
container and meet it with every container valid. -/

/-- The number of set bits of `n`; the first argument bounds the recursion and
`n` itself is always enough. -/
def refPopCount : Nat → Nat → Nat
  | 0, _ => 0
  | fuel + 1, n => if n = 0 then 0 else n % 2 + refPopCount fuel (n / 2)

/-- The positions of the set bits of `n`, counted from `pos`, in ascending order;
the first argument bounds the recursion. -/
def refSetBits : Nat → Nat → Nat → List Nat
  | 0, _, _ => []
  | fuel + 1, pos, n =>
    if n = 0 then []
    else (if n % 2 = 1 then [pos] else []) ++ refSetBits fuel (pos + 1) (n / 2)

/-- The bitset with exactly the values of the list set. -/
def refBitsOfList (l : List Nat) : Nat :=
  l.foldr (fun v acc => acc ||| (1 <<< v)) 0

/-- The bitset with exactly the values `first..last` set. -/
def refBitsOfRun (r : Nat × Nat) : Nat :=
  ((1 <<< (r.2 + 1 - r.1)) - 1) <<< r.1

/-- The members of a container as a bitset. -/
def refBits : container → Nat
  | .array t => refBitsOfList t.content
  | .bitmap t => t.bitmap
  | .run t => t.iv.foldr (fun r acc => acc ||| refBitsOfRun r) 0

/-- A dense container with the given bitset and its exact cardinality. -/
def refDense (b : Nat) : bitmapContainer := ⟨refPopCount b b, b⟩

/-- Whether the 65536 values are all present in the bitset. -/
def refFull (b : Nat) : Bool := b % 2 ^ 65536 == 2 ^ 65536 - 1

/-- The reference container methods: the sparse threshold is 4096 and the
unknown-cardinality sentinel is -1. -/
def refMethods : containerMethods where
  arrayDefaultMaxSize := 4096
  invalidCardinality := -1
  contains := fun c v => (refBits c).testBit v
  and := fun a b => .bitmap (refDense (refBits a &&& refBits b))
  iand := fun a b => .bitmap (refDense (refBits a &&& refBits b))
  lazyOR := fun a b => .bitmap ⟨-1, refBits a ||| refBits b⟩
  lazyIOR := fun a b => .bitmap ⟨-1, refBits a ||| refBits b⟩
  computeCardinality := fun t => refDense t.bitmap
  getCardinality := fun t => t.cardinality
  bitmapIsFull := fun t => refFull t.bitmap
  toArrayContainer := fun t => ⟨refSetBits t.bitmap 0 t.bitmap⟩
  arrayToBitmapContainer := fun t => refDense (refBits (.array t))
  runIsFull := fun t => refFull (refBits (.run t))
  runToBitmapContainer := fun t => refDense (refBits (.run t))
  newRunContainer16Range := fun a b => ⟨[(a, b)]⟩

/-- Every container is valid for the reference methods. -/
def refValid : container → Bool := fun _ => true

/-- The bitmap with one sparse container per key. -/
def refBitmap (entries : List (Nat × List Nat)) : Bitmap :=
  ⟨⟨entries.map (fun e => e.1), entries.map (fun e => .array ⟨e.2⟩),
    entries.map (fun _ => false), false, []⟩⟩

/-- The scheduler that delivers in the order of sending. -/
def fifo : List appenderMsg → List appenderMsg := fun msgs => msgs

/-- The scheduler that delivers the latest message first. -/
def lifo : List appenderMsg → List appenderMsg := fun msgs => msgs.reverse

/-! ## Specification vocabulary

Predicates and functions used to state and prove the properties below. -/

/-- The key of the entry at position `i` of the heap slice. -/
def keyAt (h : bitmapContainerHeap) (i : Nat) : Nat := (h.getD i default).key

/-- Heap order within the first `n` positions, for every parent at position `lo`
or later: a parent's key is at most its child's key. -/
def HeapFrom (lo n : Nat) (h : bitmapContainerHeap) : Prop :=
  ∀ j, j < n → 0 < j → lo ≤ (j - 1) / 2 → keyAt h ((j - 1) / 2) ≤ keyAt h j

/-- The invariant of `heap.down` while the element at `i` sinks: heap order holds
for every parent other than `i`, and the parent of `i` is at most the children
of `i`. -/
def DownInv (lo n : Nat) (h : bitmapContainerHeap) (i : Nat) : Prop :=
  (∀ j, j < n → 0 < j → lo ≤ (j - 1) / 2 → (j - 1) / 2 ≠ i → keyAt h ((j - 1) / 2) ≤ keyAt h j) ∧
  (0 < i → lo ≤ (i - 1) / 2 → ∀ c, c < n → 0 < c → (c - 1) / 2 = i →
    keyAt h ((i - 1) / 2) ≤ keyAt h c)

/-- The slice is a binary min-heap on the keys. -/
def IsHeap (h : bitmapContainerHeap) : Prop := HeapFrom 0 h.length h

/-- The registry entries of the owning bitmap from the cursor of `e` on. -/
def pendingOf (e : bitmapContainerKey) : List (Nat × container) :=
  (e.bitmap.highlowcontainer.keys.zip e.bitmap.highlowcontainer.containers).drop e.idx

/-- Every registry entry that the heap has not returned yet. -/
def pendingAll (h : bitmapContainerHeap) : List (Nat × container) :=
  h.flatMap pendingOf

/-- Heap-entry consistency. -/
def EntryOK (valid : container → Bool) (e : bitmapContainerKey) : Prop :=
  e.bitmap.WellFormed valid ∧ e.idx < e.bitmap.highlowcontainer.size ∧
  e.key = e.bitmap.highlowcontainer.keys.getD e.idx 0 ∧
  e.container = e.bitmap.highlowcontainer.containers.getD e.idx default

/-- The invariant of the merge heap. -/
def HeapOK (valid : container → Bool) (h : bitmapContainerHeap) : Prop :=
  IsHeap h ∧ ∀ e ∈ h, EntryOK valid e

/-- The registry entries a batch stands for. -/
def batchPairs (b : multipleContainers) : List (Nat × container) :=
  b.containers.map (fun c => (b.key, c))

/-- The batches of a full merge: `PopNextContainers` while `Len() > 0`. -/
def drain : Nat → bitmapContainerHeap → List multipleContainers
  | 0, _ => []
  | fuel + 1, h =>
    if 0 < h.Len then
      let r := h.PopNextContainers
      r.1 :: drain fuel r.2
    else []

/-- The registry of a bitmap as a list of entries. -/
def Bitmap.entries (rb : Bitmap) : List (Nat × container) :=
  rb.highlowcontainer.keys.zip rb.highlowcontainer.containers

/-- The heap entry `newBitmapContainerHeap` makes for a bitmap. -/
def firstEntry (bitmap : Bitmap) : bitmapContainerKey :=
  { bitmap := bitmap
    container := bitmap.highlowcontainer.getWritableContainerAtIndex 0
    key := bitmap.highlowcontainer.keys.getD 0 0
    idx := 0 }

/-- The indexed results among the messages. -/
def resultsOf : List appenderMsg → List keyedContainer
  | [] => []
  | .result item :: rest => item :: resultsOf rest
  | .expectedKeys _ :: rest => resultsOf rest

/-- The expected counts among the messages. -/
def signalsOf : List appenderMsg → List Int
  | [] => []
  | .result _ :: rest => signalsOf rest
  | .expectedKeys msg :: rest => msg :: signalsOf rest

/-- The assembly indices of the results are `0, 1, ..., n-1` in this order. -/
def Indexed (rs : List keyedContainer) : Prop :=
  rs.map (fun r => r.idx) = (List.range rs.length).map Int.ofNat

instance (rs : List keyedContainer) : Decidable (Indexed rs) := by
  unfold Indexed; infer_instance

/-- The registry the assembler builds from results in index order. -/
def assembled (rs : List keyedContainer) : Bitmap :=
  ⟨⟨rs.map (fun r => r.key), rs.map (fun r => r.container), rs.map (fun _ => false), false, []⟩⟩

/-- What `ParOr` makes of the containers of one batch: a single container passes
through, two or more go through the worker `orFunc`. -/
def unionOf (M : containerMethods) : List container → container
  | [] => default
  | [c] => c
  | c0 :: c1 :: rest =>
    repairAfterLazy M (rest.foldl (fun c next => M.lazyIOR c next)
      (M.lazyOR (toBitmapContainer M c0) c1))

/-- What the worker `andFunc` makes of the containers of one batch. -/
def interOf (M : containerMethods) : List container → container
  | c0 :: c1 :: rest => rest.foldl (fun c next => M.iand c next) (M.and c0 c1)
  | _ => default

/-- The results for a list of batches, numbered from `idx` on. -/
def resultsFrom (f : List container → container) : Int → List multipleContainers → List keyedContainer
  | _, [] => []
  | idx, b :: bs => ⟨b.key, f b.containers, idx⟩ :: resultsFrom f (idx + 1) bs

/-- The bitmap assembled from the batches, each combined by `f`. -/
def bitmapOf (f : List container → container) (bs : List multipleContainers) : Bitmap :=
  ⟨⟨bs.map (fun b => b.key), bs.map (fun b => f b.containers), bs.map (fun _ => false),
    false, []⟩⟩

/-- The containers registered under `k` in a list of registry entries. -/
def atKey (k : Nat) (l : List (Nat × container)) : List container :=
  (l.filter (fun p => p.1 == k)).map (fun p => p.2)

/-- The containers registered under `k` in the input bitmaps, in input order. -/
def slotsAt (bitmaps : List Bitmap) (k : Nat) : List container :=
  bitmaps.flatMap (fun B => (B.highlowcontainer.getContainer k).toList)

/-- The batches of the full merge of the input bitmaps. -/
def batchesOf (bitmaps : List Bitmap) : List multipleContainers :=
  drain (newBitmapContainerHeap bitmaps).fuel (newBitmapContainerHeap bitmaps)

/-! ## Vocabulary for the merge loop, the sequential union and the repair protocol -/

/-- The heap after `n` rounds of the loop `for h.Len() > 0 { h.PopNextContainers() }`;
the batches of these rounds are `drain n h`. -/
def heapAfter : Nat → bitmapContainerHeap → bitmapContainerHeap
  | 0, h => h
  | n + 1, h => if 0 < h.Len then heapAfter n h.PopNextContainers.2 else h

/-- The states the merge heap of the input bitmaps can be in: the heap made by
`newBitmapContainerHeap`, and the heap left by a call of `PopIncrementing` or of
`PopNextContainers` on a non-empty heap of this kind. -/
inductive heapReachable (bitmaps : List Bitmap) : bitmapContainerHeap → Prop where
  | init : heapReachable bitmaps (newBitmapContainerHeap bitmaps)
  | popIncrementing (h : bitmapContainerHeap) :
      heapReachable bitmaps h → 0 < h.Len → heapReachable bitmaps h.PopIncrementing.2
  | popNextContainers (h : bitmapContainerHeap) :
      heapReachable bitmaps h → 0 < h.Len → heapReachable bitmaps h.PopNextContainers.2

/-- The total number of containers not yet returned, over all live entries. -/
def remaining (h : bitmapContainerHeap) : Nat :=
  (h.map (fun e => e.bitmap.highlowcontainer.size - e.idx)).sum

/-- What `horizontalOr` makes of the containers of one batch: the first is
upgraded, the others are united into it, and the result is repaired. -/
def seqOf (M : containerMethods) : List container → container
  | [] => default
  | c0 :: rest =>
    repairAfterLazy M (rest.foldl (fun c next => M.lazyIOR c next) (toBitmapContainer M c0))

/-- The batches `ParAnd` queues for the workers, numbered from `idx` on. -/
def inputsFrom : Int → List multipleContainers → List dispatched
  | _, [] => []
  | idx, b :: bs => .input { b with idx := idx } :: inputsFrom (idx + 1) bs

/-- The exact number of 16-bit values a container holds. -/
def cardOf (M : containerMethods) (c : container) : Nat :=
  ((List.range 65536).filter (fun v => M.contains c v)).length

/-- The cardinality contract assumed of the dense container, relative to the
container invariant `valid`: a known cached cardinality is what `getCardinality`
reports and is the exact count, and a dense container that holds every value
reports itself full. -/
structure CardinalityContract (M : containerMethods) (valid : container → Bool) : Prop where
  getCardinality_exact : ∀ t, valid (.bitmap t) = true →
    t.cardinality ≠ M.invalidCardinality → M.getCardinality t = (cardOf M (.bitmap t) : Int)
  bitmapIsFull_of_contains : ∀ t, valid (.bitmap t) = true →
    t.cardinality ≠ M.invalidCardinality →
    (∀ v, v < 65536 → M.contains (.bitmap t) v = true) → M.bitmapIsFull t = true

/-- The invariant of the reference containers: the values are 16-bit, and the
cached cardinality of a dense container is the sentinel or the number of set
bits. -/
def refValid16 : container → Bool
  | .array t => t.content.all (fun v => decide (v < 65536))
  | .bitmap t =>
    (t.bitmap >>> 65536 == 0) &&
      (t.cardinality == -1 || t.cardinality == (refPopCount t.bitmap t.bitmap : Int))
  | .run t => t.iv.all (fun r => decide (r.2 < 65536))

/-- The bitmap with one run container per key. -/
def refRunBitmap (entries : List (Nat × List (Nat × Nat))) : Bitmap :=
  ⟨⟨entries.map (fun e => e.1), entries.map (fun e => .run ⟨e.2⟩),
    entries.map (fun _ => false), false, []⟩⟩

/-! ## Theorems -/

/-! ### The binary heap of `container/heap` -/

theorem length_Swap (h : bitmapContainerHeap) (i j : Nat) : (h.Swap i j).length = h.length := by
  simp [bitmapContainerHeap.Swap]

theorem getD_Swap (h : bitmapContainerHeap) (i j k : Nat) (hi : i < h.length)
    (hj : j < h.length) :
    (h.Swap i j).getD k default =
      if k = j then h.getD i default else if k = i then h.getD j default
      else h.getD k default := by
  unfold bitmapContainerHeap.Swap
  simp only [List.getD_eq_getElem?_getD, List.getElem?_set, List.length_set]
  by_cases h1 : k = j
  · subst h1; simp [hj]
  · by_cases h2 : k = i
    · subst h2; simp [hi, h1, Ne.symm h1]
    · simp [h1, h2, Ne.symm h1, Ne.symm h2]

theorem keyAt_Swap (h : bitmapContainerHeap) (i j k : Nat) (hi : i < h.length)
    (hj : j < h.length) :
    keyAt (h.Swap i j) k =
      if k = j then keyAt h i else if k = i then keyAt h j else keyAt h k := by
  unfold keyAt
  rw [getD_Swap h i j k hi hj]
  split_ifs <;> rfl

theorem Swap_perm (h : bitmapContainerHeap) (i j : Nat) (hi : i < h.length)
    (hj : j < h.length) : (h.Swap i j).Perm h := by
  by_cases hij : i = j
  · subst hij
    have : h.Swap i i = h := by
      apply List.ext_getElem?
      intro k
      simp only [bitmapContainerHeap.Swap, List.getElem?_set, List.length_set,
        List.getD_eq_getElem?_getD]
      by_cases hk : i = k
      · subst hk; simp [hi]
      · simp [hk]
    rw [this]
  · rw [List.perm_iff_count]
    intro b
    unfold bitmapContainerHeap.Swap
    have hx : h.getD i default = h[i] := by simp [hi]
    have hy : h.getD j default = h[j] := by simp [hj]
    rw [hx, hy]
    rw [List.count_set _ _ _ _ (by simpa using hj), List.count_set _ _ _ _ hi]
    have hj2 : j < (h.set i h[j]).length := by simpa using hj
    have e1 : (h.set i h[j])[j] = h[j] := by
      rw [List.getElem_set_ne hij]
    rw [e1]
    have c1 : (if (h[i] == b) = true then 1 else 0) ≤ h.count b := by
      split_ifs with hb
      · have : h[i] = b := by simpa using hb
        exact List.count_pos_iff.mpr (this ▸ List.getElem_mem hi)
      · exact Nat.zero_le _
    omega

theorem Less_iff (h : bitmapContainerHeap) (i j : Nat) :
    h.Less i j = true ↔ keyAt h i < keyAt h j := by
  simp [bitmapContainerHeap.Less, keyAt]

theorem HeapFrom_of_noChild {lo n : Nat} {h : bitmapContainerHeap} {i : Nat}
    (hinv : DownInv lo n h i)
    (hc : ∀ c, c < n → 0 < c → (c - 1) / 2 = i → keyAt h i ≤ keyAt h c) :
    HeapFrom lo n h := by
  intro j hj hj0 hlo
  by_cases hp : (j - 1) / 2 = i
  · rw [hp]; exact hc j hj hj0 hp
  · exact hinv.1 j hj hj0 hlo hp

theorem downLoop_succ (fuel : Nat) (h : bitmapContainerHeap) (i n : Nat) :
    heap.downLoop (fuel + 1) h i n =
      if n ≤ 2 * i + 1 then (h, i)
      else if (!h.Less (if (decide (2 * i + 1 + 1 < n) && h.Less (2 * i + 1 + 1) (2 * i + 1)) = true
          then 2 * i + 1 + 1 else 2 * i + 1) i) = true then (h, i)
      else heap.downLoop fuel
        (h.Swap i (if (decide (2 * i + 1 + 1 < n) && h.Less (2 * i + 1 + 1) (2 * i + 1)) = true
          then 2 * i + 1 + 1 else 2 * i + 1))
        (if (decide (2 * i + 1 + 1 < n) && h.Less (2 * i + 1 + 1) (2 * i + 1)) = true
          then 2 * i + 1 + 1 else 2 * i + 1) n := rfl

theorem downLoop_spec (lo n : Nat) :
    ∀ (fuel : Nat) (h : bitmapContainerHeap) (i : Nat), n ≤ h.length → lo ≤ i →
      DownInv lo n h i → n ≤ fuel + i →
      HeapFrom lo n (heap.downLoop fuel h i n).1 ∧ (heap.downLoop fuel h i n).1.Perm h ∧
      (heap.downLoop fuel h i n).1.length = h.length ∧
      ∀ k, n ≤ k → (heap.downLoop fuel h i n).1.getD k default = h.getD k default := by
  intro fuel
  induction fuel with
  | zero =>
    intro h i _ _ hinv hfuel
    refine ⟨?_, List.Perm.refl _, rfl, fun _ _ => rfl⟩
    apply HeapFrom_of_noChild hinv
    intro c hc hc0 hp
    omega
  | succ fuel ih =>
    intro h i hn hlo hinv hfuel
    rw [downLoop_succ]
    by_cases h1 : n ≤ 2 * i + 1
    · rw [if_pos h1]
      refine ⟨?_, List.Perm.refl _, rfl, fun _ _ => rfl⟩
      apply HeapFrom_of_noChild hinv
      intro c hc hc0 hp
      omega
    · rw [if_neg h1]
      generalize hj : (if (decide (2 * i + 1 + 1 < n) && h.Less (2 * i + 1 + 1) (2 * i + 1)) = true
        then 2 * i + 1 + 1 else 2 * i + 1) = j
      have hjn : j < n := by
        rw [← hj]; split_ifs with hc
        · simp only [Bool.and_eq_true, decide_eq_true_eq] at hc; exact hc.1
        · omega
      have hjp : (j - 1) / 2 = i := by
        rw [← hj]; split_ifs <;> omega
      have hji : i < j := by
        rw [← hj]; split_ifs <;> omega
      have hmin : ∀ c, c < n → 0 < c → (c - 1) / 2 = i → keyAt h j ≤ keyAt h c := by
        intro c hc hc0 hp
        have hcc : c = 2 * i + 1 ∨ c = 2 * i + 1 + 1 := by omega
        rw [← hj]
        split_ifs with hcond
        · simp only [Bool.and_eq_true, decide_eq_true_eq, Less_iff] at hcond
          rcases hcc with rfl | rfl
          · exact Nat.le_of_lt hcond.2
          · exact Nat.le_refl _
        · simp only [Bool.and_eq_true, decide_eq_true_eq, Less_iff, not_and, not_lt] at hcond
          rcases hcc with rfl | rfl
          · exact Nat.le_refl _
          · exact hcond hc
      by_cases hless : h.Less j i = true
      · rw [if_neg (by simp [hless])]
        have hlt : keyAt h j < keyAt h i := (Less_iff h j i).mp hless
        have hil : i < h.length := by omega
        have hjl : j < h.length := by omega
        have hk : ∀ k, keyAt (h.Swap i j) k =
            if k = j then keyAt h i else if k = i then keyAt h j else keyAt h k :=
          fun k => keyAt_Swap h i j k hil hjl
        have hinv' : DownInv lo n (h.Swap i j) j := by
          constructor
          · intro c hc hc0 hclo hcp
            rw [hk, hk]
            by_cases hpi : (c - 1) / 2 = i
            · have hne : i ≠ j := by omega
              rw [hpi, if_neg hne, if_pos rfl]
              by_cases hcj : c = j
              · rw [if_pos hcj]; exact Nat.le_of_lt hlt
              · have hci : c ≠ i := by omega
                rw [if_neg hcj, if_neg hci]
                exact hmin c hc hc0 hpi
            · rw [if_neg hcp, if_neg hpi]
              have hcj : c ≠ j := by
                intro e; rw [e] at hpi; exact hpi hjp
              rw [if_neg hcj]
              by_cases hci : c = i
              · rw [if_pos hci]
                subst hci
                exact hinv.2 hc0 hclo j hjn (by omega) hjp
              · rw [if_neg hci]
                exact hinv.1 c hc hc0 hclo hpi
          · intro _ _ c hc hc0 hcp
            rw [hk, hk, hjp]
            have hne : i ≠ j := by omega
            have hcj : c ≠ j := by omega
            have hci : c ≠ i := by omega
            rw [if_neg hne, if_pos rfl, if_neg hcj, if_neg hci]
            have hh := hinv.1 c hc hc0 (by omega) (by omega)
            rwa [hcp] at hh
        have hlen : (h.Swap i j).length = h.length := length_Swap h i j
        obtain ⟨r1, r2, r3, r4⟩ := ih (h.Swap i j) j (by omega) (by omega) hinv' (by omega)
        refine ⟨r1, r2.trans (Swap_perm h i j hil hjl), r3.trans hlen, ?_⟩
        intro k hkn
        rw [r4 k hkn, getD_Swap h i j k hil hjl, if_neg (by omega), if_neg (by omega)]
      · rw [if_pos (by simpa using hless)]
        refine ⟨?_, List.Perm.refl _, rfl, fun _ _ => rfl⟩
        apply HeapFrom_of_noChild hinv
        intro c hc hc0 hp
        have : ¬ keyAt h j < keyAt h i := fun hh => hless ((Less_iff h j i).mpr hh)
        exact Nat.le_trans (Nat.le_of_not_lt this) (hmin c hc hc0 hp)

theorem down_fst (h : bitmapContainerHeap) (i n : Nat) :
    (heap.down h i n).1 = (heap.downLoop n h i n).1 := rfl

theorem up_zero (h : bitmapContainerHeap) : heap.up h 0 = h := by
  simp [heap.up, heap.upLoop]

theorem Fix_zero (h : bitmapContainerHeap) : heap.Fix h 0 = (heap.downLoop h.length h 0 h.length).1 := by
  unfold heap.Fix
  simp only [bitmapContainerHeap.Len, up_zero, down_fst]
  split_ifs <;> rfl

theorem keyAt_set_ne (h : bitmapContainerHeap) (e : bitmapContainerKey) (i k : Nat)
    (hk : k ≠ i) : keyAt (h.set i e) k = keyAt h k := by
  unfold keyAt
  simp only [List.getD_eq_getElem?_getD, List.getElem?_set, if_neg (Ne.symm hk)]

theorem IsHeap_root_le (h : bitmapContainerHeap) (hh : IsHeap h) :
    ∀ i, i < h.length → keyAt h 0 ≤ keyAt h i := by
  intro i
  induction i using Nat.strong_induction_on with
  | _ i ih =>
    intro hi
    by_cases h0 : i = 0
    · subst h0; exact Nat.le_refl _
    · have hp : (i - 1) / 2 < i := by omega
      exact Nat.le_trans (ih _ hp (by omega)) (hh i hi (by omega) (Nat.zero_le _))

theorem Fix_root_spec (h : bitmapContainerHeap) (e : bitmapContainerKey) (hh : IsHeap h) :
    IsHeap (heap.Fix (h.set 0 e) 0) ∧ (heap.Fix (h.set 0 e) 0).Perm (h.set 0 e) := by
  rw [Fix_zero]
  have hinv : DownInv 0 (h.set 0 e).length (h.set 0 e) 0 := by
    constructor
    · intro c hc hc0 _ hp
      rw [keyAt_set_ne _ _ _ _ hp, keyAt_set_ne _ _ _ _ (by omega)]
      exact hh c (by simpa using hc) hc0 (Nat.zero_le _)
    · intro h0; omega
  obtain ⟨r1, r2, r3, _⟩ := downLoop_spec 0 (h.set 0 e).length (h.set 0 e).length (h.set 0 e) 0
    (Nat.le_refl _) (Nat.le_refl _) hinv (by omega)
  refine ⟨?_, r2⟩
  unfold IsHeap
  rw [r3]
  exact r1

theorem Init_loop_spec (n : Nat) :
    ∀ (m : Nat) (h : bitmapContainerHeap), h.length = n → HeapFrom m n h →
      HeapFrom 0 n ((List.range m).reverse.foldl (fun h i => (heap.down h i n).1) h) ∧
      ((List.range m).reverse.foldl (fun h i => (heap.down h i n).1) h).Perm h ∧
      ((List.range m).reverse.foldl (fun h i => (heap.down h i n).1) h).length = n := by
  intro m
  induction m with
  | zero =>
    intro h hl hh
    exact ⟨hh, List.Perm.refl _, hl⟩
  | succ m ih =>
    intro h hl hh
    rw [List.range_succ, List.reverse_append, List.reverse_singleton, List.singleton_append,
      List.foldl_cons]
    have hinv : DownInv m n h m := by
      constructor
      · intro c hc hc0 hlo hp
        exact hh c hc hc0 (by omega)
      · intro h0 hlo; omega
    obtain ⟨r1, r2, r3, _⟩ := downLoop_spec m n n h m (by omega) (Nat.le_refl _) hinv (by omega)
    rw [down_fst]
    obtain ⟨q1, q2, q3⟩ := ih _ (r3.trans hl) r1
    exact ⟨q1, q2.trans r2, q3⟩

theorem Init_spec (h : bitmapContainerHeap) : IsHeap (heap.Init h) ∧ (heap.Init h).Perm h := by
  unfold heap.Init
  simp only [bitmapContainerHeap.Len]
  have h0 : HeapFrom (h.length / 2) h.length h := by
    intro j hj hj0 hlo; omega
  obtain ⟨q1, q2, q3⟩ := Init_loop_spec h.length (h.length / 2) h rfl h0
  refine ⟨?_, q2⟩
  unfold IsHeap
  rw [q3]
  exact q1

theorem keyAt_take (h : bitmapContainerHeap) (n k : Nat) (hk : k < n) :
    keyAt (h.take n) k = keyAt h k := by
  unfold keyAt
  simp only [List.getD_eq_getElem?_getD, List.getElem?_take, if_pos hk]

theorem Pop_spec (h : bitmapContainerHeap) (hh : IsHeap h) (hpos : 0 < h.length) :
    (heap.Pop h).1 = h.getD 0 default ∧ IsHeap (heap.Pop h).2 ∧
    (h.getD 0 default :: (heap.Pop h).2).Perm h := by
  have hn : h.length - 1 < h.length := by omega
  have hsl : (h.Swap 0 (h.length - 1)).length = h.length := length_Swap _ _ _
  have hinv : DownInv 0 (h.length - 1) (h.Swap 0 (h.length - 1)) 0 := by
    constructor
    · intro c hc hc0 _ hp
      rw [keyAt_Swap h 0 _ _ hpos hn, keyAt_Swap h 0 _ _ hpos hn,
        if_neg (by omega), if_neg hp, if_neg (by omega), if_neg (by omega)]
      exact hh c (by omega) hc0 (Nat.zero_le _)
    · intro h0; omega
  obtain ⟨r1, r2, r3, r4⟩ := downLoop_spec 0 (h.length - 1) (h.length - 1)
    (h.Swap 0 (h.length - 1)) 0 (by omega) (Nat.le_refl _) hinv (by omega)
  have hlast : (heap.downLoop (h.length - 1) (h.Swap 0 (h.length - 1)) 0 (h.length - 1)).1.getD
      (h.length - 1) default = h.getD 0 default := by
    rw [r4 _ (Nat.le_refl _), getD_Swap h 0 _ _ hpos hn, if_pos rfl]
  have hpop : heap.Pop h =
      ((heap.downLoop (h.length - 1) (h.Swap 0 (h.length - 1)) 0 (h.length - 1)).1.getD
          (h.length - 1) default,
        (heap.downLoop (h.length - 1) (h.Swap 0 (h.length - 1)) 0 (h.length - 1)).1.take
          (h.length - 1)) := by
    unfold heap.Pop bitmapContainerHeap.Pop
    simp only [bitmapContainerHeap.Len, down_fst, r3, hsl]
  rw [hpop]
  generalize hg : (heap.downLoop (h.length - 1) (h.Swap 0 (h.length - 1)) 0 (h.length - 1)).1 = g
    at r1 r2 r3 r4 hlast
  refine ⟨hlast, ?_, ?_⟩
  · intro j hj hj0 _
    have hl : (g.take (h.length - 1)).length = h.length - 1 := by
      rw [List.length_take]; omega
    rw [hl] at hj
    rw [keyAt_take _ _ _ (by omega), keyAt_take _ _ _ hj]
    exact r1 j hj hj0 (Nat.zero_le _)
  · have hgl : h.length - 1 < g.length := by omega
    have hsplit : g = g.take (h.length - 1) ++ [g.getD (h.length - 1) default] := by
      have e1 : g.getD (h.length - 1) default = g[h.length - 1] := by simp [hgl]
      rw [e1]
      have e2 : g.drop (h.length - 1) = [g[h.length - 1]] := by
        rw [List.drop_eq_getElem_cons hgl]
        congr 1
        apply List.drop_of_length_le
        omega
      rw [← e2, List.take_append_drop]
    rw [hlast] at hsplit
    have p1 : (h.getD 0 default :: g.take (h.length - 1)).Perm g := by
      conv => rhs; rw [hsplit]
      exact (List.perm_append_singleton _ _).symm
    exact p1.trans (r2.trans (Swap_perm h 0 _ hpos hn))

/-! ### The key merge heap -/

theorem zip_length_of_wf {valid : container → Bool} {b : Bitmap} (hw : b.WellFormed valid) :
    (b.highlowcontainer.keys.zip b.highlowcontainer.containers).length =
      b.highlowcontainer.keys.length := by
  rw [List.length_zip, hw.2.2.1, Nat.min_self]

theorem pendingOf_eq_cons {valid : container → Bool} {e : bitmapContainerKey}
    (he : EntryOK valid e) :
    pendingOf e = (e.key, e.container) :: pendingOf { e with idx := e.idx + 1 } := by
  obtain ⟨hw, hi, hk, hc⟩ := he
  unfold pendingOf
  have hz := zip_length_of_wf hw
  have hlt : e.idx < (e.bitmap.highlowcontainer.keys.zip
      e.bitmap.highlowcontainer.containers).length := by rw [hz]; exact hi
  rw [List.drop_eq_getElem_cons hlt]
  have hi1 : e.idx < e.bitmap.highlowcontainer.keys.length := hi
  have hi2 : e.idx < e.bitmap.highlowcontainer.containers.length := by rw [hw.2.2.1]; exact hi
  congr 1
  rw [List.getElem_zip, hk, hc]
  simp [hi1, hi2]

theorem pendingOf_next_gt {valid : container → Bool} {e : bitmapContainerKey}
    (he : EntryOK valid e) :
    ∀ p ∈ pendingOf { e with idx := e.idx + 1 }, e.key < p.1 := by
  obtain ⟨hw, hi, hk, hc⟩ := he
  intro p hp
  unfold pendingOf at hp
  obtain ⟨j, hj, rfl⟩ := List.mem_iff_getElem.mp hp
  rw [List.getElem_drop, List.getElem_zip]
  simp only
  have hi1 : e.idx < e.bitmap.highlowcontainer.keys.length := hi
  rw [hk]
  have e1 : e.bitmap.highlowcontainer.keys.getD e.idx 0 = e.bitmap.highlowcontainer.keys[e.idx] := by
    simp [hi1]
  rw [e1]
  exact (List.pairwise_iff_getElem.mp hw.1) _ _ _ _ (by omega)

theorem pendingOf_ge {valid : container → Bool} {e : bitmapContainerKey}
    (he : EntryOK valid e) : ∀ p ∈ pendingOf e, e.key ≤ p.1 := by
  intro p hp
  rw [pendingOf_eq_cons he] at hp
  rcases List.mem_cons.mp hp with rfl | hp
  · exact Nat.le_refl _
  · exact Nat.le_of_lt (pendingOf_next_gt he p hp)

theorem pendingAll_perm {h h' : bitmapContainerHeap} (hp : h.Perm h') :
    (pendingAll h).Perm (pendingAll h') :=
  List.Perm.flatMap_right _ hp

theorem fuel_perm {h h' : bitmapContainerHeap} (hp : h.Perm h') : h.fuel = h'.fuel := by
  unfold bitmapContainerHeap.fuel
  rw [(hp.map _).sum_eq, hp.length_eq]

theorem Peek_key_le {valid : container → Bool} {h : bitmapContainerHeap} (hh : HeapOK valid h) :
    ∀ p ∈ pendingAll h, h.Peek.key ≤ p.1 := by
  intro p hp
  unfold pendingAll at hp
  obtain ⟨e, he, hpe⟩ := List.mem_flatMap.mp hp
  obtain ⟨i, hi, rfl⟩ := List.mem_iff_getElem.mp he
  have h1 := IsHeap_root_le h hh.1 i hi
  have h2 := pendingOf_ge (hh.2 _ he) p hpe
  have e1 : keyAt h i = h[i].key := by simp [keyAt, hi]
  rw [e1] at h1
  exact Nat.le_trans h1 h2

theorem isHeap_nil : IsHeap [] := by
  intro j hj; simp at hj

theorem PopIncrementing_spec {valid : container → Bool} {h : bitmapContainerHeap}
    (hh : HeapOK valid h) (hpos : 0 < h.length) :
    h.PopIncrementing.1 = h.Peek ∧ HeapOK valid h.PopIncrementing.2 ∧
    (pendingAll h).Perm ((h.Peek.key, h.Peek.container) :: pendingAll h.PopIncrementing.2) ∧
    h.PopIncrementing.2.fuel < h.fuel := by
  obtain ⟨e, t, rfl⟩ : ∃ e t, h = e :: t := by
    cases h with
    | nil => simp at hpos
    | cons e t => exact ⟨e, t, rfl⟩
  have hpeek : bitmapContainerHeap.Peek (e :: t) = e := rfl
  have heOK : EntryOK valid e := hh.2 e (List.mem_cons_self _ _)
  unfold bitmapContainerHeap.PopIncrementing
  rw [hpeek]
  by_cases hnext : e.idx + 1 < e.bitmap.highlowcontainer.size
  · simp only [hnext, if_true]
    have hset : (e :: t).set 0
        { bitmap := e.bitmap
          container := e.bitmap.highlowcontainer.getWritableContainerAtIndex (e.idx + 1)
          key := e.bitmap.highlowcontainer.keys.getD (e.idx + 1) 0
          idx := e.idx + 1 } =
        { bitmap := e.bitmap
          container := e.bitmap.highlowcontainer.getWritableContainerAtIndex (e.idx + 1)
          key := e.bitmap.highlowcontainer.keys.getD (e.idx + 1) 0
          idx := e.idx + 1 } :: t := rfl
    obtain ⟨f1, f2⟩ := Fix_root_spec (e :: t)
      { bitmap := e.bitmap
        container := e.bitmap.highlowcontainer.getWritableContainerAtIndex (e.idx + 1)
        key := e.bitmap.highlowcontainer.keys.getD (e.idx + 1) 0
        idx := e.idx + 1 } hh.1
    rw [hset] at f1 f2 ⊢
    generalize heap.Fix _ 0 = g at f1 f2
    have hnewOK : EntryOK valid
        { bitmap := e.bitmap
          container := e.bitmap.highlowcontainer.getWritableContainerAtIndex (e.idx + 1)
          key := e.bitmap.highlowcontainer.keys.getD (e.idx + 1) 0
          idx := e.idx + 1 } := ⟨heOK.1, hnext, rfl, rfl⟩
    refine ⟨trivial, ⟨f1, ?_⟩, ?_, ?_⟩
    · intro x hx
      rcases List.mem_cons.mp (f2.subset hx) with rfl | hx
      · exact hnewOK
      · exact hh.2 x (List.mem_cons_of_mem _ hx)
    · refine List.Perm.trans ?_ (List.Perm.cons _ (pendingAll_perm f2.symm))
      unfold pendingAll
      rw [List.flatMap_cons, List.flatMap_cons, pendingOf_eq_cons heOK]
      rfl
    · rw [fuel_perm f2]
      unfold bitmapContainerHeap.fuel
      simp only [List.map_cons, List.sum_cons, List.length_cons]
      omega
  · simp only [hnext, if_false]
    obtain ⟨_, p2, p3⟩ := Pop_spec (e :: t) hh.1 hpos
    have hget : (e :: t).getD 0 default = e := rfl
    rw [hget] at p3
    generalize (heap.Pop (e :: t)).2 = g at p2 p3
    have hgt : g.Perm t := p3.cons_inv
    refine ⟨trivial, ⟨p2, ?_⟩, ?_, ?_⟩
    · intro x hx
      exact hh.2 x (List.mem_cons_of_mem _ (hgt.subset hx))
    · refine List.Perm.trans ?_ (List.Perm.cons _ (pendingAll_perm hgt.symm))
      unfold pendingAll
      rw [List.flatMap_cons, pendingOf_eq_cons heOK]
      have hnil : pendingOf { e with idx := e.idx + 1 } = [] := by
        unfold pendingOf
        apply List.drop_of_length_le
        rw [zip_length_of_wf heOK.1]
        exact Nat.le_of_not_lt hnext
      rw [hnil]
      rfl
    · rw [fuel_perm hgt]
      unfold bitmapContainerHeap.fuel
      simp only [List.map_cons, List.sum_cons, List.length_cons]
      omega

theorem fuel_pos_of_ne_nil {h : bitmapContainerHeap} (hpos : 0 < h.length) : 0 < h.fuel := by
  unfold bitmapContainerHeap.fuel; omega

theorem Peek_mem_pending {valid : container → Bool} {h : bitmapContainerHeap}
    (hh : HeapOK valid h) (hpos : 0 < h.length) :
    (h.Peek.key, h.Peek.container) ∈ pendingAll h := by
  obtain ⟨e, t, rfl⟩ : ∃ e t, h = e :: t := by
    cases h with
    | nil => simp at hpos
    | cons e t => exact ⟨e, t, rfl⟩
  have heOK : EntryOK valid e := hh.2 e (List.mem_cons_self _ _)
  unfold pendingAll
  rw [List.flatMap_cons, pendingOf_eq_cons heOK]
  exact List.mem_append_left _ (List.mem_cons_self _ _)

theorem popSameKey_spec {valid : container → Bool} (key : Nat) :
    ∀ (fuel : Nat) (h : bitmapContainerHeap) (cs : List container),
      HeapOK valid h → h.fuel ≤ fuel → (∀ p ∈ pendingAll h, key ≤ p.1) →
      HeapOK valid (bitmapContainerHeap.popSameKey fuel key h cs).2 ∧
      (∃ new, (bitmapContainerHeap.popSameKey fuel key h cs).1 = cs ++ new ∧
        (pendingAll h).Perm (new.map (fun c => (key, c)) ++
          pendingAll (bitmapContainerHeap.popSameKey fuel key h cs).2)) ∧
      (∀ p ∈ pendingAll (bitmapContainerHeap.popSameKey fuel key h cs).2, key < p.1) ∧
      (bitmapContainerHeap.popSameKey fuel key h cs).2.fuel ≤ h.fuel := by
  intro fuel
  induction fuel with
  | zero =>
    intro h cs hh hf _
    have hl : h = [] := by
      cases h with
      | nil => rfl
      | cons e t =>
        have := fuel_pos_of_ne_nil (h := e :: t) (by simp)
        omega
    subst hl
    refine ⟨hh, ⟨[], by simp [bitmapContainerHeap.popSameKey], ?_⟩, ?_, Nat.le_refl _⟩
    · simp [bitmapContainerHeap.popSameKey, pendingAll]
    · intro p hp; simp [bitmapContainerHeap.popSameKey, pendingAll] at hp
  | succ fuel ih =>
    intro h cs hh hf hge
    rw [bitmapContainerHeap.popSameKey]
    by_cases hcond : (decide (0 < h.Len) && key == h.Peek.key) = true
    · rw [if_pos hcond]
      simp only [Bool.and_eq_true, decide_eq_true_eq, beq_iff_eq, bitmapContainerHeap.Len] at hcond
      obtain ⟨hpos, hkey⟩ := hcond
      obtain ⟨s1, s2, s3, s4⟩ := PopIncrementing_spec hh hpos
      have hge' : ∀ p ∈ pendingAll h.PopIncrementing.2, key ≤ p.1 := by
        intro p hp
        exact hge p (s3.symm.subset (List.mem_cons_of_mem _ hp))
      obtain ⟨r1, ⟨new, r2, r3⟩, r4, r5⟩ :=
        ih h.PopIncrementing.2 (cs ++ [h.PopIncrementing.1.container]) s2 (by omega) hge'
      refine ⟨r1, ⟨h.Peek.container :: new, ?_, ?_⟩, r4, Nat.le_trans r5 (Nat.le_of_lt s4)⟩
      · rw [r2, s1]; simp
      · refine s3.trans ?_
        rw [List.map_cons, List.cons_append, ← hkey]
        exact List.Perm.cons _ r3
    · rw [if_neg hcond]
      refine ⟨hh, ⟨[], by simp, by simp⟩, ?_, Nat.le_refl _⟩
      simp only [Bool.and_eq_true, decide_eq_true_eq, beq_iff_eq, bitmapContainerHeap.Len,
        not_and] at hcond
      intro p hp
      have hpos : 0 < h.length := by
        cases h with
        | nil => simp [pendingAll] at hp
        | cons e t => simp
      have h1 := hge _ (Peek_mem_pending hh hpos)
      have h2 := Peek_key_le hh p hp
      have h3 := hcond hpos
      simp only at h1
      omega

theorem PopNextContainers_spec {valid : container → Bool} {h : bitmapContainerHeap}
    (hh : HeapOK valid h) (hpos : 0 < h.length) :
    HeapOK valid h.PopNextContainers.2 ∧ h.PopNextContainers.1.containers ≠ [] ∧
    (pendingAll h).Perm (batchPairs h.PopNextContainers.1 ++ pendingAll h.PopNextContainers.2) ∧
    (∀ p ∈ pendingAll h.PopNextContainers.2, h.PopNextContainers.1.key < p.1) ∧
    h.PopNextContainers.2.fuel < h.fuel ∧
    h.PopNextContainers.1.key = h.Peek.key ∧
    ∃ rest, h.PopNextContainers.1.containers = h.Peek.container :: rest := by
  obtain ⟨s1, s2, s3, s4⟩ := PopIncrementing_spec hh hpos
  have hge : ∀ p ∈ pendingAll h.PopIncrementing.2, h.PopIncrementing.1.key ≤ p.1 := by
    intro p hp
    rw [s1]
    exact Peek_key_le hh p (s3.symm.subset (List.mem_cons_of_mem _ hp))
  obtain ⟨r1, ⟨new, r2, r3⟩, r4, r5⟩ := @popSameKey_spec valid h.PopIncrementing.1.key
    h.PopIncrementing.2.fuel h.PopIncrementing.2 [h.PopIncrementing.1.container] s2
    (Nat.le_refl _) hge
  have hne : ¬ (h.Len == 0) = true := by
    simp only [bitmapContainerHeap.Len, beq_iff_eq]; omega
  unfold bitmapContainerHeap.PopNextContainers
  rw [if_neg hne]
  simp only
  refine ⟨r1, ?_, ?_, r4, Nat.lt_of_le_of_lt r5 s4, by rw [s1], ⟨new, by rw [r2, s1]; rfl⟩⟩
  · rw [r2]; simp
  · refine s3.trans ?_
    unfold batchPairs
    simp only
    rw [r2, s1]
    simp only [List.singleton_append, List.map_cons, List.cons_append]
    rw [s1] at r3
    exact List.Perm.cons _ r3

theorem drain_spec {valid : container → Bool} :
    ∀ (fuel : Nat) (h : bitmapContainerHeap), HeapOK valid h → h.fuel ≤ fuel →
      (pendingAll h).Perm ((drain fuel h).flatMap batchPairs) ∧
      ((drain fuel h).map (fun b => b.key)).Pairwise (fun a b => a < b) ∧
      (∀ b ∈ drain fuel h, b.containers ≠ []) ∧
      (∀ b ∈ drain fuel h, b.idx = -1) := by
  intro fuel
  induction fuel with
  | zero =>
    intro h hh hf
    have hl : h = [] := by
      cases h with
      | nil => rfl
      | cons e t =>
        have := fuel_pos_of_ne_nil (h := e :: t) (by simp)
        omega
    subst hl
    simp [drain, pendingAll]
  | succ fuel ih =>
    intro h hh hf
    rw [drain]
    by_cases hpos : 0 < h.Len
    · rw [if_pos hpos]
      obtain ⟨s1, s2, s3, s4, s5, _, _⟩ := PopNextContainers_spec hh hpos
      obtain ⟨r1, r2, r3, r4⟩ := ih h.PopNextContainers.2 s1 (by omega)
      refine ⟨?_, ?_, ?_, ?_⟩
      · simp only [List.flatMap_cons]
        exact s3.trans (List.Perm.append_left _ r1)
      · simp only [List.map_cons, List.pairwise_cons]
        refine ⟨?_, r2⟩
        intro k hk
        obtain ⟨b, hb, rfl⟩ := List.mem_map.mp hk
        obtain ⟨c, cs, hc⟩ := List.exists_cons_of_ne_nil (r3 b hb)
        have hmem : (b.key, c) ∈ (drain fuel h.PopNextContainers.2).flatMap batchPairs := by
          refine List.mem_flatMap.mpr ⟨b, hb, ?_⟩
          unfold batchPairs
          rw [hc]
          exact List.mem_cons_self _ _
        exact s4 _ (r1.symm.subset hmem)
      · intro b hb
        rcases List.mem_cons.mp hb with rfl | hb
        · exact s2
        · exact r3 b hb
      · intro b hb
        rcases List.mem_cons.mp hb with rfl | hb
        · unfold bitmapContainerHeap.PopNextContainers
          have hne : ¬ (h.Len == 0) = true := by
            simp only [beq_iff_eq]; omega
          rw [if_neg hne]
        · exact r4 b hb
    · rw [if_neg hpos]
      have hl : h = [] := by
        cases h with
        | nil => rfl
        | cons e t => simp [bitmapContainerHeap.Len] at hpos
      subst hl
      simp [pendingAll]

theorem newHeap_foldl (bitmaps : List Bitmap) :
    ∀ acc : bitmapContainerHeap,
      bitmaps.foldl (fun (h : bitmapContainerHeap) bitmap =>
        if (!bitmap.IsEmpty) = true then
          h ++ [{ bitmap := bitmap
                  container := bitmap.highlowcontainer.getWritableContainerAtIndex 0
                  key := bitmap.highlowcontainer.keys.getD 0 0
                  idx := 0 }]
        else h) acc =
      acc ++ (bitmaps.filter (fun b => !b.IsEmpty)).map firstEntry := by
  induction bitmaps with
  | nil => intro acc; simp
  | cons b bs ih =>
    intro acc
    rw [List.foldl_cons, ih]
    by_cases hb : (!b.IsEmpty) = true
    · rw [if_pos hb, List.filter_cons, if_pos hb, List.map_cons, List.append_assoc]
      rfl
    · rw [if_neg hb, List.filter_cons, if_neg hb]

theorem newBitmapContainerHeap_perm (bitmaps : List Bitmap) :
    (newBitmapContainerHeap bitmaps).Perm
      ((bitmaps.filter (fun b => !b.IsEmpty)).map firstEntry) := by
  unfold newBitmapContainerHeap
  simp only
  rw [newHeap_foldl, List.nil_append]
  exact (Init_spec _).2

theorem newBitmapContainerHeap_spec {valid : container → Bool} (bitmaps : List Bitmap)
    (hwf : ∀ b ∈ bitmaps, b.WellFormed valid) :
    HeapOK valid (newBitmapContainerHeap bitmaps) ∧
    (pendingAll (newBitmapContainerHeap bitmaps)).Perm (bitmaps.flatMap Bitmap.entries) := by
  have hp := newBitmapContainerHeap_perm bitmaps
  refine ⟨⟨?_, ?_⟩, ?_⟩
  · unfold newBitmapContainerHeap
    simp only
    exact (Init_spec _).1
  · intro e he
    obtain ⟨b, hb, rfl⟩ := List.mem_map.mp (hp.subset he)
    rw [List.mem_filter] at hb
    refine ⟨hwf b hb.1, ?_, rfl, rfl⟩
    have : b.highlowcontainer.size ≠ 0 := by
      simpa [Bitmap.IsEmpty] using hb.2
    exact Nat.pos_of_ne_zero this
  · refine (pendingAll_perm hp).trans ?_
    clear hp
    induction bitmaps with
    | nil => simp [pendingAll]
    | cons b bs ih =>
      have ih' := ih (fun x hx => hwf x (List.mem_cons_of_mem _ hx))
      rw [List.flatMap_cons]
      by_cases hb : (!b.IsEmpty) = true
      · rw [List.filter_cons, if_pos hb, List.map_cons]
        unfold pendingAll at ih' ⊢
        rw [List.flatMap_cons]
        exact List.Perm.append_left _ ih'
      · rw [List.filter_cons, if_neg hb]
        have hnil : b.entries = [] := by
          have h0 : b.highlowcontainer.keys.length = 0 := by
            simpa [Bitmap.IsEmpty, roaringArray.size] using hb
          unfold Bitmap.entries
          rw [List.length_eq_zero.mp h0, List.zip_nil_left]
        rw [hnil, List.nil_append]
        exact ih'

/-! ### The result assembler -/

theorem resultsOf_perm {a b : List appenderMsg} (h : a.Perm b) :
    (resultsOf a).Perm (resultsOf b) := by
  induction h with
  | nil => exact List.Perm.refl _
  | cons x _ ih => cases x <;> simp [resultsOf, ih]
  | swap x y l => cases x <;> cases y <;> simp [resultsOf, List.Perm.swap]
  | trans _ _ ih1 ih2 => exact ih1.trans ih2

theorem signalsOf_perm {a b : List appenderMsg} (h : a.Perm b) :
    (signalsOf a).Perm (signalsOf b) := by
  induction h with
  | nil => exact List.Perm.refl _
  | cons x _ ih => cases x <;> simp [signalsOf, ih]
  | swap x y l => cases x <;> cases y <;> simp [signalsOf, List.Perm.swap]
  | trans _ _ ih1 ih2 => exact ih1.trans ih2

theorem resultsOf_sent (rs : List keyedContainer) (n : Int) :
    resultsOf (rs.map .result ++ [.expectedKeys n]) = rs := by
  induction rs with
  | nil => rfl
  | cons r rs ih => simp [resultsOf, ih]

theorem signalsOf_sent (rs : List keyedContainer) (n : Int) :
    signalsOf (rs.map .result ++ [.expectedKeys n]) = [n] := by
  induction rs with
  | nil => rfl
  | cons r rs ih => simp [signalsOf, ih]

theorem build_spec (rs : List keyedContainer) :
    ∀ ra : roaringArray,
      appenderRoutine.build (rs.map (fun r => r.key)) (rs.map (fun r => some r.container)) ra =
        some ⟨ra.keys ++ rs.map (fun r => r.key), ra.containers ++ rs.map (fun r => r.container),
          ra.needCopyOnWrite ++ rs.map (fun _ => false), ra.copyOnWrite, ra.conserz⟩ := by
  induction rs with
  | nil => intro ra; simp [appenderRoutine.build]
  | cons r rs ih =>
    intro ra
    simp only [List.map_cons, appenderRoutine.build]
    rw [ih]
    simp [roaringArray.appendContainer]

theorem Indexed_getElem {rs : List keyedContainer} (hI : Indexed rs) (i : Nat)
    (hi : i < rs.length) : rs[i].idx = (i : Int) := by
  have h1 : (rs.map (fun r => r.idx))[i]? = ((List.range rs.length).map Int.ofNat)[i]? := by
    rw [hI]
  simpa [hi] using h1

theorem Indexed_mem {rs : List keyedContainer} (hI : Indexed rs) {r : keyedContainer}
    (hr : r ∈ rs) : ∃ i, i < rs.length ∧ r.idx = (i : Int) := by
  obtain ⟨i, hi, rfl⟩ := List.mem_iff_getElem.mp hr
  exact ⟨i, hi, Indexed_getElem hI i hi⟩

theorem Indexed_nodup {rs : List keyedContainer} (hI : Indexed rs) :
    (rs.map (fun r => r.idx)).Nodup := by
  rw [hI]
  exact (List.nodup_range _).map (fun a b hab => Int.ofNat.inj hab)

theorem scratch_eq {rs consumed : List keyedContainer} (hI : Indexed rs)
    (hperm : consumed.Perm rs) {keys : List Nat} {cs : List (Option container)}
    (hlen : keys.length = cs.length) (hle : keys.length ≤ rs.length)
    (hslot : ∀ r ∈ consumed, keys[r.idx.toNat]? = some r.key ∧
      cs[r.idx.toNat]? = some (some r.container)) :
    keys = rs.map (fun r => r.key) ∧ cs = rs.map (fun r => some r.container) := by
  have hat : ∀ i (hi : i < rs.length), keys[i]? = some rs[i].key ∧
      cs[i]? = some (some rs[i].container) := by
    intro i hi
    have hm : rs[i] ∈ consumed := hperm.symm.subset (List.getElem_mem hi)
    have := hslot _ hm
    rw [Indexed_getElem hI i hi] at this
    simpa using this
  have hkl : keys.length = rs.length := by
    by_cases h0 : rs.length = 0
    · omega
    · have h1 := (hat (rs.length - 1) (by omega)).1
      have h2 : rs.length - 1 < keys.length := by
        by_contra hc
        rw [List.getElem?_eq_none (by omega)] at h1
        exact Option.noConfusion h1
      omega
  constructor
  · apply List.ext_getElem?
    intro i
    by_cases hi : i < rs.length
    · rw [(hat i hi).1]; simp [hi]
    · rw [List.getElem?_eq_none (by omega), List.getElem?_eq_none (by simp; omega)]
  · apply List.ext_getElem?
    intro i
    by_cases hi : i < rs.length
    · rw [(hat i hi).2]; simp [hi]
    · rw [List.getElem?_eq_none (by omega), List.getElem?_eq_none (by simp; omega)]

theorem deliver_spec (rs : List keyedContainer) (unread : List appenderMsg) :
    appenderRoutine.deliver (rs.map (fun r => r.key)) (rs.map (fun r => some r.container))
      unread = .delivered (assembled rs) unread := by
  unfold appenderRoutine.deliver
  rw [build_spec]
  simp [assembled]

theorem loop_spec (rs : List keyedContainer) (hI : Indexed rs) :
    ∀ (msgs : List appenderMsg) (consumed : List keyedContainer) (e a : Int)
      (keys : List Nat) (cs : List (Option container)),
      a = (consumed.length : Int) → keys.length = cs.length → keys.length ≤ rs.length →
      (∀ r ∈ consumed, keys[r.idx.toNat]? = some r.key ∧
        cs[r.idx.toNat]? = some (some r.container)) →
      (consumed ++ resultsOf msgs).Perm rs →
      ((e = -1 ∧ signalsOf msgs = [(rs.length : Int)]) ∨
        (e = (rs.length : Int) ∧ signalsOf msgs = [])) →
      appenderRoutine.loop e a keys cs msgs = .delivered (assembled rs) [] := by
  intro msgs
  induction msgs with
  | nil =>
    intro consumed e a keys cs ha hlen hle hslot hperm hsig
    simp only [resultsOf, List.append_nil] at hperm
    have he : e = (rs.length : Int) := by
      rcases hsig with ⟨_, h2⟩ | ⟨h1, _⟩
      · simp [signalsOf] at h2
      · exact h1
    have hae : a = e := by rw [ha, he, hperm.length_eq]
    obtain ⟨k1, k2⟩ := scratch_eq hI hperm hlen hle hslot
    rw [appenderRoutine.loop, if_neg (by simp [hae]), k1, k2, deliver_spec]
  | cons m rest ih =>
    intro consumed e a keys cs ha hlen hle hslot hperm hsig
    cases m with
    | result item =>
      simp only [resultsOf] at hperm
      simp only [signalsOf] at hsig
      have hcl : consumed.length + (resultsOf rest).length + 1 = rs.length := by
        have := hperm.length_eq
        simp only [List.length_append, List.length_cons] at this
        omega
      have hae : a ≠ e := by
        rcases hsig with ⟨h1, _⟩ | ⟨h1, _⟩
        · rw [ha, h1]; omega
        · rw [ha, h1]; omega
      have hmem : item ∈ rs := hperm.subset (by simp)
      obtain ⟨i, hi, hidx⟩ := Indexed_mem hI hmem
      have hnn : ¬ item.idx < 0 := by rw [hidx]; omega
      have htn : item.idx.toNat = i := by rw [hidx]; rfl
      rw [appenderRoutine.loop, if_pos hae, if_neg hnn]
      simp only [htn]
      have hnd : ((consumed ++ item :: resultsOf rest).map (fun r => r.idx)).Nodup :=
        (hperm.map _).nodup_iff.mpr (Indexed_nodup hI)
      have hdist : ∀ r ∈ consumed, r.idx.toNat ≠ i := by
        intro r hr hri
        obtain ⟨j, _, hj⟩ := Indexed_mem hI (hperm.subset (List.mem_append_left _ hr))
        have hri' : r.idx = item.idx := by rw [hj, hidx]; rw [hj] at hri; simp at hri; rw [hri]
        rw [List.map_append, List.map_cons] at hnd
        have hd := (List.nodup_append.mp hnd).2.2
        exact hd (List.mem_map_of_mem _ hr) (by rw [hri']; exact List.mem_cons_self _ _)
      apply ih (item :: consumed)
      · rw [ha]; simp
      · split_ifs with hk
        · simp only [List.length_set, List.length_append, List.length_replicate]; omega
        · simp only [List.length_set]; exact hlen
      · split_ifs with hk
        · simp only [List.length_set, List.length_append, List.length_replicate]; omega
        · simp only [List.length_set]; exact hle
      · intro r hr
        rcases List.mem_cons.mp hr with rfl | hr
        · rw [htn]
          constructor
          · rw [List.getElem?_set_self]
            split_ifs with hk
            · simp only [List.length_append, List.length_replicate]; omega
            · omega
          · rw [List.getElem?_set_self]
            split_ifs with hk
            · simp only [List.length_append, List.length_replicate]; omega
            · omega
        · have hne := hdist r hr
          obtain ⟨s1, s2⟩ := hslot r hr
          have hlt1 : r.idx.toNat < keys.length := by
            by_contra hc
            rw [List.getElem?_eq_none (by omega)] at s1
            exact Option.noConfusion s1
          constructor
          · rw [List.getElem?_set_ne (Ne.symm hne)]
            split_ifs with hk
            · rw [List.getElem?_append_left hlt1]; exact s1
            · exact s1
          · rw [List.getElem?_set_ne (Ne.symm hne)]
            split_ifs with hk
            · rw [List.getElem?_append_left (by omega)]; exact s2
            · exact s2
      · exact List.perm_middle.symm.trans hperm
      · exact hsig
    | expectedKeys msg =>
      simp only [resultsOf] at hperm
      simp only [signalsOf] at hsig
      rcases hsig with ⟨h1, h2⟩ | ⟨_, h2⟩
      · have hm : msg = (rs.length : Int) := by
          have := List.cons.inj h2
          exact this.1
        have hr : signalsOf rest = [] := (List.cons.inj h2).2
        have hae : a ≠ e := by rw [ha, h1]; omega
        rw [appenderRoutine.loop, if_pos hae]
        exact ih consumed msg a keys cs ha hlen hle hslot hperm (Or.inr ⟨hm, hr⟩)
      · exact List.noConfusion h2

theorem appenderRoutine_spec (rs : List keyedContainer) (hI : Indexed rs)
    (msgs : List appenderMsg)
    (hperm : msgs.Perm (rs.map .result ++ [.expectedKeys (rs.length : Int)])) :
    appenderRoutine msgs = .delivered (assembled rs) [] := by
  unfold appenderRoutine
  apply loop_spec rs hI msgs [] (-1) 0 [] []
  · rfl
  · rfl
  · exact Nat.zero_le _
  · intro r hr; simp at hr
  · rw [List.nil_append]
    have := resultsOf_perm hperm
    rwa [resultsOf_sent] at this
  · left
    refine ⟨rfl, ?_⟩
    have := signalsOf_perm hperm
    rw [signalsOf_sent] at this
    exact List.perm_singleton.mp this

/-! ### Dispatch and workers -/

theorem resultsFrom_idx (f : List container → container) :
    ∀ (bs : List multipleContainers) (idx : Int),
      (resultsFrom f idx bs).map (fun r => r.idx) =
        (List.range bs.length).map (fun i => idx + Int.ofNat i) := by
  intro bs
  induction bs with
  | nil => intro idx; rfl
  | cons b bs ih =>
    intro idx
    rw [resultsFrom, List.map_cons, ih, List.length_cons, List.range_succ_eq_map, List.map_cons,
      List.map_map]
    congr 1
    · simp
    · apply List.map_congr_left
      intro i _
      simp only [Function.comp, Int.ofNat_eq_coe, Nat.cast_succ]
      omega

theorem resultsFrom_length (f : List container → container) :
    ∀ (bs : List multipleContainers) (idx : Int), (resultsFrom f idx bs).length = bs.length := by
  intro bs
  induction bs with
  | nil => intro idx; rfl
  | cons b bs ih => intro idx; simp [resultsFrom, ih]

theorem resultsFrom_key (f : List container → container) :
    ∀ (bs : List multipleContainers) (idx : Int),
      (resultsFrom f idx bs).map (fun r => r.key) = bs.map (fun b => b.key) := by
  intro bs
  induction bs with
  | nil => intro idx; rfl
  | cons b bs ih => intro idx; simp [resultsFrom, ih]

theorem resultsFrom_container (f : List container → container) :
    ∀ (bs : List multipleContainers) (idx : Int),
      (resultsFrom f idx bs).map (fun r => r.container) = bs.map (fun b => f b.containers) := by
  intro bs
  induction bs with
  | nil => intro idx; rfl
  | cons b bs ih => intro idx; simp [resultsFrom, ih]

theorem resultsFrom_indexed (f : List container → container) (bs : List multipleContainers) :
    Indexed (resultsFrom f 0 bs) := by
  unfold Indexed
  rw [resultsFrom_idx, resultsFrom_length]
  apply List.map_congr_left
  intro i _
  simp

theorem assembled_resultsFrom (f : List container → container) (bs : List multipleContainers) :
    assembled (resultsFrom f 0 bs) = bitmapOf f bs := by
  unfold assembled bitmapOf
  rw [resultsFrom_key, resultsFrom_container]
  congr 2
  have := resultsFrom_length f bs 0
  apply List.ext_getElem
  · simp [this]
  · intro i h1 h2; simp

theorem drain_succ_pos (fuel : Nat) (h : bitmapContainerHeap) (hpos : 0 < h.Len) :
    drain (fuel + 1) h = h.PopNextContainers.1 :: drain fuel h.PopNextContainers.2 := by
  rw [drain, if_pos hpos]

theorem drain_succ_neg (fuel : Nat) (h : bitmapContainerHeap) (hpos : ¬ 0 < h.Len) :
    drain (fuel + 1) h = [] := by
  rw [drain, if_neg hpos]

theorem ParOr_workerResults (M : containerMethods) :
    ∀ (fuel : Nat) (h : bitmapContainerHeap) (idx : Int),
      (∀ b ∈ drain fuel h, b.containers ≠ []) →
      workerResults (ParOr.orFunc M) (ParOr.dispatch fuel h idx).1 =
        some (resultsFrom (unionOf M) idx (drain fuel h)) ∧
      (ParOr.dispatch fuel h idx).2 = idx + ((drain fuel h).length : Int) := by
  intro fuel
  induction fuel with
  | zero => intro h idx _; simp [ParOr.dispatch, drain, workerResults, resultsFrom]
  | succ fuel ih =>
    intro h idx hne
    rw [ParOr.dispatch]
    by_cases hpos : 0 < h.Len
    · rw [drain_succ_pos fuel h hpos] at hne ⊢
      rw [if_pos hpos]
      simp only
      obtain ⟨i1, i2⟩ := ih h.PopNextContainers.2 (idx + 1)
        (fun b hb => hne b (List.mem_cons_of_mem _ hb))
      have h0 := hne _ (List.mem_cons_self _ _)
      constructor
      · rw [resultsFrom]
        generalize h.PopNextContainers.1 = ck at h0 ⊢
        obtain ⟨key, cs, ix⟩ := ck
        simp only at h0 ⊢
        match cs, h0 with
        | [c], _ =>
          simp only [List.length_singleton, beq_self_eq_true, if_true, workerResults, i1,
            Option.map_some', unionOf, List.getD_cons_zero]
        | c0 :: c1 :: rest, _ =>
          have hl : ((c0 :: c1 :: rest).length == 1) = false := by simp
          simp only [hl, Bool.false_eq_true, if_false, workerResults, ParOr.orFunc, i1,
            Option.map_some', unionOf]
      · rw [i2, List.length_cons]; push_cast; omega
    · rw [drain_succ_neg fuel h hpos, if_neg hpos]
      simp [workerResults, resultsFrom]

theorem ParAnd_workerResults (M : containerMethods) (bitmapCount : Nat) :
    ∀ (fuel : Nat) (h : bitmapContainerHeap) (idx : Int),
      (∀ b ∈ (drain fuel h).filter (fun b => b.containers.length == bitmapCount),
        2 ≤ b.containers.length) →
      workerResults (ParAnd.andFunc M) (ParAnd.dispatch bitmapCount fuel h idx).1 =
        some (resultsFrom (interOf M) idx
          ((drain fuel h).filter (fun b => b.containers.length == bitmapCount))) ∧
      (ParAnd.dispatch bitmapCount fuel h idx).2 = idx +
        ((((drain fuel h).filter (fun b => b.containers.length == bitmapCount)).length : Nat) : Int) := by
  intro fuel
  induction fuel with
  | zero => intro h idx _; simp [ParAnd.dispatch, drain, workerResults, resultsFrom]
  | succ fuel ih =>
    intro h idx hne
    rw [ParAnd.dispatch]
    by_cases hpos : 0 < h.Len
    · rw [drain_succ_pos fuel h hpos] at hne ⊢
      rw [if_pos hpos]
      simp only
      by_cases hN : (h.PopNextContainers.1.containers.length == bitmapCount) = true
      · rw [List.filter_cons, if_pos hN] at hne ⊢
        rw [if_pos hN]
        obtain ⟨i1, i2⟩ := ih h.PopNextContainers.2 (idx + 1)
          (fun b hb => hne b (List.mem_cons_of_mem _ hb))
        have h0 := hne _ (List.mem_cons_self _ _)
        constructor
        · rw [resultsFrom]
          generalize h.PopNextContainers.1 = ck at h0 ⊢
          obtain ⟨key, cs, ix⟩ := ck
          simp only at h0 ⊢
          match cs, h0 with
          | c0 :: c1 :: rest, _ =>
            simp only [workerResults, ParAnd.andFunc, i1, Option.map_some', interOf]
        · simp only [i2, List.length_cons]; push_cast; omega
      · rw [List.filter_cons, if_neg hN] at hne ⊢
        rw [if_neg hN]
        exact ih h.PopNextContainers.2 idx hne
    · rw [drain_succ_neg fuel h hpos, if_neg hpos]
      simp [workerResults, resultsFrom]

/-! ### Containers under one key -/

theorem atKey_perm (k : Nat) {l l' : List (Nat × container)} (h : l.Perm l') :
    (atKey k l).Perm (atKey k l') :=
  (h.filter _).map _

theorem atKey_flatMap {α : Type} (k : Nat) (f : α → List (Nat × container)) (xs : List α) :
    atKey k (xs.flatMap f) = xs.flatMap (fun x => atKey k (f x)) := by
  unfold atKey
  rw [List.filter_flatMap, List.map_flatMap]

theorem atKey_batchPairs (k : Nat) (b : multipleContainers) :
    atKey k (batchPairs b) = if b.key = k then b.containers else [] := by
  unfold atKey batchPairs
  by_cases hk : b.key = k
  · rw [if_pos hk, List.filter_map, List.map_map]
    have : List.filter ((fun p : Nat × container => p.1 == k) ∘ fun c => (b.key, c)) b.containers
        = b.containers := by
      apply List.filter_eq_self.mpr
      intro c _; simp [hk]
    rw [this]
    simp
  · rw [if_neg hk, List.filter_map]
    have : List.filter ((fun p : Nat × container => p.1 == k) ∘ fun c => (b.key, c)) b.containers
        = [] := by
      apply List.filter_eq_nil_iff.mpr
      intro c _; simp [hk]
    rw [this]
    rfl

theorem atKey_sorted (k : Nat) :
    ∀ (l : List (Nat × container)), (l.map (fun p => p.1)).Pairwise (fun a b => a < b) →
      atKey k l = ((l.find? (fun kc => kc.1 == k)).map (fun kc => kc.2)).toList := by
  intro l
  induction l with
  | nil => intro _; rfl
  | cons p t ih =>
    intro hs
    rw [List.map_cons, List.pairwise_cons] at hs
    by_cases hp : (p.1 == k) = true
    · have ht : atKey k t = [] := by
        unfold atKey
        rw [List.filter_eq_nil_iff.mpr, List.map_nil]
        intro q hq
        have := hs.1 q.1 (List.mem_map_of_mem _ hq)
        have hpk : p.1 = k := by simpa using hp
        simp only [beq_iff_eq]
        omega
      unfold atKey at ht ⊢
      rw [List.filter_cons, if_pos hp, List.map_cons, ht, List.find?_cons]
      simp only [hp]
      rfl
    · unfold atKey at ih ⊢
      have hp' : (p.1 == k) = false := Bool.eq_false_iff.mpr hp
      rw [List.filter_cons, if_neg hp, List.find?_cons]
      simp only [hp']
      exact ih hs.2

theorem keys_of_entries {valid : container → Bool} {B : Bitmap} (hw : B.WellFormed valid) :
    B.entries.map (fun p => p.1) = B.highlowcontainer.keys := by
  unfold Bitmap.entries
  rw [List.map_fst_zip]
  rw [hw.2.2.1]

theorem atKey_entries {valid : container → Bool} {B : Bitmap} (hw : B.WellFormed valid)
    (k : Nat) : atKey k B.entries = (B.highlowcontainer.getContainer k).toList := by
  rw [atKey_sorted k B.entries (by rw [keys_of_entries hw]; exact hw.1)]
  rfl

theorem atKey_inputs {valid : container → Bool} (bitmaps : List Bitmap)
    (hwf : ∀ b ∈ bitmaps, b.WellFormed valid) (k : Nat) :
    atKey k (bitmaps.flatMap Bitmap.entries) = slotsAt bitmaps k := by
  rw [atKey_flatMap]
  unfold slotsAt
  apply List.flatMap_congr
  intro B hB
  exact atKey_entries (hwf B hB) k

theorem atKey_batches (k : Nat) :
    ∀ (batches : List multipleContainers),
      (batches.map (fun b => b.key)).Pairwise (fun a b => a < b) →
      (∀ b ∈ batches, b.key = k → atKey k (batches.flatMap batchPairs) = b.containers) ∧
      ((∀ b ∈ batches, b.key ≠ k) → atKey k (batches.flatMap batchPairs) = []) := by
  intro batches
  induction batches with
  | nil => intro _; exact ⟨fun b hb => by simp at hb, fun _ => rfl⟩
  | cons a t ih =>
    intro hs
    rw [List.map_cons, List.pairwise_cons] at hs
    obtain ⟨i1, i2⟩ := ih hs.2
    have happ : atKey k ((a :: t).flatMap batchPairs) =
        atKey k (batchPairs a) ++ atKey k (t.flatMap batchPairs) := by
      rw [List.flatMap_cons]
      unfold atKey
      rw [List.filter_append, List.map_append]
    constructor
    · intro b hb hk
      rw [happ, atKey_batchPairs]
      rcases List.mem_cons.mp hb with rfl | hb
      · rw [if_pos hk, i2, List.append_nil]
        intro c hc hck
        have := hs.1 c.key (List.mem_map_of_mem _ hc)
        omega
      · have hak : a.key ≠ k := by
          have := hs.1 b.key (List.mem_map_of_mem _ hb)
          omega
        rw [if_neg hak, List.nil_append]
        exact i1 b hb hk
    · intro hne
      rw [happ, atKey_batchPairs, if_neg (hne a (List.mem_cons_self _ _)), List.nil_append]
      exact i2 (fun b hb => hne b (List.mem_cons_of_mem _ hb))

/-! ### What the pipelines return -/

theorem getContainer_mem {B : Bitmap} {k : Nat} {c : container}
    (h : B.highlowcontainer.getContainer k = some c) : c ∈ B.highlowcontainer.containers := by
  unfold roaringArray.getContainer at h
  obtain ⟨p, hp, rfl⟩ := Option.map_eq_some'.mp h
  exact (List.of_mem_zip (List.mem_of_find?_eq_some hp)).2

theorem slotsAt_valid {valid : container → Bool} (bitmaps : List Bitmap)
    (hwf : ∀ b ∈ bitmaps, b.WellFormed valid) (k : Nat) :
    ∀ c ∈ slotsAt bitmaps k, valid c = true := by
  intro c hc
  unfold slotsAt at hc
  obtain ⟨B, hB, hcB⟩ := List.mem_flatMap.mp hc
  have : B.highlowcontainer.getContainer k = some c := by
    simpa using hcB
  exact (hwf B hB).2.2.2.2 c (getContainer_mem this)

theorem batchesOf_spec {valid : container → Bool} (bitmaps : List Bitmap)
    (hwf : ∀ b ∈ bitmaps, b.WellFormed valid) :
    ((batchesOf bitmaps).map (fun b => b.key)).Pairwise (fun a b => a < b) ∧
    (∀ b ∈ batchesOf bitmaps, b.containers ≠ []) ∧
    (∀ b ∈ batchesOf bitmaps, b.containers.Perm (slotsAt bitmaps b.key)) ∧
    (∀ k, (∀ b ∈ batchesOf bitmaps, b.key ≠ k) → slotsAt bitmaps k = []) := by
  obtain ⟨n1, n2⟩ := newBitmapContainerHeap_spec bitmaps hwf
  obtain ⟨d1, d2, d3, _⟩ := drain_spec (newBitmapContainerHeap bitmaps).fuel
    (newBitmapContainerHeap bitmaps) n1 (Nat.le_refl _)
  have hperm : ((batchesOf bitmaps).flatMap batchPairs).Perm (bitmaps.flatMap Bitmap.entries) :=
    d1.symm.trans n2
  refine ⟨d2, d3, ?_, ?_⟩
  · intro b hb
    have h1 := atKey_perm b.key hperm
    rw [atKey_inputs bitmaps hwf, (atKey_batches b.key (batchesOf bitmaps) d2).1 b hb rfl] at h1
    exact h1
  · intro k hk
    have h1 := atKey_perm k hperm
    rw [atKey_inputs bitmaps hwf, (atKey_batches k (batchesOf bitmaps) d2).2 hk] at h1
    exact List.perm_nil.mp h1.symm

theorem ParOr_eq {valid : container → Bool} (M : containerMethods)
    (sched : List appenderMsg → List appenderMsg) (hs : IsScheduler sched)
    (bitmaps : List Bitmap) (hwf : ∀ b ∈ bitmaps, b.WellFormed valid) :
    ParOr M sched bitmaps = some (bitmapOf (unionOf M) (batchesOf bitmaps)) := by
  obtain ⟨_, b2, _, _⟩ := batchesOf_spec bitmaps hwf
  obtain ⟨w1, w2⟩ := ParOr_workerResults M (newBitmapContainerHeap bitmaps).fuel
    (newBitmapContainerHeap bitmaps) 0 b2
  unfold ParOr runPipeline
  simp only [w1, w2]
  have hlen : (0 : Int) + ((drain (newBitmapContainerHeap bitmaps).fuel
      (newBitmapContainerHeap bitmaps)).length : Int) =
      ((resultsFrom (unionOf M) 0 (drain (newBitmapContainerHeap bitmaps).fuel
        (newBitmapContainerHeap bitmaps))).length : Int) := by
    rw [resultsFrom_length]; simp
  rw [hlen, appenderRoutine_spec _ (resultsFrom_indexed _ _) _ (hs _), assembled_resultsFrom]
  rfl

theorem ParAnd_eq (M : containerMethods)
    (sched : List appenderMsg → List appenderMsg) (hs : IsScheduler sched)
    (bitmaps : List Bitmap)
    (h2 : ∀ b ∈ (batchesOf bitmaps).filter (fun b => b.containers.length == bitmaps.length),
      2 ≤ b.containers.length) :
    ParAnd M sched bitmaps = some (bitmapOf (interOf M)
      ((batchesOf bitmaps).filter (fun b => b.containers.length == bitmaps.length))) := by
  obtain ⟨w1, w2⟩ := ParAnd_workerResults M bitmaps.length (newBitmapContainerHeap bitmaps).fuel
    (newBitmapContainerHeap bitmaps) 0 h2
  unfold ParAnd runPipeline
  simp only [w1, w2]
  have hlen : (0 : Int) + (((drain (newBitmapContainerHeap bitmaps).fuel
      (newBitmapContainerHeap bitmaps)).filter
        (fun b => b.containers.length == bitmaps.length)).length : Int) =
      ((resultsFrom (interOf M) 0 ((drain (newBitmapContainerHeap bitmaps).fuel
        (newBitmapContainerHeap bitmaps)).filter
          (fun b => b.containers.length == bitmaps.length))).length : Int) := by
    rw [resultsFrom_length]; simp
  rw [hlen, appenderRoutine_spec _ (resultsFrom_indexed _ _) _ (hs _), assembled_resultsFrom]
  rfl

theorem ParAnd_workerResults_none (M : containerMethods) (bitmapCount : Nat) :
    ∀ (fuel : Nat) (h : bitmapContainerHeap) (idx : Int),
      (∃ b ∈ (drain fuel h).filter (fun b => b.containers.length == bitmapCount),
        b.containers.length < 2) →
      workerResults (ParAnd.andFunc M) (ParAnd.dispatch bitmapCount fuel h idx).1 = none := by
  intro fuel
  induction fuel with
  | zero => intro h idx hex; simp [drain] at hex
  | succ fuel ih =>
    intro h idx hex
    rw [ParAnd.dispatch]
    by_cases hpos : 0 < h.Len
    · rw [drain_succ_pos fuel h hpos] at hex
      rw [if_pos hpos]
      simp only
      by_cases hN : (h.PopNextContainers.1.containers.length == bitmapCount) = true
      · rw [List.filter_cons, if_pos hN] at hex
        rw [if_pos hN]
        simp only [workerResults]
        by_cases hshort : h.PopNextContainers.1.containers.length < 2
        · have hw : ParAnd.andFunc M { h.PopNextContainers.1 with idx := idx } = none := by
            unfold ParAnd.andFunc
            generalize h.PopNextContainers.1.containers = cs at hshort
            match cs, hshort with
            | [], _ => rfl
            | [_], _ => rfl
            | _ :: _ :: _, hsh => exact absurd hsh (by simp)
          rw [hw]
        · obtain ⟨b, hb, hlt⟩ := hex
          rcases List.mem_cons.mp hb with rfl | hb
          · exact absurd hlt hshort
          · rw [ih h.PopNextContainers.2 (idx + 1) ⟨b, hb, hlt⟩]
            cases ParAnd.andFunc M { h.PopNextContainers.1 with idx := idx } <;> rfl
      · rw [List.filter_cons, if_neg hN] at hex
        rw [if_neg hN]
        exact ih h.PopNextContainers.2 idx hex
    · rw [drain_succ_neg fuel h hpos] at hex
      simp at hex

theorem ParAnd_none (M : containerMethods) (sched : List appenderMsg → List appenderMsg)
    (bitmaps : List Bitmap)
    (hex : ∃ b ∈ (batchesOf bitmaps).filter (fun b => b.containers.length == bitmaps.length),
      b.containers.length < 2) :
    ParAnd M sched bitmaps = none := by
  unfold ParAnd runPipeline
  simp only
  rw [ParAnd_workerResults_none M bitmaps.length _ _ 0 hex]

/-! ### Membership of the parallel union -/

theorem repairAfterLazy_spec {M : containerMethods} {valid : container → Bool}
    (hM : SetContract M valid) (c : container) (hc : valid c = true) :
    valid (repairAfterLazy M c) = true ∧
    ∀ v, v < 65536 → M.contains (repairAfterLazy M c) v = M.contains c v := by
  cases c with
  | array t => exact ⟨hc, fun _ _ => rfl⟩
  | run t => exact ⟨hc, fun _ _ => rfl⟩
  | bitmap t =>
    unfold repairAfterLazy
    simp only
    have key : ∃ t', (if t.cardinality = M.invalidCardinality then M.computeCardinality t else t)
        = t' ∧ valid (.bitmap t') = true ∧ t'.cardinality ≠ M.invalidCardinality ∧
        ∀ v, v < 65536 → M.contains (.bitmap t') v = M.contains (.bitmap t) v := by
      by_cases hinv : t.cardinality = M.invalidCardinality
      · exact ⟨_, if_pos hinv, hM.computeCardinality_valid t hc,
          hM.computeCardinality_known t hc, fun v hv => hM.computeCardinality_contains t v hc hv⟩
      · exact ⟨_, if_neg hinv, hc, hinv, fun _ _ => rfl⟩
    obtain ⟨t', ht', hv', hk', hc'⟩ := key
    rw [ht']
    by_cases hsmall : M.getCardinality t' ≤ M.arrayDefaultMaxSize
    · rw [if_pos hsmall]
      exact ⟨hM.toArrayContainer_valid t' hv' hk', fun v hv => by
        rw [hM.toArrayContainer_contains t' v hv' hk' hv, hc' v hv]⟩
    · rw [if_neg hsmall]
      by_cases hfull : M.bitmapIsFull t' = true
      · rw [if_pos hfull]
        exact ⟨hM.newRunContainer16Range_valid, fun v hv => by
          rw [hM.newRunContainer16Range_contains v hv, ← hc' v hv,
            hM.bitmapIsFull_contains t' v hv' hk' hfull hv]⟩
      · rw [if_neg hfull]
        exact ⟨hv', hc'⟩

theorem toBitmapContainer_spec {M : containerMethods} {valid : container → Bool}
    (hM : SetContract M valid) (c : container) (hc : valid c = true) :
    valid (toBitmapContainer M c) = true ∧
    ∀ v, v < 65536 → M.contains (toBitmapContainer M c) v = M.contains c v := by
  cases c with
  | array t =>
    exact ⟨hM.arrayToBitmapContainer_valid t hc,
      fun v hv => hM.arrayToBitmapContainer_contains t v hc hv⟩
  | bitmap t => exact ⟨hc, fun _ _ => rfl⟩
  | run t =>
    unfold toBitmapContainer
    simp only
    by_cases hfull : (!M.runIsFull t) = true
    · rw [if_pos hfull]
      exact ⟨hM.runToBitmapContainer_valid t hc,
        fun v hv => hM.runToBitmapContainer_contains t v hc hv⟩
    · rw [if_neg hfull]
      exact ⟨hc, fun _ _ => rfl⟩

theorem foldl_lazyIOR_spec {M : containerMethods} {valid : container → Bool}
    (hM : SetContract M valid) :
    ∀ (rest : List container) (acc : container), valid acc = true →
      (∀ c ∈ rest, valid c = true) →
      valid (rest.foldl (fun c next => M.lazyIOR c next) acc) = true ∧
      ∀ v, v < 65536 → M.contains (rest.foldl (fun c next => M.lazyIOR c next) acc) v =
        (M.contains acc v || rest.any (fun c => M.contains c v)) := by
  intro rest
  induction rest with
  | nil => intro acc ha _; exact ⟨ha, fun v _ => by simp⟩
  | cons a t ih =>
    intro acc ha hall
    have hva := hall a (List.mem_cons_self _ _)
    obtain ⟨i1, i2⟩ := ih (M.lazyIOR acc a) (hM.lazyIOR_valid acc a ha hva)
      (fun c hc => hall c (List.mem_cons_of_mem _ hc))
    refine ⟨i1, fun v hv => ?_⟩
    rw [List.foldl_cons, i2 v hv, hM.lazyIOR_contains acc a v ha hva hv, List.any_cons,
      Bool.or_assoc]

theorem foldl_iand_spec {M : containerMethods} {valid : container → Bool}
    (hM : SetContract M valid) :
    ∀ (rest : List container) (acc : container), valid acc = true →
      (∀ c ∈ rest, valid c = true) →
      valid (rest.foldl (fun c next => M.iand c next) acc) = true ∧
      ∀ v, v < 65536 → M.contains (rest.foldl (fun c next => M.iand c next) acc) v =
        (M.contains acc v && rest.all (fun c => M.contains c v)) := by
  intro rest
  induction rest with
  | nil => intro acc ha _; exact ⟨ha, fun v _ => by simp⟩
  | cons a t ih =>
    intro acc ha hall
    have hva := hall a (List.mem_cons_self _ _)
    obtain ⟨i1, i2⟩ := ih (M.iand acc a) (hM.iand_valid acc a ha hva)
      (fun c hc => hall c (List.mem_cons_of_mem _ hc))
    refine ⟨i1, fun v hv => ?_⟩
    rw [List.foldl_cons, i2 v hv, hM.iand_contains acc a v ha hva hv, List.all_cons,
      Bool.and_assoc]

theorem unionOf_spec {M : containerMethods} {valid : container → Bool}
    (hM : SetContract M valid) (cs : List container) (hne : cs ≠ [])
    (hall : ∀ c ∈ cs, valid c = true) :
    valid (unionOf M cs) = true ∧
    ∀ v, v < 65536 → M.contains (unionOf M cs) v = cs.any (fun c => M.contains c v) := by
  match cs, hne with
  | [c], _ =>
    exact ⟨hall c (List.mem_cons_self _ _), fun v _ => by simp [unionOf]⟩
  | c0 :: c1 :: rest, _ =>
    have h0 := hall c0 (List.mem_cons_self _ _)
    have h1 := hall c1 (List.mem_cons_of_mem _ (List.mem_cons_self _ _))
    obtain ⟨t1, t2⟩ := toBitmapContainer_spec hM c0 h0
    have l1 := hM.lazyOR_valid _ c1 t1 h1
    obtain ⟨f1, f2⟩ := foldl_lazyIOR_spec hM rest _ l1
      (fun c hc => hall c (List.mem_cons_of_mem _ (List.mem_cons_of_mem _ hc)))
    obtain ⟨r1, r2⟩ := repairAfterLazy_spec hM _ f1
    refine ⟨r1, fun v hv => ?_⟩
    unfold unionOf
    rw [r2 v hv, f2 v hv, hM.lazyOR_contains _ c1 v t1 h1 hv, t2 v hv, List.any_cons,
      List.any_cons, Bool.or_assoc]

theorem interOf_spec {M : containerMethods} {valid : container → Bool}
    (hM : SetContract M valid) (cs : List container) (hlen : 2 ≤ cs.length)
    (hall : ∀ c ∈ cs, valid c = true) :
    valid (interOf M cs) = true ∧
    ∀ v, v < 65536 → M.contains (interOf M cs) v = cs.all (fun c => M.contains c v) := by
  match cs, hlen with
  | c0 :: c1 :: rest, _ =>
    have h0 := hall c0 (List.mem_cons_self _ _)
    have h1 := hall c1 (List.mem_cons_of_mem _ (List.mem_cons_self _ _))
    have l1 := hM.and_valid c0 c1 h0 h1
    obtain ⟨f1, f2⟩ := foldl_iand_spec hM rest _ l1
      (fun c hc => hall c (List.mem_cons_of_mem _ (List.mem_cons_of_mem _ hc)))
    refine ⟨f1, fun v hv => ?_⟩
    unfold interOf
    rw [f2 v hv, hM.and_contains c0 c1 v h0 h1 hv, List.all_cons, List.all_cons, Bool.and_assoc]

theorem getContainer_bitmapOf (f : List container → container)
    (batches : List multipleContainers) (k : Nat) :
    (bitmapOf f batches).highlowcontainer.getContainer k =
      (batches.find? (fun b => b.key == k)).map (fun b => f b.containers) := by
  unfold bitmapOf roaringArray.getContainer
  simp only
  rw [List.zip_map', List.find?_map, Option.map_map]
  rfl

theorem Contains_eq_slot (M : containerMethods) (B : Bitmap) (x : Nat) :
    B.Contains M x = (B.highlowcontainer.getContainer (x / 65536)).toList.any
      (fun c => M.contains c (x % 65536)) := by
  unfold Bitmap.Contains
  cases B.highlowcontainer.getContainer (x / 65536) <;> simp

theorem any_Contains_eq_slots (M : containerMethods) (bitmaps : List Bitmap) (x : Nat) :
    bitmaps.any (fun B => B.Contains M x) =
      (slotsAt bitmaps (x / 65536)).any (fun c => M.contains c (x % 65536)) := by
  unfold slotsAt
  rw [List.any_flatMap]
  congr 1
  funext B
  exact Contains_eq_slot M B x

theorem perm_any_eq {α : Type} {l l' : List α} (p : α → Bool) (h : l.Perm l') :
    l.any p = l'.any p := by
  rw [Bool.eq_iff_iff, List.any_eq_true, List.any_eq_true]
  exact ⟨fun ⟨a, ha, hp⟩ => ⟨a, h.subset ha, hp⟩, fun ⟨a, ha, hp⟩ => ⟨a, h.symm.subset ha, hp⟩⟩

theorem perm_all_eq {α : Type} {l l' : List α} (p : α → Bool) (h : l.Perm l') :
    l.all p = l'.all p := by
  rw [Bool.eq_iff_iff, List.all_eq_true, List.all_eq_true]
  exact ⟨fun hh a ha => hh a (h.symm.subset ha), fun hh a ha => hh a (h.subset ha)⟩

theorem ParOr_union {M : containerMethods} {valid : container → Bool}
    (hM : SetContract M valid) (sched : List appenderMsg → List appenderMsg)
    (hs : IsScheduler sched) (bitmaps : List Bitmap)
    (hwf : ∀ b ∈ bitmaps, b.WellFormed valid) :
    ∃ r, ParOr M sched bitmaps = some r ∧
      ∀ x, r.Contains M x = bitmaps.any (fun B => B.Contains M x) := by
  refine ⟨_, ParOr_eq M sched hs bitmaps hwf, fun x => ?_⟩
  obtain ⟨_, b2, b3, b4⟩ := batchesOf_spec bitmaps hwf
  rw [any_Contains_eq_slots]
  unfold Bitmap.Contains
  rw [getContainer_bitmapOf]
  cases hf : (batchesOf bitmaps).find? (fun b => b.key == x / 65536) with
  | none =>
    have hnone : ∀ b ∈ batchesOf bitmaps, b.key ≠ x / 65536 := by
      intro b hb
      have := List.find?_eq_none.mp hf b hb
      simpa using this
    rw [b4 _ hnone]
    rfl
  | some b =>
    have hb : b ∈ batchesOf bitmaps := List.mem_of_find?_eq_some hf
    have hk : b.key = x / 65536 := by simpa using List.find?_some hf
    have hp := b3 b hb
    rw [hk] at hp
    have hv : ∀ c ∈ b.containers, valid c = true :=
      fun c hc => slotsAt_valid bitmaps hwf _ c (hp.subset hc)
    simp only [Option.map_some']
    rw [(unionOf_spec hM b.containers (b2 b hb) hv).2 _ (Nat.mod_lt _ (by decide))]
    exact perm_any_eq _ hp

/-! ### Membership of the parallel intersection -/

theorem slotsAt_cons (B : Bitmap) (t : List Bitmap) (k : Nat) :
    slotsAt (B :: t) k = (B.highlowcontainer.getContainer k).toList ++ slotsAt t k := by
  unfold slotsAt
  rw [List.flatMap_cons]

theorem slotsAt_length_le (bitmaps : List Bitmap) (k : Nat) :
    (slotsAt bitmaps k).length ≤ bitmaps.length := by
  induction bitmaps with
  | nil => simp [slotsAt]
  | cons B t ih =>
    rw [slotsAt_cons, List.length_append, List.length_cons]
    cases B.highlowcontainer.getContainer k <;> simp <;> omega

theorem all_Contains_of_full (M : containerMethods) (x : Nat) :
    ∀ (bitmaps : List Bitmap), (slotsAt bitmaps (x / 65536)).length = bitmaps.length →
      bitmaps.all (fun B => B.Contains M x) =
        (slotsAt bitmaps (x / 65536)).all (fun c => M.contains c (x % 65536)) := by
  intro bitmaps
  induction bitmaps with
  | nil => intro _; rfl
  | cons B t ih =>
    intro hlen
    have hle := slotsAt_length_le t (x / 65536)
    rw [slotsAt_cons] at hlen ⊢
    rw [List.all_cons, List.all_append, Contains_eq_slot]
    cases hB : B.highlowcontainer.getContainer (x / 65536) with
    | none =>
      rw [hB] at hlen
      simp at hlen
      omega
    | some c =>
      rw [hB] at hlen
      simp only [Option.toList, List.length_append, List.length_cons, List.length_nil] at hlen
      rw [ih (by omega)]
      simp

theorem all_Contains_of_short (M : containerMethods) (x : Nat) :
    ∀ (bitmaps : List Bitmap), (slotsAt bitmaps (x / 65536)).length ≠ bitmaps.length →
      bitmaps.all (fun B => B.Contains M x) = false := by
  intro bitmaps
  induction bitmaps with
  | nil => intro h; simp [slotsAt] at h
  | cons B t ih =>
    intro hlen
    rw [slotsAt_cons] at hlen
    rw [List.all_cons, Contains_eq_slot]
    cases hB : B.highlowcontainer.getContainer (x / 65536) with
    | none => simp
    | some c =>
      rw [hB] at hlen
      simp only [Option.toList, List.length_append, List.length_cons, List.length_nil] at hlen
      rw [ih (by omega)]
      simp

theorem ParAnd_inter {M : containerMethods} {valid : container → Bool}
    (hM : SetContract M valid) (sched : List appenderMsg → List appenderMsg)
    (hs : IsScheduler sched) (bitmaps : List Bitmap)
    (hwf : ∀ b ∈ bitmaps, b.WellFormed valid) (hlen : 2 ≤ bitmaps.length) :
    ∃ r, ParAnd M sched bitmaps = some r ∧
      ∀ x, r.Contains M x = bitmaps.all (fun B => B.Contains M x) := by
  have h2 : ∀ b ∈ (batchesOf bitmaps).filter (fun b => b.containers.length == bitmaps.length),
      2 ≤ b.containers.length := by
    intro b hb
    have := (List.mem_filter.mp hb).2
    simp only [beq_iff_eq] at this
    omega
  refine ⟨_, ParAnd_eq M sched hs bitmaps h2, fun x => ?_⟩
  obtain ⟨_, b2, b3, b4⟩ := batchesOf_spec bitmaps hwf
  have hfull := all_Contains_of_full M x bitmaps
  have hshort := all_Contains_of_short M x bitmaps
  generalize bitmaps.all (fun B => B.Contains M x) = R at hfull hshort ⊢
  unfold Bitmap.Contains
  rw [getContainer_bitmapOf]
  cases hf : ((batchesOf bitmaps).filter
      (fun b => b.containers.length == bitmaps.length)).find? (fun b => b.key == x / 65536) with
  | none =>
    simp only [Option.map_none']
    symm
    apply hshort
    have hnone := List.find?_eq_none.mp hf
    by_cases hex : ∃ b ∈ batchesOf bitmaps, b.key = x / 65536
    · obtain ⟨b, hb, hk⟩ := hex
      have hnot : ¬ (b.containers.length == bitmaps.length) = true := by
        intro hq
        have := hnone b (List.mem_filter.mpr ⟨hb, hq⟩)
        simp [hk] at this
      have hp := (b3 b hb).length_eq
      rw [hk] at hp
      simp only [beq_iff_eq] at hnot
      omega
    · have hk : ∀ b ∈ batchesOf bitmaps, b.key ≠ x / 65536 :=
        fun b hb hk => hex ⟨b, hb, hk⟩
      rw [b4 _ hk]
      simp only [List.length_nil]
      omega
  | some b =>
    have hbF := List.mem_of_find?_eq_some hf
    have hb : b ∈ batchesOf bitmaps := (List.mem_filter.mp hbF).1
    have hN : b.containers.length = bitmaps.length := by
      simpa using (List.mem_filter.mp hbF).2
    have hk : b.key = x / 65536 := by simpa using List.find?_some hf
    have hp := b3 b hb
    rw [hk] at hp
    have hv : ∀ c ∈ b.containers, valid c = true :=
      fun c hc => slotsAt_valid bitmaps hwf _ c (hp.subset hc)
    simp only [Option.map_some']
    rw [(interOf_spec hM b.containers (by omega) hv).2 _ (Nat.mod_lt _ (by decide)),
      hfull (by rw [← hp.length_eq]; exact hN)]
    exact perm_all_eq _ hp

theorem ParAnd_sched_irrelevant (M : containerMethods)
    (s s' : List appenderMsg → List appenderMsg) (hs : IsScheduler s) (hs' : IsScheduler s')
    (bitmaps : List Bitmap) : ParAnd M s bitmaps = ParAnd M s' bitmaps := by
  by_cases h2 : ∀ b ∈ (batchesOf bitmaps).filter
      (fun b => b.containers.length == bitmaps.length), 2 ≤ b.containers.length
  · rw [ParAnd_eq M s hs bitmaps h2, ParAnd_eq M s' hs' bitmaps h2]
  · have hex : ∃ b ∈ (batchesOf bitmaps).filter
        (fun b => b.containers.length == bitmaps.length), b.containers.length < 2 := by
      by_contra hc
      apply h2
      intro b hb
      by_contra hlt
      exact hc ⟨b, hb, by omega⟩
    rw [ParAnd_none M s bitmaps hex, ParAnd_none M s' bitmaps hex]

theorem ParAnd_some_eq (M : containerMethods) (s : List appenderMsg → List appenderMsg)
    (hs : IsScheduler s) (bitmaps : List Bitmap) (r : Bitmap)
    (hr : ParAnd M s bitmaps = some r) :
    r = bitmapOf (interOf M)
      ((batchesOf bitmaps).filter (fun b => b.containers.length == bitmaps.length)) := by
  by_cases h2 : ∀ b ∈ (batchesOf bitmaps).filter
      (fun b => b.containers.length == bitmaps.length), 2 ≤ b.containers.length
  · rw [ParAnd_eq M s hs bitmaps h2] at hr
    exact (Option.some.inj hr).symm
  · have hex : ∃ b ∈ (batchesOf bitmaps).filter
        (fun b => b.containers.length == bitmaps.length), b.containers.length < 2 := by
      by_contra hc
      apply h2
      intro b hb
      by_contra hlt
      exact hc ⟨b, hb, by omega⟩
    rw [ParAnd_none M s bitmaps hex] at hr
    exact Option.noConfusion hr

theorem batchesOf_nil : batchesOf [] = [] := rfl

/-! ### Pass-through of single containers -/

theorem batchesOf_perm {valid : container → Bool} (bitmaps : List Bitmap)
    (hwf : ∀ b ∈ bitmaps, b.WellFormed valid) :
    ((batchesOf bitmaps).flatMap batchPairs).Perm (bitmaps.flatMap Bitmap.entries) := by
  obtain ⟨n1, n2⟩ := newBitmapContainerHeap_spec bitmaps hwf
  obtain ⟨d1, _, _, _⟩ := drain_spec (newBitmapContainerHeap bitmaps).fuel
    (newBitmapContainerHeap bitmaps) n1 (Nat.le_refl _)
  exact d1.symm.trans n2

theorem batches_single {valid : container → Bool} (bitmaps : List Bitmap)
    (hwf : ∀ b ∈ bitmaps, b.WellFormed valid)
    (hone : ∀ k, (slotsAt bitmaps k).length ≤ 1) :
    ∀ b ∈ batchesOf bitmaps, ∃ c, b.containers = [c] := by
  obtain ⟨_, b2, b3, _⟩ := batchesOf_spec bitmaps hwf
  intro b hb
  have h1 := (b3 b hb).length_eq
  have h2 := hone b.key
  have h3 := b2 b hb
  match hc : b.containers with
  | [] => exact absurd hc h3
  | [c] => exact ⟨c, rfl⟩
  | _ :: _ :: _ => rw [hc] at h1; simp at h1; omega

theorem flatMap_batchPairs_single (M : containerMethods) :
    ∀ (l : List multipleContainers), (∀ b ∈ l, ∃ c, b.containers = [c]) →
      l.flatMap batchPairs = l.map (fun b => (b.key, unionOf M b.containers)) := by
  intro l
  induction l with
  | nil => intro _; rfl
  | cons a t ih =>
    intro h
    obtain ⟨c, hc⟩ := h a (List.mem_cons_self _ _)
    rw [List.flatMap_cons, List.map_cons, ih (fun b hb => h b (List.mem_cons_of_mem _ hb))]
    unfold batchPairs
    rw [hc]
    rfl

theorem entries_bitmapOf (f : List container → container) (l : List multipleContainers) :
    (bitmapOf f l).entries = l.map (fun b => (b.key, f b.containers)) := by
  unfold bitmapOf Bitmap.entries
  simp only
  rw [List.zip_map']

/-- With at most one container per key over all inputs, the output registry is
the sorted merge of the input registries. -/
theorem ParOr_passThrough {valid : container → Bool} (M : containerMethods)
    (bitmaps : List Bitmap) (hwf : ∀ b ∈ bitmaps, b.WellFormed valid)
    (hone : ∀ k, (slotsAt bitmaps k).length ≤ 1) :
    (bitmapOf (unionOf M) (batchesOf bitmaps)).entries.Perm (bitmaps.flatMap Bitmap.entries) ∧
    ((bitmapOf (unionOf M) (batchesOf bitmaps)).entries.map (fun p => p.1)).Pairwise
      (fun a b => a < b) := by
  obtain ⟨b1, _, _, _⟩ := batchesOf_spec bitmaps hwf
  rw [entries_bitmapOf, ← flatMap_batchPairs_single M _ (batches_single bitmaps hwf hone)]
  refine ⟨batchesOf_perm bitmaps hwf, ?_⟩
  rw [flatMap_batchPairs_single M _ (batches_single bitmaps hwf hone), List.map_map]
  exact b1

theorem eq_of_perm_of_keys_sorted {l l' : List (Nat × container)} (hp : l.Perm l')
    (h1 : (l.map (fun p => p.1)).Pairwise (fun a b => a < b))
    (h2 : (l'.map (fun p => p.1)).Pairwise (fun a b => a < b)) : l = l' := by
  haveI : IsAntisymm (Nat × container) (fun p q => p.1 < q.1) :=
    ⟨fun a b hab hba => absurd hab (Nat.lt_asymm hba)⟩
  exact List.eq_of_perm_of_sorted hp (List.pairwise_map.mp h1) (List.pairwise_map.mp h2)

theorem slotsAt_single (A : Bitmap) (k : Nat) : (slotsAt [A] k).length ≤ 1 :=
  slotsAt_length_le [A] k

theorem ParOr_single {valid : container → Bool} (M : containerMethods)
    (sched : List appenderMsg → List appenderMsg) (hs : IsScheduler sched) (A : Bitmap)
    (hw : A.WellFormed valid) :
    ParOr M sched [A] = some ⟨⟨A.highlowcontainer.keys, A.highlowcontainer.containers,
      List.replicate A.highlowcontainer.keys.length false, false, []⟩⟩ := by
  have hwf : ∀ b ∈ [A], b.WellFormed valid := by
    intro b hb
    rw [List.mem_singleton.mp hb]; exact hw
  rw [ParOr_eq M sched hs [A] hwf]
  obtain ⟨p1, p2⟩ := ParOr_passThrough M [A] hwf (slotsAt_single A)
  have hA : [A].flatMap Bitmap.entries = A.entries := by simp
  rw [hA] at p1
  have he := eq_of_perm_of_keys_sorted p1 p2 (by rw [keys_of_entries hw]; exact hw.1)
  rw [entries_bitmapOf] at he
  have hk : (batchesOf [A]).map (fun b => b.key) = A.highlowcontainer.keys := by
    have := congrArg (List.map (fun p : Nat × container => p.1)) he
    rw [List.map_map, keys_of_entries hw] at this
    exact this
  have hc : (batchesOf [A]).map (fun b => unionOf M b.containers) =
      A.highlowcontainer.containers := by
    have := congrArg (List.map (fun p : Nat × container => p.2)) he
    rw [List.map_map] at this
    rw [show List.map (fun p : Nat × container => p.2) A.entries = A.highlowcontainer.containers
      from by unfold Bitmap.entries; rw [List.map_snd_zip]; rw [hw.2.2.1]] at this
    exact this
  have hl : (batchesOf [A]).length = A.highlowcontainer.keys.length := by
    rw [← hk, List.length_map]
  unfold bitmapOf
  rw [hk, hc]
  congr 3
  rw [← hl]
  exact List.map_const' _ _

theorem ParOr_dispatch_direct :
    ∀ (fuel : Nat) (h : bitmapContainerHeap) (idx : Int),
      (∀ b ∈ drain fuel h, ∃ c, b.containers = [c]) →
      ∀ d ∈ (ParOr.dispatch fuel h idx).1, ∃ kx, d = .result kx := by
  intro fuel
  induction fuel with
  | zero => intro h idx _ d hd; simp [ParOr.dispatch] at hd
  | succ fuel ih =>
    intro h idx hone d hd
    rw [ParOr.dispatch] at hd
    by_cases hpos : 0 < h.Len
    · rw [drain_succ_pos fuel h hpos] at hone
      rw [if_pos hpos] at hd
      simp only at hd
      rcases List.mem_cons.mp hd with rfl | hd
      · obtain ⟨c, hc⟩ := hone _ (List.mem_cons_self _ _)
        rw [hc]
        exact ⟨_, rfl⟩
      · exact ih _ _ (fun b hb => hone b (List.mem_cons_of_mem _ hb)) d hd
    · rw [if_neg hpos] at hd
      simp at hd

/-! ### Single inputs, empty inputs, disjoint keys -/

theorem entries_ne_nil {valid : container → Bool} {A : Bitmap} (hw : A.WellFormed valid)
    (hne : A.IsEmpty = false) : A.entries ≠ [] := by
  intro h
  have h1 := congrArg List.length h
  unfold Bitmap.entries at h1
  rw [zip_length_of_wf hw] at h1
  simp [Bitmap.IsEmpty, roaringArray.size] at hne h1
  exact hne h1

theorem ParAnd_single_none {valid : container → Bool} (M : containerMethods)
    (sched : List appenderMsg → List appenderMsg) (A : Bitmap) (hw : A.WellFormed valid)
    (hne : A.IsEmpty = false) : ParAnd M sched [A] = none := by
  have hwf : ∀ b ∈ [A], b.WellFormed valid := by
    intro b hb
    rw [List.mem_singleton.mp hb]; exact hw
  apply ParAnd_none
  have hp := batchesOf_perm [A] hwf
  have hA : [A].flatMap Bitmap.entries = A.entries := by simp
  rw [hA] at hp
  cases hb : batchesOf [A] with
  | nil =>
    rw [hb] at hp
    exact absurd (List.perm_nil.mp hp.symm) (entries_ne_nil hw hne)
  | cons b t =>
    have hmem : b ∈ batchesOf [A] := by rw [hb]; exact List.mem_cons_self _ _
    obtain ⟨c, hc⟩ := batches_single [A] hwf (slotsAt_single A) b hmem
    refine ⟨b, ?_, by rw [hc]; simp⟩
    rw [← hb]
    exact List.mem_filter.mpr ⟨hmem, by rw [hc]; rfl⟩

theorem getContainer_of_isEmpty {E : Bitmap} (hE : E.IsEmpty = true) (k : Nat) :
    E.highlowcontainer.getContainer k = none := by
  have h0 : E.highlowcontainer.keys = [] := by
    apply List.length_eq_zero.mp
    simpa [Bitmap.IsEmpty, roaringArray.size] using hE
  unfold roaringArray.getContainer
  rw [h0]
  rfl

theorem Contains_of_isEmpty (M : containerMethods) {E : Bitmap} (hE : E.IsEmpty = true)
    (x : Nat) : E.Contains M x = false := by
  unfold Bitmap.Contains
  rw [getContainer_of_isEmpty hE]

theorem ParAnd_no_full {valid : container → Bool} (M : containerMethods)
    (sched : List appenderMsg → List appenderMsg) (hs : IsScheduler sched)
    (bitmaps : List Bitmap) (hwf : ∀ b ∈ bitmaps, b.WellFormed valid)
    (hshort : ∀ k, (slotsAt bitmaps k).length ≠ bitmaps.length) :
    ParAnd M sched bitmaps = some New := by
  obtain ⟨_, _, b3, _⟩ := batchesOf_spec bitmaps hwf
  have hnil : (batchesOf bitmaps).filter (fun b => b.containers.length == bitmaps.length) = [] := by
    apply List.filter_eq_nil_iff.mpr
    intro b hb hq
    have h1 := (b3 b hb).length_eq
    simp only [beq_iff_eq] at hq
    exact hshort b.key (by omega)
  rw [ParAnd_eq M sched hs bitmaps (by rw [hnil]; intro b hb; simp at hb), hnil]
  rfl

theorem newBitmapContainerHeap_length (bitmaps : List Bitmap) :
    (newBitmapContainerHeap bitmaps).length =
      (bitmaps.filter (fun b => !b.IsEmpty)).length := by
  rw [(newBitmapContainerHeap_perm bitmaps).length_eq, List.length_map]

theorem getContainer_key_mem {B : Bitmap} {k : Nat} {c : container}
    (h : B.highlowcontainer.getContainer k = some c) : k ∈ B.highlowcontainer.keys := by
  unfold roaringArray.getContainer at h
  obtain ⟨p, hp, _⟩ := Option.map_eq_some'.mp h
  have h1 := (List.of_mem_zip (List.mem_of_find?_eq_some hp)).1
  have h2 : p.1 = k := by simpa using List.find?_some hp
  rw [← h2]; exact h1

theorem slotsAt_pair (A B : Bitmap) (k : Nat) :
    slotsAt [A, B] k = (A.highlowcontainer.getContainer k).toList ++
      (B.highlowcontainer.getContainer k).toList := by
  simp [slotsAt]

theorem slotsAt_disjoint (A B : Bitmap)
    (hd : ∀ k ∈ A.highlowcontainer.keys, k ∉ B.highlowcontainer.keys) (k : Nat) :
    (slotsAt [A, B] k).length ≤ 1 := by
  rw [slotsAt_pair]
  cases hA : A.highlowcontainer.getContainer k with
  | none => cases B.highlowcontainer.getContainer k <;> simp
  | some a =>
    cases hB : B.highlowcontainer.getContainer k with
    | none => simp
    | some b => exact absurd (getContainer_key_mem hB) (hd k (getContainer_key_mem hA))

theorem getContainer_eq_atKey {B : Bitmap}
    (hs : (B.entries.map (fun p => p.1)).Pairwise (fun a b => a < b)) (k : Nat) :
    (B.highlowcontainer.getContainer k).toList = atKey k B.entries := by
  rw [atKey_sorted k B.entries hs]
  rfl

theorem blocked_of_delivered_later :
    ∀ (p q : List appenderMsg) (e a : Int) (keys : List Nat) (cs : List (Option container))
      (b : Bitmap), q ≠ [] →
      appenderRoutine.loop e a keys cs (p ++ q) = .delivered b [] →
      appenderRoutine.loop e a keys cs p = .blocked := by
  intro p
  induction p with
  | nil =>
    intro q e a keys cs b hq hd
    obtain ⟨m, q', rfl⟩ := List.exists_cons_of_ne_nil hq
    rw [List.nil_append] at hd
    by_cases hae : a ≠ e
    · rw [appenderRoutine.loop, if_pos hae]
    · exfalso
      cases m with
      | result item =>
        rw [appenderRoutine.loop, if_neg hae] at hd
        unfold appenderRoutine.deliver at hd
        split at hd <;> simp at hd
      | expectedKeys msg =>
        rw [appenderRoutine.loop, if_neg hae] at hd
        unfold appenderRoutine.deliver at hd
        split at hd <;> simp at hd
  | cons m p ih =>
    intro q e a keys cs b hq hd
    rw [List.cons_append] at hd
    cases m with
    | result item =>
      rw [appenderRoutine.loop] at hd ⊢
      by_cases hae : a ≠ e
      · rw [if_pos hae] at hd ⊢
        by_cases hneg : item.idx < 0
        · rw [if_pos hneg] at hd
          exact appenderOutcome.noConfusion hd
        · rw [if_neg hneg] at hd ⊢
          exact ih q _ _ _ _ b hq hd
      · exfalso
        rw [if_neg hae] at hd
        unfold appenderRoutine.deliver at hd
        split at hd <;> simp at hd
    | expectedKeys msg =>
      rw [appenderRoutine.loop] at hd ⊢
      by_cases hae : a ≠ e
      · rw [if_pos hae] at hd ⊢
        exact ih q _ _ _ _ b hq hd
      · exfalso
        rw [if_neg hae] at hd
        unfold appenderRoutine.deliver at hd
        split at hd <;> simp at hd

theorem appenderRoutine_early_blocked (rs : List keyedContainer) (hI : Indexed rs)
    (msgs : List appenderMsg)
    (hperm : msgs.Perm (rs.map .result ++ [.expectedKeys (rs.length : Int)])) :
    ∀ k, k < msgs.length → appenderRoutine (msgs.take k) = .blocked := by
  intro k hk
  have hd := appenderRoutine_spec rs hI msgs hperm
  unfold appenderRoutine at hd ⊢
  rw [← List.take_append_drop k msgs] at hd
  apply blocked_of_delivered_later _ _ _ _ _ _ _ _ hd
  intro h
  have := congrArg List.length h
  simp at this
  omega

/-! ### The reference container methods meet the contract -/

theorem testBit_refBitsOfList (l : List Nat) (v : Nat) :
    (refBitsOfList l).testBit v = decide (v ∈ l) := by
  induction l with
  | nil => simp [refBitsOfList]
  | cons a t ih =>
    have hstep : refBitsOfList (a :: t) = refBitsOfList t ||| (1 <<< a) := rfl
    rw [hstep, Nat.testBit_or, ih, Nat.one_shiftLeft, Nat.testBit_two_pow]
    by_cases hav : a = v
    · subst hav; simp
    · have hva : ¬ v = a := fun h => hav h.symm
      simp [hav, hva]

theorem mem_refSetBits :
    ∀ (fuel pos n v : Nat), n < 2 ^ fuel →
      (v ∈ refSetBits fuel pos n ↔ pos ≤ v ∧ n.testBit (v - pos) = true) := by
  intro fuel
  induction fuel with
  | zero =>
    intro pos n v hn
    have h0 : n = 0 := by simpa using hn
    subst h0
    simp [refSetBits]
  | succ fuel ih =>
    intro pos n v hn
    rw [refSetBits]
    by_cases h0 : n = 0
    · subst h0; simp
    · rw [if_neg h0, List.mem_append, ih (pos + 1) (n / 2) v (by omega)]
      by_cases hv : v = pos
      · subst hv
        have e1 : v - v = 0 := by omega
        rw [e1, Nat.testBit_zero]
        by_cases hodd : n % 2 = 1
        · simp [hodd]
        · simp [hodd]
      · have hne : ¬ v ∈ (if n % 2 = 1 then [pos] else []) := by
          split_ifs <;> simp [hv]
        by_cases hle : pos ≤ v
        · have e2 : v - pos = (v - (pos + 1)) + 1 := by omega
          rw [e2, Nat.testBit_succ]
          constructor
          · rintro (h | ⟨_, h⟩)
            · exact absurd h hne
            · exact ⟨hle, h⟩
          · rintro ⟨_, h⟩
            exact Or.inr ⟨by omega, h⟩
        · constructor
          · rintro (h | ⟨h, _⟩)
            · exact absurd h hne
            · omega
          · rintro ⟨h, _⟩
            exact absurd h hle

theorem testBit_refSetBits (b v : Nat) :
    (refBitsOfList (refSetBits b 0 b)).testBit v = b.testBit v := by
  rw [testBit_refBitsOfList]
  have h := mem_refSetBits b 0 b v (Nat.lt_two_pow b)
  simp only [Nat.zero_le, true_and, Nat.sub_zero] at h
  by_cases hb : b.testBit v = true
  · rw [hb]; exact decide_eq_true (h.mpr hb)
  · rw [Bool.not_eq_true] at hb
    rw [hb]
    exact decide_eq_false (fun hm => by rw [h.mp hm] at hb; exact Bool.noConfusion hb)

theorem testBit_of_low_bits_full (b j v : Nat) (hfull : b % 2 ^ j = 2 ^ j - 1) (hv : v < j) :
    b.testBit v = true := by
  have h1 : (b % 2 ^ j).testBit v = (decide (v < j) && b.testBit v) :=
    Nat.testBit_mod_two_pow b j v
  rw [hfull, Nat.testBit_two_pow_sub_one] at h1
  simpa [hv] using h1.symm

theorem testBit_refBitsOfRun (a b v : Nat) :
    (refBitsOfRun (a, b)).testBit v = (decide (a ≤ v) && decide (v - a < b + 1 - a)) := by
  unfold refBitsOfRun
  rw [Nat.testBit_shiftLeft, Nat.one_shiftLeft, Nat.testBit_two_pow_sub_one]

theorem refContract : SetContract refMethods refValid where
  and_valid := fun _ _ _ _ => rfl
  and_contains := fun a b v _ _ _ => Nat.testBit_and (refBits a) (refBits b) v
  iand_valid := fun _ _ _ _ => rfl
  iand_contains := fun a b v _ _ _ => Nat.testBit_and (refBits a) (refBits b) v
  lazyOR_valid := fun _ _ _ _ => rfl
  lazyOR_contains := fun a b v _ _ _ => Nat.testBit_or (refBits a) (refBits b) v
  lazyIOR_valid := fun _ _ _ _ => rfl
  lazyIOR_contains := fun a b v _ _ _ => Nat.testBit_or (refBits a) (refBits b) v
  computeCardinality_valid := fun _ _ => rfl
  computeCardinality_known := fun t _ => by
    show ((refPopCount t.bitmap t.bitmap : Nat) : Int) ≠ -1
    omega
  computeCardinality_contains := fun _ _ _ _ => rfl
  toArrayContainer_valid := fun _ _ _ => rfl
  toArrayContainer_contains := fun t v _ _ _ => testBit_refSetBits t.bitmap v
  bitmapIsFull_contains := fun t v _ _ hfull hv =>
    testBit_of_low_bits_full t.bitmap 65536 v (eq_of_beq hfull) hv
  arrayToBitmapContainer_valid := fun _ _ => rfl
  arrayToBitmapContainer_contains := fun _ _ _ _ => rfl
  runToBitmapContainer_valid := fun _ _ => rfl
  runToBitmapContainer_contains := fun _ _ _ _ => rfl
  newRunContainer16Range_valid := rfl
  newRunContainer16Range_contains := fun v hv => by
    show ((0 : Nat) ||| refBitsOfRun (0, MaxUint16)).testBit v = true
    rw [Nat.zero_or, testBit_refBitsOfRun]
    simp only [MaxUint16, Nat.zero_le, decide_True, Bool.true_and, Nat.sub_zero,
      decide_eq_true_eq]
    omega

theorem fifo_isScheduler : IsScheduler fifo := fun msgs => List.Perm.refl msgs

theorem lifo_isScheduler : IsScheduler lifo := fun msgs => List.reverse_perm msgs

/-! ### Claims C1 and C2 -/

theorem foldl_or_eq_any {α : Type} (p : α → Bool) :
    ∀ (l : List α) (acc : Bool), l.foldl (fun acc a => acc || p a) acc = (acc || l.any p) := by
  intro l
  induction l with
  | nil => intro acc; simp
  | cons a t ih => intro acc; rw [List.foldl_cons, ih, List.any_cons, Bool.or_assoc]

theorem foldl_and_eq_all {α : Type} (p : α → Bool) :
    ∀ (l : List α) (acc : Bool), l.foldl (fun acc a => acc && p a) acc = (acc && l.all p) := by
  intro l
  induction l with
  | nil => intro acc; simp
  | cons a t ih => intro acc; rw [List.foldl_cons, ih, List.all_cons, Bool.and_assoc]

theorem ParOr_nil (M : containerMethods) (sched : List appenderMsg → List appenderMsg)
    (hs : IsScheduler sched) : ParOr M sched [] = some New := by
  rw [@ParOr_eq (fun _ => true) M sched hs [] (fun b hb => by simp at hb)]
  rfl

theorem ParAnd_nil (M : containerMethods) (sched : List appenderMsg → List appenderMsg)
    (hs : IsScheduler sched) : ParAnd M sched [] = some New := by
  rw [ParAnd_eq M sched hs [] (fun b hb => by rw [batchesOf_nil] at hb; simp at hb)]
  rfl

theorem ParAnd_returns (M : containerMethods) (sched : List appenderMsg → List appenderMsg)
    (hs : IsScheduler sched) (bitmaps : List Bitmap) (hlen : bitmaps.length ≠ 1) :
    ∃ r, ParAnd M sched bitmaps = some r := by
  cases bitmaps with
  | nil => exact ⟨_, ParAnd_nil M sched hs⟩
  | cons a t =>
    refine ⟨_, ParAnd_eq M sched hs (a :: t) ?_⟩
    intro b hb
    have := (List.mem_filter.mp hb).2
    simp only [beq_iff_eq, List.length_cons] at this hlen
    omega

theorem Contains_congr (M : containerMethods) {r A : Bitmap}
    (hk : r.highlowcontainer.keys = A.highlowcontainer.keys)
    (hc : r.highlowcontainer.containers = A.highlowcontainer.containers) (x : Nat) :
    r.Contains M x = A.Contains M x := by
  unfold Bitmap.Contains roaringArray.getContainer
  rw [hk, hc]

/-- C1: for every finite list of well-formed bitmaps (the empty list and empty
bitmaps included), every scheduling of the messages, and container methods that
meet the set contract, `ParOr` returns a bitmap whose members are exactly the
integers held by some input, which is also what OR-ing the inputs one after
another gives. -/
theorem ParOr_membership_union (M : containerMethods) (valid : container → Bool)
    (hM : SetContract M valid) (sched : List appenderMsg → List appenderMsg)
    (hs : IsScheduler sched) (bitmaps : List Bitmap)
    (hwf : ∀ b ∈ bitmaps, b.WellFormed valid) :
    ∃ r, ParOr M sched bitmaps = some r ∧
      (∀ x, r.Contains M x = bitmaps.any (fun B => B.Contains M x)) ∧
      (∀ x, r.Contains M x = bitmaps.foldl (fun acc B => acc || B.Contains M x) false) := by
  obtain ⟨r, h1, h2⟩ := ParOr_union hM sched hs bitmaps hwf
  refine ⟨r, h1, h2, fun x => ?_⟩
  have h := foldl_or_eq_any (fun B => B.Contains M x) bitmaps false
  rw [Bool.false_or] at h
  rw [h2 x]
  exact h.symm

/-- Witness for C1: three inputs, one of them empty, two sharing a key, delivered
latest first. -/
theorem ParOr_membership_union_witness :
    SetContract refMethods refValid ∧ IsScheduler lifo ∧
    (∀ b ∈ [refBitmap [(0, [1, 2, 3]), (2, [7])], New, refBitmap [(0, [3, 4]), (1, [9])]],
      b.WellFormed refValid) ∧
    ∃ r, ParOr refMethods lifo
        [refBitmap [(0, [1, 2, 3]), (2, [7])], New, refBitmap [(0, [3, 4]), (1, [9])]] = some r ∧
      (∀ x, r.Contains refMethods x =
        [refBitmap [(0, [1, 2, 3]), (2, [7])], New, refBitmap [(0, [3, 4]), (1, [9])]].any
          (fun B => B.Contains refMethods x)) ∧
      (∀ x, r.Contains refMethods x =
        [refBitmap [(0, [1, 2, 3]), (2, [7])], New, refBitmap [(0, [3, 4]), (1, [9])]].foldl
          (fun acc B => acc || B.Contains refMethods x) false) :=
  ⟨refContract, lifo_isScheduler, by decide,
    ParOr_membership_union refMethods refValid refContract lifo lifo_isScheduler _ (by decide)⟩

/-- C2: for every list of two or more well-formed bitmaps, every scheduling of
the messages, and container methods that meet the set contract, `ParAnd` returns
a bitmap whose members are exactly the integers held by every input, which is
also what AND-ing the inputs one after another gives. -/
theorem ParAnd_membership_intersection (M : containerMethods) (valid : container → Bool)
    (hM : SetContract M valid) (sched : List appenderMsg → List appenderMsg)
    (hs : IsScheduler sched) (bitmaps : List Bitmap)
    (hwf : ∀ b ∈ bitmaps, b.WellFormed valid) (hlen : 2 ≤ bitmaps.length) :
    ∃ r, ParAnd M sched bitmaps = some r ∧
      (∀ x, r.Contains M x = bitmaps.all (fun B => B.Contains M x)) ∧
      (∀ x, r.Contains M x = bitmaps.foldl (fun acc B => acc && B.Contains M x) true) := by
  obtain ⟨r, h1, h2⟩ := ParAnd_inter hM sched hs bitmaps hwf hlen
  refine ⟨r, h1, h2, fun x => ?_⟩
  have h := foldl_and_eq_all (fun B => B.Contains M x) bitmaps true
  rw [Bool.true_and] at h
  rw [h2 x]
  exact h.symm

theorem Contains_refBitmap_single (l : List Nat) (x : Nat) :
    (refBitmap [(0, l)]).Contains refMethods x = (decide (x < 65536) && decide (x ∈ l)) := by
  unfold Bitmap.Contains roaringArray.getContainer refBitmap
  simp only [List.map_cons, List.map_nil, List.zip_cons_cons, List.zip_nil_right, List.find?_cons,
    List.find?_nil]
  by_cases hx : x < 65536
  · have h0 : x / 65536 = 0 := Nat.div_eq_of_lt hx
    have h1 : x % 65536 = x := Nat.mod_eq_of_lt hx
    rw [h0, h1]
    simp only [beq_self_eq_true, Option.map_some', hx, decide_True, Bool.true_and]
    exact testBit_refBitsOfList l x
  · have h0 : ¬ (0 = x / 65536) := by omega
    have hb : (0 == x / 65536) = false := beq_false_of_ne h0
    simp [hb, hx]

/-- Witness for C2: `A = {1,2,3}`, `B = {2,3,4}`, `C = {2,5}`; the intersection
has the single member `2`. -/
theorem ParAnd_membership_intersection_witness :
    SetContract refMethods refValid ∧ IsScheduler lifo ∧
    (∀ b ∈ [refBitmap [(0, [1, 2, 3])], refBitmap [(0, [2, 3, 4])], refBitmap [(0, [2, 5])]],
      b.WellFormed refValid) ∧
    ∃ r, ParAnd refMethods lifo
        [refBitmap [(0, [1, 2, 3])], refBitmap [(0, [2, 3, 4])], refBitmap [(0, [2, 5])]] =
          some r ∧
      ∀ x, r.Contains refMethods x = decide (x = 2) := by
  refine ⟨refContract, lifo_isScheduler, by decide, ?_⟩
  obtain ⟨r, h1, h2, _⟩ := ParAnd_membership_intersection refMethods refValid refContract lifo
    lifo_isScheduler
    [refBitmap [(0, [1, 2, 3])], refBitmap [(0, [2, 3, 4])], refBitmap [(0, [2, 5])]]
    (by decide) (by decide)
  refine ⟨r, h1, fun x => ?_⟩
  rw [h2 x]
  simp only [List.all_cons, List.all_nil, Bool.and_true, Contains_refBitmap_single]
  by_cases hx : x = 2
  · subst hx; decide
  · simp only [List.mem_cons, List.mem_singleton, List.not_mem_nil, or_false, hx, decide_False,
      false_or]
    by_cases h3 : x = 3
    · subst h3; decide
    · simp [h3]
      omega

/-! ### Claims C3 to C6 -/

/-- C3 fails on the code: for every well-formed non-empty bitmap `A` and every
scheduling, `ParAnd` of the single input `A` does not return. Its one batch per
key holds one container, which equals the input count, so the batch is queued
and the worker `andFunc` indexes `containers[1]` out of range. -/
theorem ParAnd_single_input_fails (M : containerMethods) (valid : container → Bool)
    (sched : List appenderMsg → List appenderMsg) (A : Bitmap) (hw : A.WellFormed valid)
    (hne : A.IsEmpty = false) :
    ParAnd M sched [A] = none ∧
    ∀ key c idx, ParAnd.andFunc M ⟨key, [c], idx⟩ = none :=
  ⟨ParAnd_single_none M sched A hw hne, fun _ _ _ => rfl⟩

/-- Witness for C3: the bitmap `{1}`. -/
theorem ParAnd_single_input_fails_witness :
    (refBitmap [(0, [1])]).WellFormed refValid ∧ (refBitmap [(0, [1])]).IsEmpty = false ∧
    ParAnd refMethods fifo [refBitmap [(0, [1])]] = none ∧
    ∀ key c idx, ParAnd.andFunc refMethods ⟨key, [c], idx⟩ = none :=
  ⟨by decide, by decide,
    ParAnd_single_input_fails refMethods refValid fifo (refBitmap [(0, [1])]) (by decide)
      (by decide)⟩

/-- C4: for every list of well-formed bitmaps, every permutation of it and every
two schedulings, `ParOr` returns bitmaps with the same members, and `ParAnd` ends
the same way on both with the same members; `ParAnd` returns on both whenever the
list does not have exactly one bitmap. -/
theorem Par_permutation_invariant (M : containerMethods) (valid : container → Bool)
    (hM : SetContract M valid) (s s' : List appenderMsg → List appenderMsg)
    (hs : IsScheduler s) (hs' : IsScheduler s') (bs bs' : List Bitmap)
    (hwf : ∀ b ∈ bs, b.WellFormed valid) (hperm : bs'.Perm bs) :
    (∃ r r', ParOr M s bs = some r ∧ ParOr M s' bs' = some r' ∧
      ∀ x, r.Contains M x = r'.Contains M x) ∧
    (∀ x, (ParAnd M s bs).map (fun r => r.Contains M x) =
      (ParAnd M s' bs').map (fun r => r.Contains M x)) ∧
    (bs.length ≠ 1 → ∃ r r', ParAnd M s bs = some r ∧ ParAnd M s' bs' = some r' ∧
      ∀ x, r.Contains M x = r'.Contains M x) := by
  have hwf' : ∀ b ∈ bs', b.WellFormed valid := fun b hb => hwf b (hperm.subset hb)
  have hand : ∀ x, (ParAnd M s bs).map (fun r => r.Contains M x) =
      (ParAnd M s' bs').map (fun r => r.Contains M x) := by
    intro x
    by_cases h2 : 2 ≤ bs.length
    · obtain ⟨r, a1, a2⟩ := ParAnd_inter hM s hs bs hwf h2
      obtain ⟨r', a1', a2'⟩ := ParAnd_inter hM s' hs' bs' hwf' (by rw [hperm.length_eq]; exact h2)
      rw [a1, a1', Option.map_some', Option.map_some', a2 x, a2' x]
      exact congrArg some (perm_all_eq _ hperm.symm)
    · have hsame : bs' = bs := by
        match bs, hperm with
        | [], hp => exact List.perm_nil.mp hp
        | [a], hp => exact List.perm_singleton.mp hp
        | _ :: _ :: _, _ => simp at h2
      rw [hsame, ParAnd_sched_irrelevant M s s' hs hs' bs]
  refine ⟨?_, hand, ?_⟩
  · obtain ⟨r, o1, o2⟩ := ParOr_union hM s hs bs hwf
    obtain ⟨r', o1', o2'⟩ := ParOr_union hM s' hs' bs' hwf'
    exact ⟨r, r', o1, o1', fun x => by rw [o2 x, o2' x]; exact perm_any_eq _ hperm.symm⟩
  · intro hlen
    obtain ⟨r, a1⟩ := ParAnd_returns M s hs bs hlen
    obtain ⟨r', a1'⟩ := ParAnd_returns M s' hs' bs' (by rw [hperm.length_eq]; exact hlen)
    refine ⟨r, r', a1, a1', fun x => ?_⟩
    have := hand x
    rw [a1, a1', Option.map_some', Option.map_some'] at this
    exact Option.some.inj this

/-- Witness for C4: three bitmaps and their reversal, under two schedulings. -/
theorem Par_permutation_invariant_witness :
    SetContract refMethods refValid ∧ IsScheduler fifo ∧ IsScheduler lifo ∧
    (∀ b ∈ [refBitmap [(0, [1, 2]), (5, [7])], refBitmap [(0, [2, 3])], refBitmap [(0, [2]), (5, [7, 8])]],
      b.WellFormed refValid) ∧
    [refBitmap [(0, [2]), (5, [7, 8])], refBitmap [(0, [2, 3])], refBitmap [(0, [1, 2]), (5, [7])]].Perm
      [refBitmap [(0, [1, 2]), (5, [7])], refBitmap [(0, [2, 3])], refBitmap [(0, [2]), (5, [7, 8])]] ∧
    ((∃ r r', ParOr refMethods fifo
        [refBitmap [(0, [1, 2]), (5, [7])], refBitmap [(0, [2, 3])], refBitmap [(0, [2]), (5, [7, 8])]]
          = some r ∧
      ParOr refMethods lifo
        [refBitmap [(0, [2]), (5, [7, 8])], refBitmap [(0, [2, 3])], refBitmap [(0, [1, 2]), (5, [7])]]
          = some r' ∧
      ∀ x, r.Contains refMethods x = r'.Contains refMethods x) ∧
    (∀ x, (ParAnd refMethods fifo
        [refBitmap [(0, [1, 2]), (5, [7])], refBitmap [(0, [2, 3])], refBitmap [(0, [2]), (5, [7, 8])]]).map
          (fun r => r.Contains refMethods x) =
      (ParAnd refMethods lifo
        [refBitmap [(0, [2]), (5, [7, 8])], refBitmap [(0, [2, 3])], refBitmap [(0, [1, 2]), (5, [7])]]).map
          (fun r => r.Contains refMethods x)) ∧
    ([refBitmap [(0, [1, 2]), (5, [7])], refBitmap [(0, [2, 3])],
        refBitmap [(0, [2]), (5, [7, 8])]].length ≠ 1 →
      ∃ r r', ParAnd refMethods fifo
        [refBitmap [(0, [1, 2]), (5, [7])], refBitmap [(0, [2, 3])], refBitmap [(0, [2]), (5, [7, 8])]]
          = some r ∧
      ParAnd refMethods lifo
        [refBitmap [(0, [2]), (5, [7, 8])], refBitmap [(0, [2, 3])], refBitmap [(0, [1, 2]), (5, [7])]]
          = some r' ∧
      ∀ x, r.Contains refMethods x = r'.Contains refMethods x)) :=
  ⟨refContract, fifo_isScheduler, lifo_isScheduler, by decide, by decide,
    Par_permutation_invariant refMethods refValid refContract fifo lifo fifo_isScheduler
      lifo_isScheduler _ _ (by decide) (by decide)⟩

/-- C5: for every list of well-formed bitmaps and every scheduling of the
messages, the registry of the bitmap `ParOr` returns has strictly ascending keys,
and so has the registry of every bitmap `ParAnd` returns; `ParAnd` returns
whenever the list does not have exactly one bitmap. -/
theorem Par_keys_strictly_ascending (M : containerMethods) (valid : container → Bool)
    (sched : List appenderMsg → List appenderMsg) (hs : IsScheduler sched)
    (bitmaps : List Bitmap) (hwf : ∀ b ∈ bitmaps, b.WellFormed valid) :
    (∃ r, ParOr M sched bitmaps = some r ∧
      r.highlowcontainer.keys.Pairwise (fun a b => a < b)) ∧
    (∀ r, ParAnd M sched bitmaps = some r →
      r.highlowcontainer.keys.Pairwise (fun a b => a < b)) ∧
    (bitmaps.length ≠ 1 → ∃ r, ParAnd M sched bitmaps = some r) := by
  obtain ⟨b1, _, _, _⟩ := batchesOf_spec bitmaps hwf
  refine ⟨⟨_, ParOr_eq M sched hs bitmaps hwf, b1⟩, ?_, ParAnd_returns M sched hs bitmaps⟩
  intro r hr
  rw [ParAnd_some_eq M sched hs bitmaps r hr]
  exact b1.sublist ((List.filter_sublist _).map _)

/-- Witness for C5: three bitmaps with interleaved keys, delivered latest first. -/
theorem Par_keys_strictly_ascending_witness :
    IsScheduler lifo ∧
    (∀ b ∈ [refBitmap [(3, [1]), (9, [2])], refBitmap [(0, [5]), (3, [6])], refBitmap [(3, [7]), (4, [8])]],
      b.WellFormed refValid) ∧
    ((∃ r, ParOr refMethods lifo
        [refBitmap [(3, [1]), (9, [2])], refBitmap [(0, [5]), (3, [6])], refBitmap [(3, [7]), (4, [8])]]
          = some r ∧
      r.highlowcontainer.keys.Pairwise (fun a b => a < b)) ∧
    (∀ r, ParAnd refMethods lifo
        [refBitmap [(3, [1]), (9, [2])], refBitmap [(0, [5]), (3, [6])], refBitmap [(3, [7]), (4, [8])]]
          = some r →
      r.highlowcontainer.keys.Pairwise (fun a b => a < b)) ∧
    ([refBitmap [(3, [1]), (9, [2])], refBitmap [(0, [5]), (3, [6])],
        refBitmap [(3, [7]), (4, [8])]].length ≠ 1 →
      ∃ r, ParAnd refMethods lifo
        [refBitmap [(3, [1]), (9, [2])], refBitmap [(0, [5]), (3, [6])], refBitmap [(3, [7]), (4, [8])]]
          = some r)) :=
  ⟨lifo_isScheduler, by decide,
    Par_keys_strictly_ascending refMethods refValid lifo lifo_isScheduler _ (by decide)⟩

/-- C6: for every list of results whose assembly indices are `0, ..., n-1` and
every order in which these results and the expected count `n` are received,
`appenderRoutine` ends when the last message has been received and not before,
and it delivers the registry of `n` entries whose entry `i` is the key and the
container of the result with index `i`, none flagged copy-on-write. -/
theorem appenderRoutine_deterministic (rs : List keyedContainer) (hI : Indexed rs)
    (msgs : List appenderMsg)
    (hperm : msgs.Perm (rs.map .result ++ [.expectedKeys (rs.length : Int)])) :
    appenderRoutine msgs =
      .delivered ⟨⟨rs.map (fun r => r.key), rs.map (fun r => r.container),
        List.replicate rs.length false, false, []⟩⟩ [] ∧
    ∀ k, k < msgs.length → appenderRoutine (msgs.take k) = .blocked := by
  refine ⟨?_, appenderRoutine_early_blocked rs hI msgs hperm⟩
  rw [appenderRoutine_spec rs hI msgs hperm]
  unfold assembled
  rw [List.map_const']

/-- Witness for C6: three results, received in the order 2, expected count, 0, 1. -/
theorem appenderRoutine_deterministic_witness :
    Indexed [⟨4, .array ⟨[1]⟩, 0⟩, ⟨6, .array ⟨[2]⟩, 1⟩, ⟨9, .array ⟨[3]⟩, 2⟩] ∧
    [appenderMsg.result ⟨9, .array ⟨[3]⟩, 2⟩, .expectedKeys 3, .result ⟨4, .array ⟨[1]⟩, 0⟩,
      .result ⟨6, .array ⟨[2]⟩, 1⟩].Perm
      (([⟨4, .array ⟨[1]⟩, 0⟩, ⟨6, .array ⟨[2]⟩, 1⟩, ⟨9, .array ⟨[3]⟩, 2⟩] :
        List keyedContainer).map .result ++ [.expectedKeys 3]) ∧
    (appenderRoutine [appenderMsg.result ⟨9, .array ⟨[3]⟩, 2⟩, .expectedKeys 3,
        .result ⟨4, .array ⟨[1]⟩, 0⟩, .result ⟨6, .array ⟨[2]⟩, 1⟩] =
      .delivered ⟨⟨[4, 6, 9], [.array ⟨[1]⟩, .array ⟨[2]⟩, .array ⟨[3]⟩],
        [false, false, false], false, []⟩⟩ [] ∧
    ∀ k, k < 4 → appenderRoutine (([appenderMsg.result ⟨9, .array ⟨[3]⟩, 2⟩, .expectedKeys 3,
        .result ⟨4, .array ⟨[1]⟩, 0⟩, .result ⟨6, .array ⟨[2]⟩, 1⟩]).take k) = .blocked) :=
  ⟨by decide, by decide,
    appenderRoutine_deterministic [⟨4, .array ⟨[1]⟩, 0⟩, ⟨6, .array ⟨[2]⟩, 1⟩, ⟨9, .array ⟨[3]⟩, 2⟩]
      (by decide) _ (by decide)⟩

/-! ### Claims C7 to C10 -/

theorem ParOr_dispatch_of_single {valid : container → Bool} (bitmaps : List Bitmap)
    (hwf : ∀ b ∈ bitmaps, b.WellFormed valid)
    (hone : ∀ k, (slotsAt bitmaps k).length ≤ 1) :
    ∀ d ∈ (ParOr.dispatch (newBitmapContainerHeap bitmaps).fuel
        (newBitmapContainerHeap bitmaps) 0).1, ∃ kx, d = .result kx :=
  ParOr_dispatch_direct _ _ 0 (batches_single bitmaps hwf hone)

/-- C7: `ParOr` of no input returns the empty bitmap, and for every well-formed
bitmap `A` and every scheduling, `ParOr` of the single input `A` sends no batch
to the workers and returns a bitmap with the keys of `A` and, under each key, the
very container of `A`, hence with the members of `A`. -/
theorem ParOr_identity (M : containerMethods) (valid : container → Bool)
    (sched : List appenderMsg → List appenderMsg) (hs : IsScheduler sched) :
    ParOr M sched [] = some New ∧
    ∀ A : Bitmap, A.WellFormed valid →
      (∀ d ∈ (ParOr.dispatch (newBitmapContainerHeap [A]).fuel (newBitmapContainerHeap [A]) 0).1,
        ∃ kx, d = .result kx) ∧
      ∃ r, ParOr M sched [A] = some r ∧
        r.highlowcontainer.keys = A.highlowcontainer.keys ∧
        r.highlowcontainer.containers = A.highlowcontainer.containers ∧
        ∀ x, r.Contains M x = A.Contains M x := by
  refine ⟨ParOr_nil M sched hs, fun A hw => ⟨?_, _, ParOr_single M sched hs A hw, rfl, rfl,
    fun x => Contains_congr M rfl rfl x⟩⟩
  apply @ParOr_dispatch_of_single valid [A]
  · intro b hb
    rw [List.mem_singleton.mp hb]; exact hw
  · exact slotsAt_single A

/-- Witness for C7: a bitmap with three keys, delivered latest first. -/
theorem ParOr_identity_witness :
    IsScheduler lifo ∧ (refBitmap [(1, [4]), (2, [5, 6]), (7, [0])]).WellFormed refValid ∧
    ParOr refMethods lifo [] = some New ∧
    ∃ r, ParOr refMethods lifo [refBitmap [(1, [4]), (2, [5, 6]), (7, [0])]] = some r ∧
      r.highlowcontainer.keys = [1, 2, 7] ∧
      r.highlowcontainer.containers = [.array ⟨[4]⟩, .array ⟨[5, 6]⟩, .array ⟨[0]⟩] ∧
      ∀ x, r.Contains refMethods x =
        (refBitmap [(1, [4]), (2, [5, 6]), (7, [0])]).Contains refMethods x :=
  ⟨lifo_isScheduler, by decide, (ParOr_identity refMethods refValid lifo lifo_isScheduler).1,
    ((ParOr_identity refMethods refValid lifo lifo_isScheduler).2
      (refBitmap [(1, [4]), (2, [5, 6]), (7, [0])]) (by decide)).2⟩

theorem slotsAt_short_of_isEmpty (bitmaps : List Bitmap) (E : Bitmap)
    (hE : E.IsEmpty = true) (hmem : E ∈ bitmaps) (k : Nat) :
    (slotsAt bitmaps k).length ≠ bitmaps.length := by
  induction bitmaps with
  | nil => simp at hmem
  | cons B t ih =>
    rw [slotsAt_cons, List.length_append, List.length_cons]
    have hle := slotsAt_length_le t k
    rcases List.mem_cons.mp hmem with rfl | hmem
    · rw [getContainer_of_isEmpty hE]
      simp only [Option.toList, List.length_nil]
      omega
    · have := ih hmem
      cases B.highlowcontainer.getContainer k <;> simp <;> omega

/-- C8: for every well-formed bitmap `A`, every well-formed empty bitmap `E` and
every scheduling, in both argument orders `ParOr` of `A` and `E` returns a bitmap
with the members of `A`, and `ParAnd` of `A` and `E` returns the bitmap without
containers, which has no member; when `A` is not empty the heap holds a single
entry although the input count is 2. -/
theorem Par_absorption_empty (M : containerMethods) (valid : container → Bool)
    (hM : SetContract M valid) (sched : List appenderMsg → List appenderMsg)
    (hs : IsScheduler sched) (A E : Bitmap) (hA : A.WellFormed valid)
    (hE : E.WellFormed valid) (hempty : E.IsEmpty = true) :
    (∃ r, ParOr M sched [A, E] = some r ∧ ∀ x, r.Contains M x = A.Contains M x) ∧
    (∃ r, ParOr M sched [E, A] = some r ∧ ∀ x, r.Contains M x = A.Contains M x) ∧
    ParAnd M sched [A, E] = some New ∧ ParAnd M sched [E, A] = some New ∧
    (∀ x, New.Contains M x = false) ∧
    (A.IsEmpty = false → (newBitmapContainerHeap [A, E]).Len = 1 ∧
      (newBitmapContainerHeap [E, A]).Len = 1) := by
  have hwf1 : ∀ b ∈ [A, E], b.WellFormed valid := by
    intro b hb
    rcases List.mem_cons.mp hb with rfl | hb
    · exact hA
    · rw [List.mem_singleton.mp hb]; exact hE
  have hwf2 : ∀ b ∈ [E, A], b.WellFormed valid := by
    intro b hb
    rcases List.mem_cons.mp hb with rfl | hb
    · exact hE
    · rw [List.mem_singleton.mp hb]; exact hA
  refine ⟨?_, ?_, ?_, ?_, fun x => rfl, ?_⟩
  · obtain ⟨r, h1, h2⟩ := ParOr_union hM sched hs [A, E] hwf1
    refine ⟨r, h1, fun x => ?_⟩
    rw [h2 x]
    simp [Contains_of_isEmpty M hempty]
  · obtain ⟨r, h1, h2⟩ := ParOr_union hM sched hs [E, A] hwf2
    refine ⟨r, h1, fun x => ?_⟩
    rw [h2 x]
    simp [Contains_of_isEmpty M hempty]
  · exact ParAnd_no_full M sched hs [A, E] hwf1
      (slotsAt_short_of_isEmpty [A, E] E hempty (by simp))
  · exact ParAnd_no_full M sched hs [E, A] hwf2
      (slotsAt_short_of_isEmpty [E, A] E hempty (by simp))
  · intro hne
    unfold bitmapContainerHeap.Len
    rw [newBitmapContainerHeap_length, newBitmapContainerHeap_length]
    simp [hne, hempty]

/-- Witness for C8: `A = {1, 65536 + 2}` and the empty bitmap `New()`. -/
theorem Par_absorption_empty_witness :
    SetContract refMethods refValid ∧ IsScheduler lifo ∧
    (refBitmap [(0, [1]), (1, [2])]).WellFormed refValid ∧ New.WellFormed refValid ∧
    New.IsEmpty = true ∧
    ((∃ r, ParOr refMethods lifo [refBitmap [(0, [1]), (1, [2])], New] = some r ∧
      ∀ x, r.Contains refMethods x = (refBitmap [(0, [1]), (1, [2])]).Contains refMethods x) ∧
    (∃ r, ParOr refMethods lifo [New, refBitmap [(0, [1]), (1, [2])]] = some r ∧
      ∀ x, r.Contains refMethods x = (refBitmap [(0, [1]), (1, [2])]).Contains refMethods x) ∧
    ParAnd refMethods lifo [refBitmap [(0, [1]), (1, [2])], New] = some New ∧
    ParAnd refMethods lifo [New, refBitmap [(0, [1]), (1, [2])]] = some New ∧
    (∀ x, New.Contains refMethods x = false) ∧
    ((refBitmap [(0, [1]), (1, [2])]).IsEmpty = false →
      (newBitmapContainerHeap [refBitmap [(0, [1]), (1, [2])], New]).Len = 1 ∧
      (newBitmapContainerHeap [New, refBitmap [(0, [1]), (1, [2])]]).Len = 1)) :=
  ⟨refContract, lifo_isScheduler, by decide, by decide, by decide,
    Par_absorption_empty refMethods refValid refContract lifo lifo_isScheduler
      (refBitmap [(0, [1]), (1, [2])]) New (by decide) (by decide) (by decide)⟩

/-- C9: for every two well-formed bitmaps `A` and `B` that share no key and every
scheduling, `ParOr` of `A` and `B` sends no batch to the workers and returns a
bitmap with `size(A) + size(B)` containers, in which the container under a key is
exactly the container that `A` or `B` holds under that key. -/
theorem ParOr_key_disjoint (M : containerMethods) (valid : container → Bool)
    (sched : List appenderMsg → List appenderMsg) (hs : IsScheduler sched) (A B : Bitmap)
    (hA : A.WellFormed valid) (hB : B.WellFormed valid)
    (hd : ∀ k ∈ A.highlowcontainer.keys, k ∉ B.highlowcontainer.keys) :
    (∀ d ∈ (ParOr.dispatch (newBitmapContainerHeap [A, B]).fuel
        (newBitmapContainerHeap [A, B]) 0).1, ∃ kx, d = .result kx) ∧
    ∃ r, ParOr M sched [A, B] = some r ∧
      r.highlowcontainer.size = A.highlowcontainer.size + B.highlowcontainer.size ∧
      r.highlowcontainer.containers.length =
        A.highlowcontainer.size + B.highlowcontainer.size ∧
      ∀ k c, r.highlowcontainer.getContainer k = some c ↔
        (A.highlowcontainer.getContainer k = some c ∨
          B.highlowcontainer.getContainer k = some c) := by
  have hwf : ∀ b ∈ [A, B], b.WellFormed valid := by
    intro b hb
    rcases List.mem_cons.mp hb with rfl | hb
    · exact hA
    · rw [List.mem_singleton.mp hb]; exact hB
  have hone := slotsAt_disjoint A B hd
  obtain ⟨p1, p2⟩ := ParOr_passThrough M [A, B] hwf hone
  refine ⟨ParOr_dispatch_of_single [A, B] hwf hone, _, ParOr_eq M sched hs [A, B] hwf, ?_, ?_, ?_⟩
  · have hl := p1.length_eq
    rw [entries_bitmapOf, List.length_map] at hl
    simp only [List.flatMap_cons, List.flatMap_nil, List.append_nil, List.length_append] at hl
    unfold Bitmap.entries at hl
    rw [zip_length_of_wf hA, zip_length_of_wf hB] at hl
    unfold roaringArray.size bitmapOf
    simp only [List.length_map]
    exact hl
  · have hl := p1.length_eq
    rw [entries_bitmapOf, List.length_map] at hl
    simp only [List.flatMap_cons, List.flatMap_nil, List.append_nil, List.length_append] at hl
    unfold Bitmap.entries at hl
    rw [zip_length_of_wf hA, zip_length_of_wf hB] at hl
    unfold roaringArray.size bitmapOf
    simp only [List.length_map]
    exact hl
  · intro k c
    have h1 := atKey_perm k p1
    rw [← getContainer_eq_atKey p2 k, atKey_inputs [A, B] hwf k, slotsAt_pair] at h1
    constructor
    · intro h
      have hm : c ∈ (A.highlowcontainer.getContainer k).toList ++
          (B.highlowcontainer.getContainer k).toList := h1.subset (by rw [h]; simp)
      rcases List.mem_append.mp hm with hm | hm
      · left; simpa using hm
      · right; simpa using hm
    · intro h
      have hm : c ∈ (A.highlowcontainer.getContainer k).toList ++
          (B.highlowcontainer.getContainer k).toList := by
        rcases h with h | h
        · exact List.mem_append_left _ (by rw [h]; simp)
        · exact List.mem_append_right _ (by rw [h]; simp)
      simpa using h1.symm.subset hm

/-- Witness for C9: keys `{0, 4}` against keys `{2, 9}`. -/
theorem ParOr_key_disjoint_witness :
    IsScheduler lifo ∧ (refBitmap [(0, [1]), (4, [2])]).WellFormed refValid ∧
    (refBitmap [(2, [3]), (9, [4, 5])]).WellFormed refValid ∧
    (∀ k ∈ (refBitmap [(0, [1]), (4, [2])]).highlowcontainer.keys,
      k ∉ (refBitmap [(2, [3]), (9, [4, 5])]).highlowcontainer.keys) ∧
    ((∀ d ∈ (ParOr.dispatch
        (newBitmapContainerHeap [refBitmap [(0, [1]), (4, [2])], refBitmap [(2, [3]), (9, [4, 5])]]).fuel
        (newBitmapContainerHeap [refBitmap [(0, [1]), (4, [2])], refBitmap [(2, [3]), (9, [4, 5])]])
        0).1, ∃ kx, d = .result kx) ∧
    ∃ r, ParOr refMethods lifo [refBitmap [(0, [1]), (4, [2])], refBitmap [(2, [3]), (9, [4, 5])]]
        = some r ∧
      r.highlowcontainer.size = (refBitmap [(0, [1]), (4, [2])]).highlowcontainer.size +
        (refBitmap [(2, [3]), (9, [4, 5])]).highlowcontainer.size ∧
      r.highlowcontainer.containers.length =
        (refBitmap [(0, [1]), (4, [2])]).highlowcontainer.size +
          (refBitmap [(2, [3]), (9, [4, 5])]).highlowcontainer.size ∧
      ∀ k c, r.highlowcontainer.getContainer k = some c ↔
        ((refBitmap [(0, [1]), (4, [2])]).highlowcontainer.getContainer k = some c ∨
          (refBitmap [(2, [3]), (9, [4, 5])]).highlowcontainer.getContainer k = some c)) :=
  ⟨lifo_isScheduler, by decide, by decide, by decide,
    ParOr_key_disjoint refMethods refValid lifo lifo_isScheduler _ _ (by decide) (by decide)
      (by decide)⟩

/-- C10 fails on the code: for every well-formed bitmap `A` and every
scheduling, the bitmap `ParOr` returns for the single input `A` holds the
containers of `A` and every copy-on-write flag of its registry is `false`:
`appenderRoutine` appends every entry with the flag `false`. -/
theorem ParOr_single_not_copy_on_write (M : containerMethods) (valid : container → Bool)
    (sched : List appenderMsg → List appenderMsg) (hs : IsScheduler sched) (A : Bitmap)
    (hw : A.WellFormed valid) :
    ∃ r, ParOr M sched [A] = some r ∧
      r.highlowcontainer.containers = A.highlowcontainer.containers ∧
      r.highlowcontainer.needCopyOnWrite = List.replicate A.highlowcontainer.size false ∧
      ∀ flag ∈ r.highlowcontainer.needCopyOnWrite, flag = false :=
  ⟨_, ParOr_single M sched hs A hw, rfl, rfl, fun _ hf => (List.mem_replicate.mp hf).2⟩

/-- Witness for C10: the bitmap `{1, 2, 3}`; its one registry entry comes back
with the flag `false`. -/
theorem ParOr_single_not_copy_on_write_witness :
    IsScheduler fifo ∧ (refBitmap [(0, [1, 2, 3])]).WellFormed refValid ∧
    ParOr refMethods fifo [refBitmap [(0, [1, 2, 3])]] =
      some ⟨⟨[0], [.array ⟨[1, 2, 3]⟩], [false], false, []⟩⟩ ∧
    ∃ r, ParOr refMethods fifo [refBitmap [(0, [1, 2, 3])]] = some r ∧
      r.highlowcontainer.containers = (refBitmap [(0, [1, 2, 3])]).highlowcontainer.containers ∧
      r.highlowcontainer.needCopyOnWrite =
        List.replicate (refBitmap [(0, [1, 2, 3])]).highlowcontainer.size false ∧
      ∀ flag ∈ r.highlowcontainer.needCopyOnWrite, flag = false :=
  ⟨fifo_isScheduler, by decide, by decide,
    ParOr_single_not_copy_on_write refMethods refValid fifo fifo_isScheduler
      (refBitmap [(0, [1, 2, 3])]) (by decide)⟩

/-! ### Reachable states of the merge heap -/

theorem heapAfter_spec {valid : container → Bool} :
    ∀ (n : Nat) (h : bitmapContainerHeap), HeapOK valid h →
      HeapOK valid (heapAfter n h) ∧
      (pendingAll h).Perm ((drain n h).flatMap batchPairs ++ pendingAll (heapAfter n h)) := by
  intro n
  induction n with
  | zero => intro h hh; exact ⟨hh, by simp [drain, heapAfter]⟩
  | succ n ih =>
    intro h hh
    rw [heapAfter]
    by_cases hpos : 0 < h.Len
    · rw [if_pos hpos, drain_succ_pos n h hpos]
      obtain ⟨s1, _, s3, _⟩ := PopNextContainers_spec hh hpos
      obtain ⟨i1, i2⟩ := ih h.PopNextContainers.2 s1
      refine ⟨i1, ?_⟩
      rw [List.flatMap_cons, List.append_assoc]
      exact s3.trans (List.Perm.append_left _ i2)
    · rw [if_neg hpos, drain_succ_neg n h hpos]
      exact ⟨hh, by simp⟩

theorem heapAfter_fuel {valid : container → Bool} :
    ∀ (n : Nat) (h : bitmapContainerHeap), HeapOK valid h → h.fuel ≤ n →
      (heapAfter n h).Len = 0 := by
  intro n
  induction n with
  | zero =>
    intro h _ hf
    cases h with
    | nil => rfl
    | cons e t =>
      have := fuel_pos_of_ne_nil (h := e :: t) (by simp)
      omega
  | succ n ih =>
    intro h hh hf
    rw [heapAfter]
    by_cases hpos : 0 < h.Len
    · rw [if_pos hpos]
      obtain ⟨s1, _, _, _, s5, _⟩ := PopNextContainers_spec hh hpos
      exact ih _ s1 (by omega)
    · rw [if_neg hpos]
      omega

theorem Len_zero_iff_pending {valid : container → Bool} {h : bitmapContainerHeap}
    (hh : HeapOK valid h) : h.Len = 0 ↔ pendingAll h = [] := by
  constructor
  · intro h0
    have : h = [] := List.length_eq_zero.mp h0
    subst this
    rfl
  · intro hp
    by_contra hne
    have hpos : 0 < h.length := Nat.pos_of_ne_zero hne
    have := Peek_mem_pending hh hpos
    rw [hp] at this
    simp at this

theorem pendingOf_length {valid : container → Bool} {e : bitmapContainerKey}
    (he : EntryOK valid e) :
    (pendingOf e).length = e.bitmap.highlowcontainer.size - e.idx := by
  unfold pendingOf
  rw [List.length_drop, zip_length_of_wf he.1]
  rfl

theorem pendingAll_length {valid : container → Bool} :
    ∀ (h : bitmapContainerHeap), (∀ e ∈ h, EntryOK valid e) →
      (pendingAll h).length = remaining h := by
  intro h
  induction h with
  | nil => intro _; rfl
  | cons e t ih =>
    intro hall
    unfold pendingAll remaining at *
    rw [List.flatMap_cons, List.length_append, List.map_cons, List.sum_cons,
      pendingOf_length (hall e (List.mem_cons_self _ _)),
      ih (fun x hx => hall x (List.mem_cons_of_mem _ hx))]

theorem PopIncrementing_remaining {valid : container → Bool} {h : bitmapContainerHeap}
    (hh : HeapOK valid h) (hpos : 0 < h.Len) :
    remaining h.PopIncrementing.2 + 1 = remaining h := by
  obtain ⟨_, s2, s3, _⟩ := PopIncrementing_spec hh hpos
  rw [← pendingAll_length h hh.2, ← pendingAll_length _ s2.2, s3.length_eq, List.length_cons]

theorem PopIncrementing_bitmaps {valid : container → Bool} {h : bitmapContainerHeap}
    (hh : HeapOK valid h) (hpos : 0 < h.length) :
    (h.PopIncrementing.2.map (fun e => e.bitmap)).Subperm (h.map (fun e => e.bitmap)) := by
  obtain ⟨e, t, rfl⟩ : ∃ e t, h = e :: t := by
    cases h with
    | nil => simp at hpos
    | cons e t => exact ⟨e, t, rfl⟩
  have hpeek : bitmapContainerHeap.Peek (e :: t) = e := rfl
  unfold bitmapContainerHeap.PopIncrementing
  rw [hpeek]
  by_cases hnext : e.idx + 1 < e.bitmap.highlowcontainer.size
  · rw [if_pos hnext]
    have f2 := (Fix_root_spec (e :: t)
      { bitmap := e.bitmap
        container := e.bitmap.highlowcontainer.getWritableContainerAtIndex (e.idx + 1)
        key := e.bitmap.highlowcontainer.keys.getD (e.idx + 1) 0
        idx := e.idx + 1 } hh.1).2
    exact (f2.map (fun e => e.bitmap)).subperm
  · rw [if_neg hnext]
    obtain ⟨_, _, p3⟩ := Pop_spec (e :: t) hh.1 hpos
    have hget : (e :: t).getD 0 default = e := rfl
    rw [hget] at p3
    have hgt : ((heap.Pop (e :: t)).2).Perm t := p3.cons_inv
    exact ((hgt.map (fun e => e.bitmap)).subperm).trans
      ((List.sublist_cons_self _ _).subperm)

theorem popSameKey_invariant (P : bitmapContainerHeap → Prop)
    (hstep : ∀ h, P h → 0 < h.Len → P h.PopIncrementing.2) (key : Nat) :
    ∀ (fuel : Nat) (h : bitmapContainerHeap) (cs : List container), P h →
      P (bitmapContainerHeap.popSameKey fuel key h cs).2 := by
  intro fuel
  induction fuel with
  | zero => intro h cs hp; exact hp
  | succ fuel ih =>
    intro h cs hp
    rw [bitmapContainerHeap.popSameKey]
    by_cases hcond : (decide (0 < h.Len) && key == h.Peek.key) = true
    · rw [if_pos hcond]
      simp only [Bool.and_eq_true, decide_eq_true_eq] at hcond
      exact ih _ _ (hstep h hp hcond.1)
    · rw [if_neg hcond]
      exact hp

theorem PopNextContainers_invariant (P : bitmapContainerHeap → Prop)
    (hstep : ∀ h, P h → 0 < h.Len → P h.PopIncrementing.2) (h : bitmapContainerHeap)
    (hp : P h) (hpos : 0 < h.Len) : P h.PopNextContainers.2 := by
  unfold bitmapContainerHeap.PopNextContainers
  have hne : ¬ (h.Len == 0) = true := by
    simp only [beq_iff_eq]; omega
  rw [if_neg hne]
  exact popSameKey_invariant P hstep _ _ _ _ (hstep h hp hpos)

theorem heapReachable_spec {valid : container → Bool} (bitmaps : List Bitmap)
    (hwf : ∀ b ∈ bitmaps, b.WellFormed valid) (h : bitmapContainerHeap)
    (hr : heapReachable bitmaps h) :
    HeapOK valid h ∧ (h.map (fun e => e.bitmap)).Subperm bitmaps := by
  have hstep : ∀ h : bitmapContainerHeap,
      (HeapOK valid h ∧ (h.map (fun e => e.bitmap)).Subperm bitmaps) → 0 < h.Len →
      (HeapOK valid h.PopIncrementing.2 ∧
        (h.PopIncrementing.2.map (fun e => e.bitmap)).Subperm bitmaps) := by
    intro h hp hpos
    exact ⟨(PopIncrementing_spec hp.1 hpos).2.1, (PopIncrementing_bitmaps hp.1 hpos).trans hp.2⟩
  induction hr with
  | init =>
    refine ⟨(newBitmapContainerHeap_spec bitmaps hwf).1, ?_⟩
    have hp := newBitmapContainerHeap_perm bitmaps
    have h1 := (hp.map (fun e => e.bitmap))
    rw [List.map_map] at h1
    have h2 : List.map ((fun e => e.bitmap) ∘ firstEntry)
        (bitmaps.filter (fun b => !b.IsEmpty)) = bitmaps.filter (fun b => !b.IsEmpty) :=
      (List.map_congr_left (fun b _ => rfl)).trans (List.map_id _)
    rw [h2] at h1
    exact h1.subperm.trans (List.filter_sublist _).subperm
  | popIncrementing h _ hpos ih => exact hstep h ih hpos
  | popNextContainers h _ hpos ih =>
    exact PopNextContainers_invariant
      (fun h => HeapOK valid h ∧ (h.map (fun e => e.bitmap)).Subperm bitmaps) hstep h ih hpos

/-! ### Claims C15 and C16 -/

theorem getContainer_isSome_iff {valid : container → Bool} {B : Bitmap}
    (hw : B.WellFormed valid) (k : Nat) :
    (B.highlowcontainer.getContainer k).isSome = decide (k ∈ B.highlowcontainer.keys) := by
  rw [Bool.eq_iff_iff, decide_eq_true_eq]
  constructor
  · intro h
    obtain ⟨c, hc⟩ := Option.isSome_iff_exists.mp h
    exact getContainer_key_mem hc
  · intro hk
    obtain ⟨i, hi, rfl⟩ := List.mem_iff_getElem.mp hk
    have hi2 : i < B.highlowcontainer.containers.length := by rw [hw.2.2.1]; exact hi
    have hmem : (B.highlowcontainer.keys[i], B.highlowcontainer.containers[i]) ∈
        B.highlowcontainer.keys.zip B.highlowcontainer.containers := by
      rw [List.mem_iff_getElem]
      exact ⟨i, by simp [hi, hi2], by simp⟩
    unfold roaringArray.getContainer
    cases hf : (B.highlowcontainer.keys.zip B.highlowcontainer.containers).find?
        (fun kc => kc.1 == B.highlowcontainer.keys[i]) with
    | none =>
      have := List.find?_eq_none.mp hf _ hmem
      simp at this
    | some p => rfl

theorem slotsAt_length_countP {valid : container → Bool} :
    ∀ (bitmaps : List Bitmap), (∀ b ∈ bitmaps, b.WellFormed valid) → ∀ k,
      (slotsAt bitmaps k).length =
        bitmaps.countP (fun B => decide (k ∈ B.highlowcontainer.keys)) := by
  intro bitmaps
  induction bitmaps with
  | nil => intro _ k; rfl
  | cons B t ih =>
    intro hwf k
    rw [slotsAt_cons, List.length_append, List.countP_cons,
      ih (fun b hb => hwf b (List.mem_cons_of_mem _ hb)) k,
      ← getContainer_isSome_iff (hwf B (List.mem_cons_self _ _)) k]
    cases B.highlowcontainer.getContainer k with
    | none => simp
    | some c => simp; omega

theorem slotsAt_ne_nil_of_mem {valid : container → Bool} (bitmaps : List Bitmap)
    (hwf : ∀ b ∈ bitmaps, b.WellFormed valid) {B : Bitmap} (hB : B ∈ bitmaps) {k : Nat}
    (hk : k ∈ B.highlowcontainer.keys) : slotsAt bitmaps k ≠ [] := by
  intro h
  have h1 := slotsAt_length_countP bitmaps hwf k
  rw [h, List.length_nil] at h1
  have h2 : 0 < bitmaps.countP (fun B => decide (k ∈ B.highlowcontainer.keys)) :=
    List.countP_pos_iff.mpr ⟨B, hB, by simpa using hk⟩
  omega

/-- C15: for every list of well-formed bitmaps, the batches obtained by calling
`PopNextContainers` on `newBitmapContainerHeap(bitmaps)` while `Len() > 0` have
strictly increasing keys and each holds at least one container; the sequence is
complete, the heap being empty after these rounds. -/
theorem heap_batches_increasing_nonempty (valid : container → Bool) (bitmaps : List Bitmap)
    (hwf : ∀ b ∈ bitmaps, b.WellFormed valid) :
    ((batchesOf bitmaps).map (fun b => b.key)).Pairwise (fun a b => a < b) ∧
    (∀ b ∈ batchesOf bitmaps, 1 ≤ b.containers.length) ∧
    (heapAfter (newBitmapContainerHeap bitmaps).fuel (newBitmapContainerHeap bitmaps)).Len = 0 := by
  obtain ⟨b1, b2, _, _⟩ := batchesOf_spec bitmaps hwf
  refine ⟨b1, ?_, heapAfter_fuel _ _ (newBitmapContainerHeap_spec bitmaps hwf).1 (Nat.le_refl _)⟩
  intro b hb
  have := b2 b hb
  cases hc : b.containers with
  | nil => exact absurd hc this
  | cons _ _ => simp

/-- Witness for C15: three bitmaps with keys 0, 3, 4 and 9, two of them shared. -/
theorem heap_batches_increasing_nonempty_witness :
    (∀ b ∈ [refBitmap [(3, [1]), (9, [2])], refBitmap [(0, [5]), (3, [6])], refBitmap [(3, [7]), (4, [8])]],
      b.WellFormed refValid) ∧
    (batchesOf [refBitmap [(3, [1]), (9, [2])], refBitmap [(0, [5]), (3, [6])],
      refBitmap [(3, [7]), (4, [8])]]).map (fun b => b.key) = [0, 3, 4, 9] ∧
    ((batchesOf [refBitmap [(3, [1]), (9, [2])], refBitmap [(0, [5]), (3, [6])],
      refBitmap [(3, [7]), (4, [8])]]).map (fun b => b.key)).Pairwise (fun a b => a < b) ∧
    (∀ b ∈ batchesOf [refBitmap [(3, [1]), (9, [2])], refBitmap [(0, [5]), (3, [6])],
      refBitmap [(3, [7]), (4, [8])]], 1 ≤ b.containers.length) ∧
    (heapAfter
      (newBitmapContainerHeap [refBitmap [(3, [1]), (9, [2])], refBitmap [(0, [5]), (3, [6])],
        refBitmap [(3, [7]), (4, [8])]]).fuel
      (newBitmapContainerHeap [refBitmap [(3, [1]), (9, [2])], refBitmap [(0, [5]), (3, [6])],
        refBitmap [(3, [7]), (4, [8])]])).Len = 0 :=
  ⟨by decide, by decide, heap_batches_increasing_nonempty refValid _ (by decide)⟩

/-- C16: for every list of well-formed bitmaps and every batch `b` of the full
merge, with `pre` the batches returned before it: the key of `b` is held by some
input and is the smallest key of the inputs not returned before, the containers
of `b` are, up to order, exactly the containers the inputs hold under this key,
one per input bitmap holding it, and the batch size is the number of input
bitmaps holding the key. -/
theorem heap_batch_complete_exact (valid : container → Bool) (bitmaps : List Bitmap)
    (hwf : ∀ b ∈ bitmaps, b.WellFormed valid) (pre post : List multipleContainers)
    (b : multipleContainers) (hsplit : batchesOf bitmaps = pre ++ b :: post) :
    (∃ B ∈ bitmaps, b.key ∈ B.highlowcontainer.keys) ∧
    (∀ p ∈ pre, p.key < b.key) ∧
    (∀ B ∈ bitmaps, ∀ k ∈ B.highlowcontainer.keys, (∀ p ∈ pre, p.key ≠ k) → b.key ≤ k) ∧
    b.containers.Perm (slotsAt bitmaps b.key) ∧
    b.containers.length =
      bitmaps.countP (fun B => decide (b.key ∈ B.highlowcontainer.keys)) := by
  obtain ⟨b1, b2, b3, b4⟩ := batchesOf_spec bitmaps hwf
  have hb : b ∈ batchesOf bitmaps := by rw [hsplit]; simp
  rw [hsplit, List.map_append, List.map_cons, List.pairwise_append, List.pairwise_cons] at b1
  obtain ⟨_, ⟨hpost, _⟩, hpre⟩ := b1
  have hlen : b.containers.length =
      bitmaps.countP (fun B => decide (b.key ∈ B.highlowcontainer.keys)) := by
    rw [(b3 b hb).length_eq, slotsAt_length_countP bitmaps hwf]
  refine ⟨?_, ?_, ?_, b3 b hb, hlen⟩
  · have hpos : 0 < bitmaps.countP (fun B => decide (b.key ∈ B.highlowcontainer.keys)) := by
      have := b2 b hb
      cases hc : b.containers with
      | nil => exact absurd hc this
      | cons _ _ => rw [← hlen, hc]; simp
    obtain ⟨B, hB, hk⟩ := List.countP_pos_iff.mp hpos
    exact ⟨B, hB, by simpa using hk⟩
  · intro p hp
    exact hpre p.key (List.mem_map_of_mem _ hp) b.key (List.mem_cons_self _ _)
  · intro B hB k hk hnot
    have hne := slotsAt_ne_nil_of_mem bitmaps hwf hB hk
    have hex : ∃ b' ∈ batchesOf bitmaps, b'.key = k := by
      by_contra hc
      exact hne (b4 k (fun b' hb' hk' => hc ⟨b', hb', hk'⟩))
    obtain ⟨b', hb', hk'⟩ := hex
    rw [hsplit] at hb'
    rcases List.mem_append.mp hb' with hin | hin
    · exact absurd hk' (hnot b' hin)
    · rcases List.mem_cons.mp hin with rfl | hin
      · omega
      · have := hpost b'.key (List.mem_map_of_mem _ hin)
        omega

/-- Witness for C16: the second batch of three bitmaps, key 3, held by all
three. -/
theorem heap_batch_complete_exact_witness :
    (∀ b ∈ [refBitmap [(3, [1]), (9, [2])], refBitmap [(0, [5]), (3, [6])], refBitmap [(3, [7]), (4, [8])]],
      b.WellFormed refValid) ∧
    batchesOf [refBitmap [(3, [1]), (9, [2])], refBitmap [(0, [5]), (3, [6])],
        refBitmap [(3, [7]), (4, [8])]] =
      [⟨0, [.array ⟨[5]⟩], -1⟩] ++
        (⟨3, [.array ⟨[6]⟩, .array ⟨[7]⟩, .array ⟨[1]⟩], -1⟩ : multipleContainers) ::
          [⟨4, [.array ⟨[8]⟩], -1⟩, ⟨9, [.array ⟨[2]⟩], -1⟩] ∧
    (([.array ⟨[6]⟩, .array ⟨[7]⟩, .array ⟨[1]⟩] : List container).Perm
      (slotsAt [refBitmap [(3, [1]), (9, [2])], refBitmap [(0, [5]), (3, [6])],
        refBitmap [(3, [7]), (4, [8])]] 3)) ∧
    ([.array ⟨[6]⟩, .array ⟨[7]⟩, .array ⟨[1]⟩] : List container).length =
      [refBitmap [(3, [1]), (9, [2])], refBitmap [(0, [5]), (3, [6])],
        refBitmap [(3, [7]), (4, [8])]].countP
          (fun B => decide (3 ∈ B.highlowcontainer.keys)) :=
  ⟨by decide, by decide,
    (heap_batch_complete_exact refValid
      [refBitmap [(3, [1]), (9, [2])], refBitmap [(0, [5]), (3, [6])], refBitmap [(3, [7]), (4, [8])]]
      (by decide) [⟨0, [.array ⟨[5]⟩], -1⟩]
      [⟨4, [.array ⟨[8]⟩], -1⟩, ⟨9, [.array ⟨[2]⟩], -1⟩]
      ⟨3, [.array ⟨[6]⟩, .array ⟨[7]⟩, .array ⟨[1]⟩], -1⟩ (by decide)).2.2.2⟩

/-! ### Claims C17 and C18 -/

theorem entries_total_length {valid : container → Bool} :
    ∀ (bitmaps : List Bitmap), (∀ b ∈ bitmaps, b.WellFormed valid) →
      (bitmaps.flatMap Bitmap.entries).length =
        (bitmaps.map (fun B => B.highlowcontainer.size)).sum := by
  intro bitmaps
  induction bitmaps with
  | nil => intro _; rfl
  | cons B t ih =>
    intro hwf
    rw [List.flatMap_cons, List.length_append, List.map_cons, List.sum_cons,
      ih (fun b hb => hwf b (List.mem_cons_of_mem _ hb))]
    unfold Bitmap.entries
    rw [zip_length_of_wf (hwf B (List.mem_cons_self _ _))]
    rfl

theorem batchPairs_total_length :
    ∀ (batches : List multipleContainers),
      (batches.flatMap batchPairs).length =
        (batches.map (fun b => b.containers.length)).sum := by
  intro batches
  induction batches with
  | nil => rfl
  | cons b t ih =>
    rw [List.flatMap_cons, List.length_append, List.map_cons, List.sum_cons, ih]
    unfold batchPairs
    rw [List.length_map]

/-- C17: for every list of well-formed bitmaps, every `PopIncrementing` on a
non-empty heap of the merge lowers the number of containers not yet returned,
the loop `for h.Len() > 0 { h.PopNextContainers() }` ends, after any number of
rounds `Len() == 0` holds exactly when the sizes of the batches returned so far
add up to the number of containers of the inputs, and the sizes of all batches
add up to that number. -/
theorem merge_terminates_walks_everything (valid : container → Bool) (bitmaps : List Bitmap)
    (hwf : ∀ b ∈ bitmaps, b.WellFormed valid) :
    (∀ h, heapReachable bitmaps h → 0 < h.Len →
      remaining h.PopIncrementing.2 < remaining h) ∧
    (heapAfter (newBitmapContainerHeap bitmaps).fuel (newBitmapContainerHeap bitmaps)).Len = 0 ∧
    (∀ n, (heapAfter n (newBitmapContainerHeap bitmaps)).Len = 0 ↔
      ((drain n (newBitmapContainerHeap bitmaps)).map (fun b => b.containers.length)).sum =
        (bitmaps.map (fun B => B.highlowcontainer.size)).sum) ∧
    ((batchesOf bitmaps).map (fun b => b.containers.length)).sum =
      (bitmaps.map (fun B => B.highlowcontainer.size)).sum := by
  obtain ⟨n1, n2⟩ := newBitmapContainerHeap_spec bitmaps hwf
  have hend := heapAfter_fuel _ _ n1 (Nat.le_refl (newBitmapContainerHeap bitmaps).fuel)
  have hiff : ∀ n, (heapAfter n (newBitmapContainerHeap bitmaps)).Len = 0 ↔
      ((drain n (newBitmapContainerHeap bitmaps)).map (fun b => b.containers.length)).sum =
        (bitmaps.map (fun B => B.highlowcontainer.size)).sum := by
    intro n
    obtain ⟨a1, a2⟩ := heapAfter_spec n (newBitmapContainerHeap bitmaps) n1
    have hl := (n2.symm.trans a2).length_eq
    rw [entries_total_length bitmaps hwf, List.length_append, batchPairs_total_length] at hl
    rw [Len_zero_iff_pending a1]
    constructor
    · intro hp
      rw [hp, List.length_nil] at hl
      omega
    · intro hs
      apply List.length_eq_zero.mp
      omega
  refine ⟨?_, hend, hiff, ?_⟩
  · intro h hr hpos
    have := PopIncrementing_remaining (heapReachable_spec bitmaps hwf h hr).1 hpos
    omega
  · exact (hiff _).mp hend

/-- Witness for C17: three bitmaps holding six containers in all. -/
theorem merge_terminates_walks_everything_witness :
    (∀ b ∈ [refBitmap [(3, [1]), (9, [2])], refBitmap [(0, [5]), (3, [6])], refBitmap [(3, [7]), (4, [8])]],
      b.WellFormed refValid) ∧
    ((batchesOf [refBitmap [(3, [1]), (9, [2])], refBitmap [(0, [5]), (3, [6])],
      refBitmap [(3, [7]), (4, [8])]]).map (fun b => b.containers.length)).sum = 6 ∧
    ((∀ h, heapReachable [refBitmap [(3, [1]), (9, [2])], refBitmap [(0, [5]), (3, [6])],
        refBitmap [(3, [7]), (4, [8])]] h → 0 < h.Len →
      remaining h.PopIncrementing.2 < remaining h) ∧
    (heapAfter
      (newBitmapContainerHeap [refBitmap [(3, [1]), (9, [2])], refBitmap [(0, [5]), (3, [6])],
        refBitmap [(3, [7]), (4, [8])]]).fuel
      (newBitmapContainerHeap [refBitmap [(3, [1]), (9, [2])], refBitmap [(0, [5]), (3, [6])],
        refBitmap [(3, [7]), (4, [8])]])).Len = 0 ∧
    (∀ n, (heapAfter n (newBitmapContainerHeap [refBitmap [(3, [1]), (9, [2])],
        refBitmap [(0, [5]), (3, [6])], refBitmap [(3, [7]), (4, [8])]])).Len = 0 ↔
      ((drain n (newBitmapContainerHeap [refBitmap [(3, [1]), (9, [2])],
        refBitmap [(0, [5]), (3, [6])], refBitmap [(3, [7]), (4, [8])]])).map
          (fun b => b.containers.length)).sum =
        ([refBitmap [(3, [1]), (9, [2])], refBitmap [(0, [5]), (3, [6])],
          refBitmap [(3, [7]), (4, [8])]].map (fun B => B.highlowcontainer.size)).sum) ∧
    ((batchesOf [refBitmap [(3, [1]), (9, [2])], refBitmap [(0, [5]), (3, [6])],
      refBitmap [(3, [7]), (4, [8])]]).map (fun b => b.containers.length)).sum =
      ([refBitmap [(3, [1]), (9, [2])], refBitmap [(0, [5]), (3, [6])],
        refBitmap [(3, [7]), (4, [8])]].map (fun B => B.highlowcontainer.size)).sum) :=
  ⟨by decide, by decide, merge_terminates_walks_everything refValid _ (by decide)⟩

/-- C18: for every list of well-formed bitmaps and every heap the merge can be
in (after `newBitmapContainerHeap` and after every `PopIncrementing` and
`PopNextContainers`), every entry has its cursor inside the registry of its
bitmap and carries the key and the container at the cursor, and the bitmaps of
the live entries can be matched one-to-one to positions of the input list. -/
theorem heap_entries_consistent (valid : container → Bool) (bitmaps : List Bitmap)
    (hwf : ∀ b ∈ bitmaps, b.WellFormed valid) (h : bitmapContainerHeap)
    (hr : heapReachable bitmaps h) :
    (∀ e ∈ h, e.idx < e.bitmap.highlowcontainer.size ∧
      e.key = e.bitmap.highlowcontainer.keys.getD e.idx 0 ∧
      e.container = e.bitmap.highlowcontainer.getWritableContainerAtIndex e.idx ∧
      e.bitmap ∈ bitmaps) ∧
    (h.map (fun e => e.bitmap)).Subperm bitmaps := by
  obtain ⟨h1, h2⟩ := heapReachable_spec bitmaps hwf h hr
  refine ⟨fun e he => ?_, h2⟩
  obtain ⟨_, i1, i2, i3⟩ := h1.2 e he
  exact ⟨i1, i2, i3, h2.subset (List.mem_map_of_mem _ he)⟩

/-- Witness for C18: the heap after the first batch of three bitmaps. -/
theorem heap_entries_consistent_witness :
    (∀ b ∈ [refBitmap [(3, [1]), (9, [2])], refBitmap [(0, [5]), (3, [6])], refBitmap [(3, [7]), (4, [8])]],
      b.WellFormed refValid) ∧
    heapReachable [refBitmap [(3, [1]), (9, [2])], refBitmap [(0, [5]), (3, [6])],
        refBitmap [(3, [7]), (4, [8])]]
      (newBitmapContainerHeap [refBitmap [(3, [1]), (9, [2])], refBitmap [(0, [5]), (3, [6])],
        refBitmap [(3, [7]), (4, [8])]]).PopNextContainers.2 ∧
    ((newBitmapContainerHeap [refBitmap [(3, [1]), (9, [2])], refBitmap [(0, [5]), (3, [6])],
        refBitmap [(3, [7]), (4, [8])]]).PopNextContainers.2.map (fun e => (e.key, e.idx)) =
      [(3, 1), (3, 0), (3, 0)]) ∧
    ((∀ e ∈ (newBitmapContainerHeap [refBitmap [(3, [1]), (9, [2])],
        refBitmap [(0, [5]), (3, [6])], refBitmap [(3, [7]), (4, [8])]]).PopNextContainers.2,
      e.idx < e.bitmap.highlowcontainer.size ∧
      e.key = e.bitmap.highlowcontainer.keys.getD e.idx 0 ∧
      e.container = e.bitmap.highlowcontainer.getWritableContainerAtIndex e.idx ∧
      e.bitmap ∈ [refBitmap [(3, [1]), (9, [2])], refBitmap [(0, [5]), (3, [6])],
        refBitmap [(3, [7]), (4, [8])]]) ∧
    ((newBitmapContainerHeap [refBitmap [(3, [1]), (9, [2])], refBitmap [(0, [5]), (3, [6])],
        refBitmap [(3, [7]), (4, [8])]]).PopNextContainers.2.map (fun e => e.bitmap)).Subperm
      [refBitmap [(3, [1]), (9, [2])], refBitmap [(0, [5]), (3, [6])],
        refBitmap [(3, [7]), (4, [8])]]) :=
  ⟨by decide, heapReachable.popNextContainers _ heapReachable.init (by decide), by decide,
    heap_entries_consistent refValid _ (by decide) _
      (heapReachable.popNextContainers _ heapReachable.init (by decide))⟩

/-! ### Claims C19 and C20 -/

/-- C19: `toBitmapContainer` is idempotent for every container methods; under the
set contract it keeps the members of a valid container; its result is a dense
container for every array container, every dense container (the container
itself) and every run container that is not full, and it is the container itself
for a full run container. -/
theorem toBitmapContainer_idempotent (M : containerMethods) (valid : container → Bool)
    (hM : SetContract M valid) (c : container) :
    toBitmapContainer M (toBitmapContainer M c) = toBitmapContainer M c ∧
    (valid c = true → ∀ v, v < 65536 →
      M.contains (toBitmapContainer M c) v = M.contains c v) ∧
    (∀ t, c = .array t → ∃ d, toBitmapContainer M c = .bitmap d) ∧
    (∀ t, c = .bitmap t → toBitmapContainer M c = .bitmap t) ∧
    (∀ t, c = .run t → M.runIsFull t = false → ∃ d, toBitmapContainer M c = .bitmap d) ∧
    (∀ t, c = .run t → M.runIsFull t = true → toBitmapContainer M c = c) := by
  refine ⟨?_, fun hv => (toBitmapContainer_spec hM c hv).2, ?_, ?_, ?_, ?_⟩
  · cases c with
    | array t => rfl
    | bitmap t => rfl
    | run t =>
      by_cases hf : M.runIsFull t = true
      · simp [toBitmapContainer, hf]
      · simp [toBitmapContainer, hf]
  · rintro t rfl
    exact ⟨_, rfl⟩
  · rintro t rfl
    rfl
  · rintro t rfl hf
    exact ⟨M.runToBitmapContainer t, by simp [toBitmapContainer, hf]⟩
  · rintro t rfl hf
    simp [toBitmapContainer, hf]

/-- Witness for C19: the array container `{3, 4, 5}` becomes the dense container
with the bits 3, 4 and 5. -/
theorem toBitmapContainer_idempotent_witness :
    SetContract refMethods refValid ∧
    toBitmapContainer refMethods (toBitmapContainer refMethods (.array ⟨[3, 4, 5]⟩)) =
      toBitmapContainer refMethods (.array ⟨[3, 4, 5]⟩) ∧
    toBitmapContainer refMethods (.array ⟨[3, 4, 5]⟩) = .bitmap ⟨3, 56⟩ ∧
    (refValid (.array ⟨[3, 4, 5]⟩) = true → ∀ v, v < 65536 →
      refMethods.contains (toBitmapContainer refMethods (.array ⟨[3, 4, 5]⟩)) v =
        refMethods.contains (.array ⟨[3, 4, 5]⟩) v) :=
  ⟨refContract,
    (toBitmapContainer_idempotent refMethods refValid refContract (.array ⟨[3, 4, 5]⟩)).1,
    by decide,
    (toBitmapContainer_idempotent refMethods refValid refContract (.array ⟨[3, 4, 5]⟩)).2.1⟩

theorem ParOr_dispatch_mem :
    ∀ (fuel : Nat) (h : bitmapContainerHeap) (idx : Int),
      ∀ d ∈ (ParOr.dispatch fuel h idx).1, ∃ b ∈ drain fuel h, ∃ i : Int,
        d = (if b.containers.length == 1 then
            dispatched.result ⟨b.key, b.containers.getD 0 default, i⟩
          else .input { b with idx := i }) := by
  intro fuel
  induction fuel with
  | zero => intro h idx d hd; simp [ParOr.dispatch] at hd
  | succ fuel ih =>
    intro h idx d hd
    rw [ParOr.dispatch] at hd
    by_cases hpos : 0 < h.Len
    · rw [drain_succ_pos fuel h hpos]
      rw [if_pos hpos] at hd
      simp only at hd
      rcases List.mem_cons.mp hd with rfl | hd
      · exact ⟨_, List.mem_cons_self _ _, idx, rfl⟩
      · obtain ⟨b, hb, i, hi⟩ := ih _ _ d hd
        exact ⟨b, List.mem_cons_of_mem _ hb, i, hi⟩
    · rw [if_neg hpos] at hd
      simp at hd

/-- C20: for every list of well-formed bitmaps, no batch of the merge is empty,
and every batch that `ParOr` places on the worker queue holds at least two
containers, so the worker `orFunc` does not fail on it. -/
theorem ParOr_worker_batches_large (M : containerMethods) (valid : container → Bool)
    (bitmaps : List Bitmap) (hwf : ∀ b ∈ bitmaps, b.WellFormed valid) :
    (∀ b ∈ batchesOf bitmaps, 1 ≤ b.containers.length) ∧
    ∀ d ∈ (ParOr.dispatch (newBitmapContainerHeap bitmaps).fuel
        (newBitmapContainerHeap bitmaps) 0).1,
      ∀ ck, d = .input ck → 2 ≤ ck.containers.length ∧ ∃ kx, ParOr.orFunc M ck = some kx := by
  obtain ⟨_, b2, _, _⟩ := batchesOf_spec bitmaps hwf
  have hpos : ∀ b ∈ batchesOf bitmaps, 1 ≤ b.containers.length := by
    intro b hb
    have := b2 b hb
    cases hc : b.containers with
    | nil => exact absurd hc this
    | cons _ _ => simp
  refine ⟨hpos, ?_⟩
  intro d hd ck hck
  obtain ⟨b, hb, i, hi⟩ := ParOr_dispatch_mem _ _ 0 d hd
  have h1 := hpos b hb
  by_cases hone : (b.containers.length == 1) = true
  · rw [if_pos hone, hck] at hi
    exact dispatched.noConfusion hi
  · rw [if_neg hone, hck] at hi
    have hck' : ck = { b with idx := i } := dispatched.input.inj hi
    have hlen : 2 ≤ b.containers.length := by
      simp only [beq_iff_eq] at hone
      omega
    rw [hck']
    refine ⟨hlen, ?_⟩
    unfold ParOr.orFunc
    match hc : b.containers, hlen with
    | c0 :: c1 :: rest, _ => exact ⟨_, rfl⟩

/-- Witness for C20: three bitmaps, two keys shared. -/
theorem ParOr_worker_batches_large_witness :
    (∀ b ∈ [refBitmap [(0, [1]), (3, [2])], refBitmap [(0, [5]), (3, [6])], refBitmap [(3, [7]), (4, [8])]],
      b.WellFormed refValid) ∧
    (∀ b ∈ batchesOf [refBitmap [(0, [1]), (3, [2])], refBitmap [(0, [5]), (3, [6])],
        refBitmap [(3, [7]), (4, [8])]], 1 ≤ b.containers.length) ∧
    ∀ d ∈ (ParOr.dispatch
        (newBitmapContainerHeap [refBitmap [(0, [1]), (3, [2])], refBitmap [(0, [5]), (3, [6])],
          refBitmap [(3, [7]), (4, [8])]]).fuel
        (newBitmapContainerHeap [refBitmap [(0, [1]), (3, [2])], refBitmap [(0, [5]), (3, [6])],
          refBitmap [(3, [7]), (4, [8])]]) 0).1,
      ∀ ck, d = .input ck →
        2 ≤ ck.containers.length ∧ ∃ kx, ParOr.orFunc refMethods ck = some kx :=
  ⟨by decide, ParOr_worker_batches_large refMethods refValid _ (by decide)⟩

/-! ### Claims C11 and C13 -/

theorem horizontalOr_step_spec (M : containerMethods) (answer : Bitmap)
    (item : multipleContainers) (hne : item.containers ≠ []) :
    horizontalOr.step M answer item =
      some ⟨answer.highlowcontainer.appendContainer item.key (seqOf M item.containers) false⟩ := by
  unfold horizontalOr.step
  obtain ⟨key, cs, idx⟩ := item
  simp only at hne ⊢
  match cs, hne with
  | c0 :: rest, _ =>
    have hl : ((c0 :: rest).length == 0) = false := by simp
    simp only [hl, Bool.false_eq_true, if_false, seqOf]

theorem horizontalOr_loop_spec (M : containerMethods) :
    ∀ (fuel : Nat) (h : bitmapContainerHeap) (answer : Bitmap),
      (∀ b ∈ drain fuel h, b.containers ≠ []) →
      horizontalOr.loop M fuel h answer =
        some ⟨⟨answer.highlowcontainer.keys ++ (drain fuel h).map (fun b => b.key),
          answer.highlowcontainer.containers ++
            (drain fuel h).map (fun b => seqOf M b.containers),
          answer.highlowcontainer.needCopyOnWrite ++ (drain fuel h).map (fun _ => false),
          answer.highlowcontainer.copyOnWrite, answer.highlowcontainer.conserz⟩⟩ := by
  intro fuel
  induction fuel with
  | zero => intro h answer _; simp [horizontalOr.loop, drain]
  | succ fuel ih =>
    intro h answer hne
    rw [horizontalOr.loop]
    by_cases hpos : 0 < h.Len
    · rw [drain_succ_pos fuel h hpos] at hne ⊢
      rw [if_pos hpos]
      simp only
      rw [horizontalOr_step_spec M answer _ (hne _ (List.mem_cons_self _ _))]
      simp only
      rw [ih _ _ (fun b hb => hne b (List.mem_cons_of_mem _ hb))]
      simp [roaringArray.appendContainer]
    · rw [drain_succ_neg fuel h hpos, if_neg hpos]
      simp

theorem horizontalOr_eq {valid : container → Bool} (M : containerMethods)
    (bitmaps : List Bitmap) (hwf : ∀ b ∈ bitmaps, b.WellFormed valid) :
    horizontalOr M bitmaps = some (bitmapOf (seqOf M) (batchesOf bitmaps)) := by
  obtain ⟨_, b2, _, _⟩ := batchesOf_spec bitmaps hwf
  unfold horizontalOr
  simp only
  rw [horizontalOr_loop_spec M _ _ New b2]
  rfl

theorem seqOf_spec {M : containerMethods} {valid : container → Bool}
    (hM : SetContract M valid) (cs : List container) (hne : cs ≠ [])
    (hall : ∀ c ∈ cs, valid c = true) :
    valid (seqOf M cs) = true ∧
    ∀ v, v < 65536 → M.contains (seqOf M cs) v = cs.any (fun c => M.contains c v) := by
  match cs, hne with
  | c0 :: rest, _ =>
    have h0 := hall c0 (List.mem_cons_self _ _)
    obtain ⟨t1, t2⟩ := toBitmapContainer_spec hM c0 h0
    obtain ⟨f1, f2⟩ := foldl_lazyIOR_spec hM rest _ t1
      (fun c hc => hall c (List.mem_cons_of_mem _ hc))
    obtain ⟨r1, r2⟩ := repairAfterLazy_spec hM _ f1
    refine ⟨r1, fun v hv => ?_⟩
    unfold seqOf
    rw [r2 v hv, f2 v hv, t2 v hv, List.any_cons]

theorem batch_valid {valid : container → Bool} (bitmaps : List Bitmap)
    (hwf : ∀ b ∈ bitmaps, b.WellFormed valid) :
    ∀ b ∈ batchesOf bitmaps, ∀ c ∈ b.containers, valid c = true := by
  obtain ⟨_, _, b3, _⟩ := batchesOf_spec bitmaps hwf
  intro b hb c hc
  exact slotsAt_valid bitmaps hwf _ c ((b3 b hb).subset hc)

/-- C11: for every list of well-formed bitmaps, every scheduling and container
methods that meet the set contract, `ParOr` and `horizontalOr` both return, the
two bitmaps have the same key sequence and, position by position, containers
with the same members, hence the same members overall. -/
theorem ParOr_matches_horizontalOr (M : containerMethods) (valid : container → Bool)
    (hM : SetContract M valid) (sched : List appenderMsg → List appenderMsg)
    (hs : IsScheduler sched) (bitmaps : List Bitmap)
    (hwf : ∀ b ∈ bitmaps, b.WellFormed valid) :
    ∃ r r', ParOr M sched bitmaps = some r ∧ horizontalOr M bitmaps = some r' ∧
      r.highlowcontainer.keys = r'.highlowcontainer.keys ∧
      r.highlowcontainer.containers.length = r'.highlowcontainer.containers.length ∧
      (∀ (i : Nat) (c c' : container), r.highlowcontainer.containers[i]? = some c →
        r'.highlowcontainer.containers[i]? = some c' →
        ∀ v, v < 65536 → M.contains c v = M.contains c' v) ∧
      ∀ x, r.Contains M x = r'.Contains M x := by
  obtain ⟨_, b2, _, _⟩ := batchesOf_spec bitmaps hwf
  have hv := batch_valid bitmaps hwf
  have hsame : ∀ b ∈ batchesOf bitmaps, ∀ v, v < 65536 →
      M.contains (unionOf M b.containers) v = M.contains (seqOf M b.containers) v := by
    intro b hb v hlt
    rw [(unionOf_spec hM b.containers (b2 b hb) (hv b hb)).2 v hlt,
      (seqOf_spec hM b.containers (b2 b hb) (hv b hb)).2 v hlt]
  refine ⟨_, _, ParOr_eq M sched hs bitmaps hwf, horizontalOr_eq M bitmaps hwf, rfl, ?_, ?_, ?_⟩
  · simp [bitmapOf]
  · intro i c c' hc hc' v hlt
    simp only [bitmapOf, List.getElem?_map] at hc hc'
    cases hb : (batchesOf bitmaps)[i]? with
    | none => rw [hb] at hc; simp at hc
    | some b =>
      rw [hb] at hc hc'
      simp only [Option.map_some', Option.some.injEq] at hc hc'
      rw [← hc, ← hc']
      exact hsame b (List.mem_iff_getElem?.mpr ⟨i, hb⟩) v hlt
  · intro x
    unfold Bitmap.Contains
    rw [getContainer_bitmapOf, getContainer_bitmapOf]
    cases hf : (batchesOf bitmaps).find? (fun b => b.key == x / 65536) with
    | none => rfl
    | some b =>
      simp only [Option.map_some']
      exact hsame b (List.mem_of_find?_eq_some hf) _ (Nat.mod_lt _ (by decide))

/-- Witness for C11: three bitmaps, one key held by all of them. -/
theorem ParOr_matches_horizontalOr_witness :
    SetContract refMethods refValid ∧ IsScheduler lifo ∧
    (∀ b ∈ [refBitmap [(3, [1]), (9, [2])], refBitmap [(0, [5]), (3, [6])], refBitmap [(3, [7]), (4, [8])]],
      b.WellFormed refValid) ∧
    ∃ r r', ParOr refMethods lifo
        [refBitmap [(3, [1]), (9, [2])], refBitmap [(0, [5]), (3, [6])], refBitmap [(3, [7]), (4, [8])]]
          = some r ∧
      horizontalOr refMethods
        [refBitmap [(3, [1]), (9, [2])], refBitmap [(0, [5]), (3, [6])], refBitmap [(3, [7]), (4, [8])]]
          = some r' ∧
      r.highlowcontainer.keys = r'.highlowcontainer.keys ∧
      r.highlowcontainer.containers.length = r'.highlowcontainer.containers.length ∧
      (∀ (i : Nat) (c c' : container), r.highlowcontainer.containers[i]? = some c →
        r'.highlowcontainer.containers[i]? = some c' →
        ∀ v, v < 65536 → refMethods.contains c v = refMethods.contains c' v) ∧
      ∀ x, r.Contains refMethods x = r'.Contains refMethods x :=
  ⟨refContract, lifo_isScheduler, by decide,
    ParOr_matches_horizontalOr refMethods refValid refContract lifo lifo_isScheduler _
      (by decide)⟩

theorem batchesOf_single {valid : container → Bool} (M : containerMethods) (A : Bitmap)
    (hw : A.WellFormed valid) :
    (batchesOf [A]).map (fun b => b.key) = A.highlowcontainer.keys ∧
    (batchesOf [A]).map (fun b => seqOf M b.containers) =
      A.highlowcontainer.containers.map (fun c => repairAfterLazy M (toBitmapContainer M c)) := by
  have hwf : ∀ b ∈ [A], b.WellFormed valid := by
    intro b hb
    rw [List.mem_singleton.mp hb]; exact hw
  obtain ⟨p1, p2⟩ := ParOr_passThrough M [A] hwf (slotsAt_single A)
  have hA : [A].flatMap Bitmap.entries = A.entries := by simp
  rw [hA] at p1
  have he := eq_of_perm_of_keys_sorted p1 p2 (by rw [keys_of_entries hw]; exact hw.1)
  rw [entries_bitmapOf] at he
  have hsingle := batches_single [A] hwf (slotsAt_single A)
  constructor
  · have := congrArg (List.map (fun p : Nat × container => p.1)) he
    rw [List.map_map, keys_of_entries hw] at this
    exact this
  · have h1 : (batchesOf [A]).map (fun b => seqOf M b.containers) =
        (batchesOf [A]).map (fun b =>
          repairAfterLazy M (toBitmapContainer M (unionOf M b.containers))) := by
      apply List.map_congr_left
      intro b hb
      obtain ⟨c, hc⟩ := hsingle b hb
      rw [hc]
      rfl
    have h2 := congrArg (List.map (fun p : Nat × container =>
      repairAfterLazy M (toBitmapContainer M p.2))) he
    rw [List.map_map] at h2
    have h3 : List.map (fun p : Nat × container => repairAfterLazy M (toBitmapContainer M p.2))
        A.entries =
        A.highlowcontainer.containers.map (fun c => repairAfterLazy M (toBitmapContainer M c)) := by
      have h4 : List.map (fun p : Nat × container => p.2) A.entries =
          A.highlowcontainer.containers := by
        unfold Bitmap.entries
        rw [List.map_snd_zip]
        rw [hw.2.2.1]
      rw [← h4, List.map_map]
      rfl
    rw [h1, ← h3, ← h2]
    rfl

theorem horizontalOr_single_input (M : containerMethods) (valid : container → Bool)
    (A : Bitmap) (hw : A.WellFormed valid) :
    horizontalOr M [A] = some ⟨⟨A.highlowcontainer.keys,
      A.highlowcontainer.containers.map (fun c => repairAfterLazy M (toBitmapContainer M c)),
      List.replicate A.highlowcontainer.size false, false, []⟩⟩ := by
  have hwf : ∀ b ∈ [A], b.WellFormed valid := by
    intro b hb
    rw [List.mem_singleton.mp hb]; exact hw
  obtain ⟨k1, k2⟩ := batchesOf_single M A hw
  rw [horizontalOr_eq M [A] hwf]
  unfold bitmapOf
  rw [k1, k2]
  congr 3
  have hl : (batchesOf [A]).length = A.highlowcontainer.size := by
    unfold roaringArray.size
    rw [← k1, List.length_map]
  rw [← hl]
  exact List.map_const' _ _

/-- C13 fails on the code: for every list of well-formed bitmaps `horizontalOr`
returns a bitmap in which, under every key `k` held by exactly one input, with
container `c`, the container is `repairAfterLazy (toBitmapContainer c)` and not
`c`: the test `len(item.containers) == 0` never selects the pass-through branch,
so the container is converted to the dense representation and repaired. Every
copy-on-write flag of the output is `false`. -/
theorem horizontalOr_single_converts (M : containerMethods) (valid : container → Bool)
    (bitmaps : List Bitmap) (hwf : ∀ b ∈ bitmaps, b.WellFormed valid) :
    ∃ r, horizontalOr M bitmaps = some r ∧
      (∀ k c, slotsAt bitmaps k = [c] →
        r.highlowcontainer.getContainer k = some (repairAfterLazy M (toBitmapContainer M c))) ∧
      ∀ f ∈ r.highlowcontainer.needCopyOnWrite, f = false := by
  obtain ⟨_, _, b3, b4⟩ := batchesOf_spec bitmaps hwf
  refine ⟨_, horizontalOr_eq M bitmaps hwf, ?_, ?_⟩
  · intro k c hk
    rw [getContainer_bitmapOf]
    cases hf : (batchesOf bitmaps).find? (fun b => b.key == k) with
    | none =>
      have hno : ∀ b ∈ batchesOf bitmaps, b.key ≠ k := by
        intro b hb hbk
        have := List.find?_eq_none.mp hf b hb
        simp [hbk] at this
      rw [b4 k hno] at hk
      exact absurd hk (by simp)
    | some b =>
      have hb := List.mem_of_find?_eq_some hf
      have hbk : b.key = k := by
        have := List.find?_some hf
        simpa using this
      have hp := b3 b hb
      rw [hbk, hk] at hp
      simp only [Option.map_some', Option.some.injEq]
      rw [List.perm_singleton.mp hp]
      rfl
  · intro f hf
    simp only [bitmapOf, List.mem_map] at hf
    obtain ⟨_, _, rfl⟩ := hf
    rfl

/-- Witness for C13: the bitmap `{0, 1, 2}` held as one run container comes back
as an array container. -/
theorem horizontalOr_single_converts_witness :
    (∀ b ∈ [refRunBitmap [(0, [(0, 2)])]], b.WellFormed refValid) ∧
    slotsAt [refRunBitmap [(0, [(0, 2)])]] 0 = [.run ⟨[(0, 2)]⟩] ∧
    horizontalOr refMethods [refRunBitmap [(0, [(0, 2)])]] =
      some ⟨⟨[0], [.array ⟨[0, 1, 2]⟩], [false], false, []⟩⟩ ∧
    ∃ r, horizontalOr refMethods [refRunBitmap [(0, [(0, 2)])]] = some r ∧
      (∀ k c, slotsAt [refRunBitmap [(0, [(0, 2)])]] k = [c] →
        r.highlowcontainer.getContainer k =
          some (repairAfterLazy refMethods (toBitmapContainer refMethods c))) ∧
      ∀ f ∈ r.highlowcontainer.needCopyOnWrite, f = false :=
  ⟨by decide, by decide, by decide!,
    horizontalOr_single_converts refMethods refValid [refRunBitmap [(0, [(0, 2)])]] (by decide)⟩

/-! ### Claim C12 -/

theorem ParAnd_dispatch_eq (bitmapCount : Nat) :
    ∀ (fuel : Nat) (h : bitmapContainerHeap) (idx : Int),
      ParAnd.dispatch bitmapCount fuel h idx =
        (inputsFrom idx ((drain fuel h).filter (fun b => b.containers.length == bitmapCount)),
          idx + ((((drain fuel h).filter
            (fun b => b.containers.length == bitmapCount)).length : Nat) : Int)) := by
  intro fuel
  induction fuel with
  | zero => intro h idx; simp [ParAnd.dispatch, drain, inputsFrom]
  | succ fuel ih =>
    intro h idx
    rw [ParAnd.dispatch]
    by_cases hpos : 0 < h.Len
    · rw [drain_succ_pos fuel h hpos, if_pos hpos]
      simp only
      by_cases hN : (h.PopNextContainers.1.containers.length == bitmapCount) = true
      · rw [List.filter_cons, if_pos hN, if_pos hN, ih]
        simp only [inputsFrom, List.length_cons, Nat.cast_add, Nat.cast_one]
        congr 1
        omega
      · rw [List.filter_cons, if_neg hN, if_neg hN, ih]
    · rw [drain_succ_neg fuel h hpos, if_neg hpos]
      simp [inputsFrom]

theorem inputsFrom_length : ∀ (bs : List multipleContainers) (idx : Int),
    (inputsFrom idx bs).length = bs.length := by
  intro bs
  induction bs with
  | nil => intro idx; rfl
  | cons b t ih => intro idx; simp [inputsFrom, ih]

theorem inputsFrom_getElem? : ∀ (bs : List multipleContainers) (idx : Int) (i : Nat)
    (b : multipleContainers), bs[i]? = some b →
    (inputsFrom idx bs)[i]? = some (.input { b with idx := idx + (i : Int) }) := by
  intro bs
  induction bs with
  | nil => intro idx i b h; simp at h
  | cons a t ih =>
    intro idx i b h
    cases i with
    | zero =>
      simp only [List.getElem?_cons_zero, Option.some.injEq] at h
      simp [inputsFrom, h]
    | succ j =>
      simp only [List.getElem?_cons_succ] at h
      simp only [inputsFrom, List.getElem?_cons_succ]
      rw [ih (idx + 1) j b h]
      simp only [Nat.cast_add, Nat.cast_one]
      congr 3
      omega

theorem common_key_iff {valid : container → Bool} (bitmaps : List Bitmap)
    (hwf : ∀ b ∈ bitmaps, b.WellFormed valid) (hlen : 2 ≤ bitmaps.length) (k : Nat) :
    k ∈ ((batchesOf bitmaps).filter
        (fun b => b.containers.length == bitmaps.length)).map (fun b => b.key) ↔
      ∀ B ∈ bitmaps, k ∈ B.highlowcontainer.keys := by
  obtain ⟨_, _, b3, b4⟩ := batchesOf_spec bitmaps hwf
  have hcount : (slotsAt bitmaps k).length = bitmaps.length ↔
      ∀ B ∈ bitmaps, k ∈ B.highlowcontainer.keys := by
    rw [slotsAt_length_countP bitmaps hwf k, List.countP_eq_length]
    simp
  constructor
  · intro hk
    obtain ⟨b, hb, rfl⟩ := List.mem_map.mp hk
    obtain ⟨hb1, hb2⟩ := List.mem_filter.mp hb
    simp only [beq_iff_eq] at hb2
    rw [← hcount, ← (b3 b hb1).length_eq]
    exact hb2
  · intro hall
    have hl := hcount.mpr hall
    by_cases hex : ∃ b ∈ batchesOf bitmaps, b.key = k
    · obtain ⟨b, hb, rfl⟩ := hex
      refine List.mem_map.mpr ⟨b, List.mem_filter.mpr ⟨hb, ?_⟩, rfl⟩
      simp only [beq_iff_eq]
      rw [(b3 b hb).length_eq]
      exact hl
    · have hnil := b4 k (fun b hb hk => hex ⟨b, hb, hk⟩)
      rw [hnil] at hl
      simp only [List.length_nil] at hl
      omega

/-- C12: for every list of `N ≥ 2` well-formed bitmaps `ParAnd` returns a bitmap
whose keys are strictly ascending and are exactly the keys present in every
input; the coordinating loop sends one batch per such key and nothing else, the
batch of the key of rank `i` carries assembly index `i` and `N` containers, and
the expected count it sends is the number of those keys. -/
theorem ParAnd_keys_common (M : containerMethods) (valid : container → Bool)
    (sched : List appenderMsg → List appenderMsg) (hs : IsScheduler sched)
    (bitmaps : List Bitmap) (hwf : ∀ b ∈ bitmaps, b.WellFormed valid)
    (hlen : 2 ≤ bitmaps.length) :
    ∃ r, ParAnd M sched bitmaps = some r ∧
      r.highlowcontainer.keys.Pairwise (fun a b => a < b) ∧
      (∀ k, k ∈ r.highlowcontainer.keys ↔ ∀ B ∈ bitmaps, k ∈ B.highlowcontainer.keys) ∧
      (ParAnd.dispatch bitmaps.length (newBitmapContainerHeap bitmaps).fuel
        (newBitmapContainerHeap bitmaps) 0).1.length = r.highlowcontainer.keys.length ∧
      (∀ (i : Nat) (k : Nat), r.highlowcontainer.keys[i]? = some k →
        ∃ ck, (ParAnd.dispatch bitmaps.length (newBitmapContainerHeap bitmaps).fuel
            (newBitmapContainerHeap bitmaps) 0).1[i]? = some (.input ck) ∧
          ck.key = k ∧ ck.idx = (i : Int) ∧ ck.containers.length = bitmaps.length) ∧
      (ParAnd.dispatch bitmaps.length (newBitmapContainerHeap bitmaps).fuel
        (newBitmapContainerHeap bitmaps) 0).2 = (r.highlowcontainer.keys.length : Int) := by
  have h2 : ∀ b ∈ (batchesOf bitmaps).filter (fun b => b.containers.length == bitmaps.length),
      2 ≤ b.containers.length := by
    intro b hb
    have := (List.mem_filter.mp hb).2
    simp only [beq_iff_eq] at this
    omega
  obtain ⟨b1, _, _, _⟩ := batchesOf_spec bitmaps hwf
  have hd := ParAnd_dispatch_eq bitmaps.length (newBitmapContainerHeap bitmaps).fuel
    (newBitmapContainerHeap bitmaps) 0
  have hkeys : (bitmapOf (interOf M) ((batchesOf bitmaps).filter
      (fun b => b.containers.length == bitmaps.length))).highlowcontainer.keys =
      ((batchesOf bitmaps).filter
        (fun b => b.containers.length == bitmaps.length)).map (fun b => b.key) := rfl
  refine ⟨_, ParAnd_eq M sched hs bitmaps h2, ?_, ?_, ?_, ?_, ?_⟩
  · rw [hkeys]
    exact List.Pairwise.sublist ((List.filter_sublist _).map _) b1
  · intro k
    rw [hkeys]
    exact common_key_iff bitmaps hwf hlen k
  · rw [hd, hkeys]
    simp only [inputsFrom_length, List.length_map]
    rfl
  · intro i k hk
    rw [hkeys, List.getElem?_map] at hk
    cases hb : ((batchesOf bitmaps).filter
        (fun b => b.containers.length == bitmaps.length))[i]? with
    | none => rw [hb] at hk; simp at hk
    | some b =>
      rw [hb] at hk
      simp only [Option.map_some', Option.some.injEq] at hk
      have hmem := List.mem_iff_getElem?.mpr ⟨i, hb⟩
      have hN := (List.mem_filter.mp hmem).2
      simp only [beq_iff_eq] at hN
      refine ⟨{ b with idx := 0 + (i : Int) }, ?_, hk, by simp, hN⟩
      rw [hd]
      exact inputsFrom_getElem? _ 0 i b hb
  · rw [hd, hkeys]
    simp only [List.length_map, zero_add]
    rfl

/-- Witness for C12: keys 0 and 7 are common, 3 and 4 are not; the containers
under key 0 have no common member and the key is kept. -/
theorem ParAnd_keys_common_witness :
    IsScheduler lifo ∧
    (∀ b ∈ [refBitmap [(0, [1]), (3, [4]), (7, [5])], refBitmap [(0, [2]), (4, [9]), (7, [5, 6])]],
      b.WellFormed refValid) ∧
    (ParAnd refMethods lifo
      [refBitmap [(0, [1]), (3, [4]), (7, [5])], refBitmap [(0, [2]), (4, [9]), (7, [5, 6])]]).map
        (fun r => (r.highlowcontainer.keys, (List.range 16).filter (fun v => r.Contains refMethods v)))
      = some ([0, 7], []) ∧
    ∃ r, ParAnd refMethods lifo
        [refBitmap [(0, [1]), (3, [4]), (7, [5])], refBitmap [(0, [2]), (4, [9]), (7, [5, 6])]]
          = some r ∧
      r.highlowcontainer.keys.Pairwise (fun a b => a < b) ∧
      (∀ k, k ∈ r.highlowcontainer.keys ↔
        ∀ B ∈ [refBitmap [(0, [1]), (3, [4]), (7, [5])], refBitmap [(0, [2]), (4, [9]), (7, [5, 6])]],
          k ∈ B.highlowcontainer.keys) ∧
      (ParAnd.dispatch
        [refBitmap [(0, [1]), (3, [4]), (7, [5])], refBitmap [(0, [2]), (4, [9]), (7, [5, 6])]].length
        (newBitmapContainerHeap
          [refBitmap [(0, [1]), (3, [4]), (7, [5])], refBitmap [(0, [2]), (4, [9]), (7, [5, 6])]]).fuel
        (newBitmapContainerHeap
          [refBitmap [(0, [1]), (3, [4]), (7, [5])], refBitmap [(0, [2]), (4, [9]), (7, [5, 6])]])
        0).1.length = r.highlowcontainer.keys.length ∧
      (∀ (i : Nat) (k : Nat), r.highlowcontainer.keys[i]? = some k →
        ∃ ck, (ParAnd.dispatch
            [refBitmap [(0, [1]), (3, [4]), (7, [5])], refBitmap [(0, [2]), (4, [9]), (7, [5, 6])]].length
            (newBitmapContainerHeap
              [refBitmap [(0, [1]), (3, [4]), (7, [5])], refBitmap [(0, [2]), (4, [9]), (7, [5, 6])]]).fuel
            (newBitmapContainerHeap
              [refBitmap [(0, [1]), (3, [4]), (7, [5])], refBitmap [(0, [2]), (4, [9]), (7, [5, 6])]])
            0).1[i]? = some (.input ck) ∧
          ck.key = k ∧ ck.idx = (i : Int) ∧ ck.containers.length =
            [refBitmap [(0, [1]), (3, [4]), (7, [5])], refBitmap [(0, [2]), (4, [9]), (7, [5, 6])]].length) ∧
      (ParAnd.dispatch
        [refBitmap [(0, [1]), (3, [4]), (7, [5])], refBitmap [(0, [2]), (4, [9]), (7, [5, 6])]].length
        (newBitmapContainerHeap
          [refBitmap [(0, [1]), (3, [4]), (7, [5])], refBitmap [(0, [2]), (4, [9]), (7, [5, 6])]]).fuel
        (newBitmapContainerHeap
          [refBitmap [(0, [1]), (3, [4]), (7, [5])], refBitmap [(0, [2]), (4, [9]), (7, [5, 6])]])
        0).2 = (r.highlowcontainer.keys.length : Int) :=
  ⟨lifo_isScheduler, by decide, by decide,
    ParAnd_keys_common refMethods refValid lifo lifo_isScheduler _ (by decide) (by decide)⟩

/-! ### Claim C14 -/

theorem lt_two_pow_of_testBit_high (b n : Nat) (h : ∀ i, n ≤ i → b.testBit i = false) :
    b < 2 ^ n := by
  by_contra hge
  obtain ⟨i, hi, hb⟩ := Nat.ge_two_pow_implies_high_bit_true (Nat.le_of_not_lt hge)
  rw [h i hi] at hb
  exact Bool.noConfusion hb

theorem testBit_high_of_lt_two_pow (b n i : Nat) (hb : b < 2 ^ n) (hi : n ≤ i) :
    b.testBit i = false :=
  Nat.testBit_lt_two_pow (Nat.lt_of_lt_of_le hb (Nat.pow_le_pow_right (by decide) hi))

theorem shiftRight_eq_zero_iff (b n : Nat) : b >>> n = 0 ↔ b < 2 ^ n := by
  rw [Nat.shiftRight_eq_div_pow]
  exact Nat.div_eq_zero_iff (Nat.two_pow_pos n)

theorem testBit_run_bits (iv : List (Nat × Nat)) (v : Nat) :
    (iv.foldr (fun r acc => acc ||| refBitsOfRun r) 0).testBit v =
      iv.any (fun r => (refBitsOfRun r).testBit v) := by
  induction iv with
  | nil => simp
  | cons r t ih =>
    rw [List.foldr_cons, Nat.testBit_or, ih, List.any_cons, Bool.or_comm]

theorem refBits_lt (c : container) (hc : refValid16 c = true) : refBits c < 2 ^ 65536 := by
  cases c with
  | array t =>
    apply lt_two_pow_of_testBit_high
    intro i hi
    show (refBitsOfList t.content).testBit i = false
    rw [testBit_refBitsOfList]
    apply decide_eq_false
    intro hm
    have := List.all_eq_true.mp hc i hm
    simp only [decide_eq_true_eq] at this
    omega
  | bitmap t =>
    simp only [refValid16, Bool.and_eq_true, beq_iff_eq] at hc
    exact (shiftRight_eq_zero_iff _ _).mp hc.1
  | run t =>
    apply lt_two_pow_of_testBit_high
    intro i hi
    show (t.iv.foldr (fun r acc => acc ||| refBitsOfRun r) 0).testBit i = false
    rw [testBit_run_bits]
    rw [Bool.eq_false_iff]
    intro hany
    obtain ⟨r, hr, hb⟩ := List.any_eq_true.mp hany
    have hlt := List.all_eq_true.mp hc r hr
    simp only [decide_eq_true_eq] at hlt
    obtain ⟨a, b⟩ := r
    rw [testBit_refBitsOfRun] at hb
    simp only [Bool.and_eq_true, decide_eq_true_eq] at hb hlt
    omega

theorem refValid16_dense (b : Nat) (hb : b < 2 ^ 65536) :
    refValid16 (.bitmap (refDense b)) = true := by
  simp only [refValid16, refDense, Bool.and_eq_true, beq_iff_eq, Bool.or_eq_true]
  exact ⟨(shiftRight_eq_zero_iff _ _).mpr hb, Or.inr trivial⟩

theorem refValid16_lazy (b : Nat) (hb : b < 2 ^ 65536) :
    refValid16 (.bitmap ⟨-1, b⟩) = true := by
  simp only [refValid16, Bool.and_eq_true, beq_iff_eq, Bool.or_eq_true]
  exact ⟨(shiftRight_eq_zero_iff _ _).mpr hb, Or.inl trivial⟩

theorem and_lt_of_lt (a b n : Nat) (ha : a < 2 ^ n) : a &&& b < 2 ^ n :=
  Nat.lt_of_le_of_lt Nat.and_le_left ha

theorem or_lt_of_lt (a b n : Nat) (ha : a < 2 ^ n) (hb : b < 2 ^ n) : a ||| b < 2 ^ n :=
  Nat.or_lt_two_pow ha hb

theorem refPopCount_eq_filter :
    ∀ (n b fuel : Nat), b < 2 ^ n → b ≤ fuel →
      refPopCount fuel b = ((List.range n).filter (fun v => b.testBit v)).length := by
  intro n
  induction n with
  | zero =>
    intro b fuel hb _
    have h0 : b = 0 := by simpa using hb
    subst h0
    cases fuel <;> simp [refPopCount]
  | succ n ih =>
    intro b fuel hb hf
    by_cases h0 : b = 0
    · subst h0
      cases fuel <;> simp [refPopCount]
    · cases fuel with
      | zero => omega
      | succ f =>
        rw [refPopCount, if_neg h0, ih (b / 2) f (by omega) (by omega), List.range_succ_eq_map,
          List.filter_cons, List.filter_map]
        have hcomp : ((fun v => b.testBit v) ∘ Nat.succ) = (fun v => (b / 2).testBit v) := by
          funext v
          exact Nat.testBit_succ b v
        rw [hcomp, Nat.testBit_zero]
        by_cases hodd : b % 2 = 1
        · rw [if_pos (decide_eq_true hodd), List.length_cons, List.length_map, hodd]
          omega
        · have h2 : b % 2 = 0 := by omega
          rw [if_neg (by rw [decide_eq_true_eq]; exact hodd), List.length_map, h2]
          omega

theorem refContract16 : SetContract refMethods refValid16 where
  and_valid := fun a b ha _ => refValid16_dense _ (and_lt_of_lt _ _ _ (refBits_lt a ha))
  and_contains := fun a b v _ _ _ => Nat.testBit_and (refBits a) (refBits b) v
  iand_valid := fun a b ha _ => refValid16_dense _ (and_lt_of_lt _ _ _ (refBits_lt a ha))
  iand_contains := fun a b v _ _ _ => Nat.testBit_and (refBits a) (refBits b) v
  lazyOR_valid := fun a b ha hb =>
    refValid16_lazy _ (or_lt_of_lt _ _ _ (refBits_lt a ha) (refBits_lt b hb))
  lazyOR_contains := fun a b v _ _ _ => Nat.testBit_or (refBits a) (refBits b) v
  lazyIOR_valid := fun a b ha hb =>
    refValid16_lazy _ (or_lt_of_lt _ _ _ (refBits_lt a ha) (refBits_lt b hb))
  lazyIOR_contains := fun a b v _ _ _ => Nat.testBit_or (refBits a) (refBits b) v
  computeCardinality_valid := fun t ht => refValid16_dense _ (refBits_lt (.bitmap t) ht)
  computeCardinality_known := fun t _ => by
    show ((refPopCount t.bitmap t.bitmap : Nat) : Int) ≠ -1
    omega
  computeCardinality_contains := fun _ _ _ _ => rfl
  toArrayContainer_valid := fun t ht _ => by
    have hb := refBits_lt (.bitmap t) ht
    show (refSetBits t.bitmap 0 t.bitmap).all (fun v => decide (v < 65536)) = true
    rw [List.all_eq_true]
    intro v hv
    have h := (mem_refSetBits t.bitmap 0 t.bitmap v (Nat.lt_two_pow t.bitmap)).mp hv
    simp only [Nat.zero_le, true_and, Nat.sub_zero] at h
    apply decide_eq_true
    by_contra hge
    rw [testBit_high_of_lt_two_pow t.bitmap 65536 v hb (Nat.le_of_not_lt hge)] at h
    exact Bool.noConfusion h
  toArrayContainer_contains := fun t v _ _ _ => testBit_refSetBits t.bitmap v
  bitmapIsFull_contains := fun t v _ _ hfull hv =>
    testBit_of_low_bits_full t.bitmap 65536 v (eq_of_beq hfull) hv
  arrayToBitmapContainer_valid := fun t ht => refValid16_dense _ (refBits_lt (.array t) ht)
  arrayToBitmapContainer_contains := fun _ _ _ _ => rfl
  runToBitmapContainer_valid := fun t ht => refValid16_dense _ (refBits_lt (.run t) ht)
  runToBitmapContainer_contains := fun _ _ _ _ => rfl
  newRunContainer16Range_valid := by decide
  newRunContainer16Range_contains := fun v hv => by
    show ((0 : Nat) ||| refBitsOfRun (0, MaxUint16)).testBit v = true
    rw [Nat.zero_or, testBit_refBitsOfRun]
    simp only [MaxUint16, Nat.zero_le, decide_True, Bool.true_and, Nat.sub_zero,
      decide_eq_true_eq]
    omega

theorem refCardinality16 : CardinalityContract refMethods refValid16 where
  getCardinality_exact := fun t ht hk => by
    have hb := refBits_lt (.bitmap t) ht
    simp only [refValid16, Bool.and_eq_true, beq_iff_eq, Bool.or_eq_true] at ht
    have hcard : t.cardinality = ((refPopCount t.bitmap t.bitmap : Nat) : Int) := by
      rcases ht.2 with h | h
      · exact absurd h hk
      · exact h
    show t.cardinality = _
    rw [hcard, refPopCount_eq_filter 65536 t.bitmap t.bitmap hb (Nat.le_refl _)]
    rfl
  bitmapIsFull_of_contains := fun t ht _ hall => by
    have hb : t.bitmap < 2 ^ 65536 := refBits_lt (.bitmap t) ht
    show (t.bitmap % 2 ^ 65536 == 2 ^ 65536 - 1) = true
    rw [beq_iff_eq, Nat.mod_eq_of_lt hb]
    apply Nat.eq_of_testBit_eq
    intro i
    rw [Nat.testBit_two_pow_sub_one]
    by_cases hi : i < 65536
    · rw [decide_eq_true hi]
      exact hall i hi
    · rw [decide_eq_false hi]
      exact testBit_high_of_lt_two_pow _ _ _ hb (Nat.le_of_not_lt hi)

theorem cardOf_congr (M : containerMethods) (c c' : container)
    (h : ∀ v, v < 65536 → M.contains c v = M.contains c' v) : cardOf M c = cardOf M c' := by
  unfold cardOf
  rw [List.filter_congr (fun v hv => h v (List.mem_range.mp hv))]

/-- C14: under the set contract and the cardinality contract of the container
methods, for every valid container `c`, `repairAfterLazy c` has the members of
`c`; for a dense `c`, with the cardinality known or not, the result is a sparse
array container when the exact count of members is at most
`arrayDefaultMaxSize`, otherwise the run container of `[0, MaxUint16]` when all
65536 values are members, otherwise the dense container `c` itself, with its
cardinality computed if it was unknown, reporting the exact count; an array or
run container is returned as it is. -/
theorem repairAfterLazy_protocol (M : containerMethods) (valid : container → Bool)
    (hM : SetContract M valid) (hC : CardinalityContract M valid)
    (c : container) (hc : valid c = true) :
    (∀ v, v < 65536 → M.contains (repairAfterLazy M c) v = M.contains c v) ∧
    (∀ t, c = .bitmap t →
      ((cardOf M c : Int) ≤ M.arrayDefaultMaxSize →
        repairAfterLazy M c = .array (M.toArrayContainer
          (if t.cardinality = M.invalidCardinality then M.computeCardinality t else t))) ∧
      (¬ (cardOf M c : Int) ≤ M.arrayDefaultMaxSize →
        (∀ v, v < 65536 → M.contains c v = true) →
        repairAfterLazy M c = .run (M.newRunContainer16Range 0 MaxUint16) ∧
        ∀ v, v < 65536 → M.contains (.run (M.newRunContainer16Range 0 MaxUint16)) v = true) ∧
      (¬ (cardOf M c : Int) ≤ M.arrayDefaultMaxSize →
        ¬ (∀ v, v < 65536 → M.contains c v = true) →
        repairAfterLazy M c = .bitmap
          (if t.cardinality = M.invalidCardinality then M.computeCardinality t else t) ∧
        (t.cardinality ≠ M.invalidCardinality → repairAfterLazy M c = c) ∧
        M.getCardinality
          (if t.cardinality = M.invalidCardinality then M.computeCardinality t else t) =
          (cardOf M c : Int))) ∧
    (∀ t, c = .array t → repairAfterLazy M c = c) ∧
    (∀ t, c = .run t → repairAfterLazy M c = c) := by
  refine ⟨(repairAfterLazy_spec hM c hc).2, ?_, fun t ht => by rw [ht]; rfl,
    fun t ht => by rw [ht]; rfl⟩
  intro t ht
  subst ht
  have key : ∃ t', (if t.cardinality = M.invalidCardinality then M.computeCardinality t else t)
      = t' ∧ valid (.bitmap t') = true ∧ t'.cardinality ≠ M.invalidCardinality ∧
      (∀ v, v < 65536 → M.contains (.bitmap t') v = M.contains (.bitmap t) v) ∧
      (t.cardinality ≠ M.invalidCardinality → t' = t) := by
    by_cases hinv : t.cardinality = M.invalidCardinality
    · exact ⟨_, if_pos hinv, hM.computeCardinality_valid t hc,
        hM.computeCardinality_known t hc, fun v hv => hM.computeCardinality_contains t v hc hv,
        fun h => absurd hinv h⟩
    · exact ⟨_, if_neg hinv, hc, hinv, fun _ _ => rfl, fun _ => rfl⟩
  obtain ⟨t', ht', hv', hk', hc', hsame⟩ := key
  have hcard : M.getCardinality t' = (cardOf M (.bitmap t) : Int) := by
    rw [hC.getCardinality_exact t' hv' hk', cardOf_congr M _ _ hc']
  have hunf : repairAfterLazy M (.bitmap t) =
      if M.getCardinality t' ≤ M.arrayDefaultMaxSize then .array (M.toArrayContainer t')
      else if M.bitmapIsFull t' then .run (M.newRunContainer16Range 0 MaxUint16)
      else .bitmap t' := by
    unfold repairAfterLazy
    simp only
    rw [ht']
  rw [ht', hunf, hcard]
  refine ⟨fun hs => if_pos hs, fun hs hall => ⟨?_, hM.newRunContainer16Range_contains⟩,
    fun hs hnot => ⟨?_, ?_, rfl⟩⟩
  · rw [if_neg hs, if_pos (hC.bitmapIsFull_of_contains t' hv' hk'
      (fun v hv => by rw [hc' v hv]; exact hall v hv))]
  · have hnf : ¬ M.bitmapIsFull t' = true := by
      intro hfull
      apply hnot
      intro v hv
      rw [← hc' v hv]
      exact hM.bitmapIsFull_contains t' v hv' hk' hfull hv
    rw [if_neg hs, if_neg hnf]
  · intro hk
    have hnf : ¬ M.bitmapIsFull t' = true := by
      intro hfull
      apply hnot
      intro v hv
      rw [← hc' v hv]
      exact hM.bitmapIsFull_contains t' v hv' hk' hfull hv
    rw [if_neg hs, if_neg hnf, hsame hk]

/-- Witness for C14: the dense container with bits 1, 2 and 3 set and unknown
cardinality is repaired to the array `[1, 2, 3]`. -/
theorem repairAfterLazy_protocol_witness :
    SetContract refMethods refValid16 ∧ CardinalityContract refMethods refValid16 ∧
    refValid16 (.bitmap ⟨-1, 14⟩) = true ∧
    repairAfterLazy refMethods (.bitmap ⟨-1, 14⟩) = .array ⟨[1, 2, 3]⟩ ∧
    ((∀ v, v < 65536 → refMethods.contains (repairAfterLazy refMethods (.bitmap ⟨-1, 14⟩)) v =
        refMethods.contains (.bitmap ⟨-1, 14⟩) v) ∧
    (∀ t, container.bitmap ⟨-1, 14⟩ = .bitmap t →
      ((cardOf refMethods (.bitmap ⟨-1, 14⟩) : Int) ≤ refMethods.arrayDefaultMaxSize →
        repairAfterLazy refMethods (.bitmap ⟨-1, 14⟩) = .array (refMethods.toArrayContainer
          (if t.cardinality = refMethods.invalidCardinality then refMethods.computeCardinality t
            else t))) ∧
      (¬ (cardOf refMethods (.bitmap ⟨-1, 14⟩) : Int) ≤ refMethods.arrayDefaultMaxSize →
        (∀ v, v < 65536 → refMethods.contains (.bitmap ⟨-1, 14⟩) v = true) →
        repairAfterLazy refMethods (.bitmap ⟨-1, 14⟩) =
          .run (refMethods.newRunContainer16Range 0 MaxUint16) ∧
        ∀ v, v < 65536 →
          refMethods.contains (.run (refMethods.newRunContainer16Range 0 MaxUint16)) v = true) ∧
      (¬ (cardOf refMethods (.bitmap ⟨-1, 14⟩) : Int) ≤ refMethods.arrayDefaultMaxSize →
        ¬ (∀ v, v < 65536 → refMethods.contains (.bitmap ⟨-1, 14⟩) v = true) →
        repairAfterLazy refMethods (.bitmap ⟨-1, 14⟩) = .bitmap
          (if t.cardinality = refMethods.invalidCardinality then refMethods.computeCardinality t
            else t) ∧
        (t.cardinality ≠ refMethods.invalidCardinality →
          repairAfterLazy refMethods (.bitmap ⟨-1, 14⟩) = .bitmap ⟨-1, 14⟩) ∧
        refMethods.getCardinality
          (if t.cardinality = refMethods.invalidCardinality then refMethods.computeCardinality t
            else t) =
          (cardOf refMethods (.bitmap ⟨-1, 14⟩) : Int))) ∧
    (∀ t, container.bitmap ⟨-1, 14⟩ = .array t →
      repairAfterLazy refMethods (.bitmap ⟨-1, 14⟩) = .bitmap ⟨-1, 14⟩) ∧
    (∀ t, container.bitmap ⟨-1, 14⟩ = .run t →
      repairAfterLazy refMethods (.bitmap ⟨-1, 14⟩) = .bitmap ⟨-1, 14⟩)) :=
  ⟨refContract16, refCardinality16, by decide, by decide,
    repairAfterLazy_protocol refMethods refValid16 refContract16 refCardinality16
      (.bitmap ⟨-1, 14⟩) (by decide)⟩

end Roaring
